import Mathlib

/-!
Verification of the `synapse_uploader` path-mirroring tool.

We shallowly embed the program (`src/synapse_uploader.py`) in Lean:
strings are Lean `String`s (lists of characters), Python's
`str.replace` / `os.path.join` / `os.path.dirname` / `os.path.basename` /
`str.split` / strip functions are modelled character-exactly for the
POSIX separator `'/'`, and the stateful run of `start()` is modelled as a
state machine over an explicit `RunState` (folder cache, console log and
call counters for the external Synapse client).  The filesystem walk
(`os.walk`) is an external collaborator; it is modelled by its output: a
list of `(dirpath, filenames)` entries consumed in order.
-/

namespace SynapseUploader

/-! ### Python string primitives on `List Char` -/

/-- Python whitespace characters stripped by `str.strip()` (ASCII subset). -/
def pyIsSpace (c : Char) : Bool :=
  c = ' ' || c = '\t' || c = '\n' || c = '\r' || c = '\x0b' || c = '\x0c'

/-- Drop the given characters from the front of a list (Python `lstrip`). -/
def lstripBy (p : Char → Bool) (l : List Char) : List Char :=
  l.dropWhile p

/-- Drop the given characters from the back of a list (Python `rstrip`). -/
def rstripBy (p : Char → Bool) (l : List Char) : List Char :=
  (l.reverse.dropWhile p).reverse

/-- Python `s.strip()` on character lists. -/
def stripL (l : List Char) : List Char :=
  rstripBy pyIsSpace (lstripBy pyIsSpace l)

/-- Python `s.rstrip(os.sep)` on `String`. -/
def rstripSep (s : String) : String :=
  ⟨rstripBy (fun c => c = '/') s.data⟩

/-- Python `s.lstrip(os.sep)` on `String`. -/
def lstripSep (s : String) : String :=
  ⟨lstripBy (fun c => c = '/') s.data⟩

/-- Python `s.strip()` on `String`. -/
def pyStrip (s : String) : String :=
  ⟨stripL s.data⟩

/-- Python `s.split('/')` on character lists: splits at every separator,
keeping empty fields (`"a//b".split("/") == ["a","","b"]`). -/
def pySplit : List Char → List (List Char)
  | [] => [[]]
  | c :: cs =>
    if c = '/' then [] :: pySplit cs
    else
      match pySplit cs with
      | [] => [[c]]
      | h :: t => (c :: h) :: t

/-- Fuel-driven core of Python `str.replace(pat, '')`: scans left to right,
removing each non-overlapping occurrence of `pat`.  The fuel is an upper
bound on the length of the list, which makes the recursion structural. -/
def repAux (pat : List Char) : Nat → List Char → List Char
  | _, [] => []
  | 0, l => l
  | n + 1, c :: cs =>
    if pat.isPrefixOf (c :: cs) && !pat.isEmpty then
      repAux pat n ((c :: cs).drop pat.length)
    else
      c :: repAux pat n cs

/-- Python `s.replace(pat, '')` for non-empty `pat` on character lists. -/
def repL (pat l : List Char) : List Char :=
  repAux pat l.length l

/-- Python `s.replace(pat, '')` on `String`. -/
def pyReplaceEmpty (s pat : String) : String :=
  ⟨repL pat.data s.data⟩

/-! ### POSIX path primitives (`os.path` with `os.sep = '/'`) -/

/-- `os.path.join(a, b)` (POSIX) on character lists: an absolute second
component wins; a separator is inserted unless the first component is
empty or already ends with one. -/
def osJoin2L (a b : List Char) : List Char :=
  if b.head? = some '/' then b
  else if a = [] then a ++ b
  else if a.getLast? = some '/' then a ++ b
  else a ++ '/' :: b

/-- `os.path.join(a, b)` on `String`. -/
def osJoin2 (a b : String) : String :=
  ⟨osJoin2L a.data b.data⟩

/-- The characters after the last `'/'` (the whole list if there is none). -/
def lastSeg (l : List Char) : List Char :=
  (l.reverse.takeWhile (fun c => c ≠ '/')).reverse

/-- `os.path.dirname` (POSIX) on character lists: everything up to the last
separator, with trailing separators stripped unless the head consists only
of separators. -/
def dirnameL (l : List Char) : List Char :=
  if (l.take (l.length - (lastSeg l).length)).all (fun c => c = '/') then
    l.take (l.length - (lastSeg l).length)
  else rstripBy (fun c => c = '/') (l.take (l.length - (lastSeg l).length))

/-- `os.path.dirname` on `String`. -/
def dirnameS (s : String) : String :=
  ⟨dirnameL s.data⟩

/-- `os.path.basename` (POSIX) on `String`. -/
def basenameS (s : String) : String :=
  ⟨lastSeg s.data⟩

/-! ### The uploader model

`Uploader` mirrors the constructed object state of `SynapseUploader.__init__`
(lines 24–34): the dry-run flag, the project id, the local path with
trailing separators stripped, and the normalised optional remote path. -/

structure Uploader where
  dry_run : Bool
  synapse_project : String
  local_path : String
  remote_path : Option String
  deriving Repr, DecidableEq

/-- The remote-path normalisation of `__init__` (lines 28–34): keep the
argument only if stripping whitespace leaves something, then strip leading
and trailing separators, and drop it if that leaves nothing. -/
def normRemote : Option String → Option String
  | none => none
  | some r =>
    if 0 < (pyStrip r).data.length then
      let r2 := rstripSep (lstripSep (pyStrip r))
      if r2.data.length = 0 then none else some r2
    else none

/-- `SynapseUploader.__init__(synapse_project, local_path, remote_path, dry_run)`
(lines 24–34 of the source). -/
def init (synapse_project local_path : String) (remote_path : Option String)
    (dry_run : Bool) : Uploader :=
  ⟨dry_run, synapse_project, rstripSep local_path, normRemote remote_path⟩

/-- `get_synapse_path(local_path, virtual_path)` (lines 94–101):
`os.path.join(project, local_path)` in virtual mode, otherwise
`os.path.join(project, remote_path or '', local_path.replace(local + os.sep, ''))`. -/
def Uploader.get_synapse_path (u : Uploader) (local_path : String)
    (virtual_path : Bool) : String :=
  if virtual_path then osJoin2 u.synapse_project local_path
  else
    osJoin2 (osJoin2 u.synapse_project
        (match u.remote_path with | some r => r | none => ""))
      (pyReplaceEmpty local_path (u.local_path ++ "/"))

/-- A remote Synapse entity handle as the program stores it in the folder
cache: its server id (or the dry-run placeholder), its name and its
parent's id. -/
structure SynEntity where
  id : String
  name : String
  parentId : String
  deriving Repr, DecidableEq

/-- The observable state of one run of the program: the folder cache
(`self._synapse_folders`, an assoc list where the most recent binding
wins), the console output lines, and counters for the calls made to the
external Synapse client (`login`, `get`, `store`, the subset of stores
that upload `File` objects) plus whether the client was constructed. -/
structure RunState where
  folders : List (String × SynEntity)
  log : List String
  loginCalls : Nat
  getCalls : Nat
  storeCalls : Nat
  fileStores : Nat
  clientConstructed : Bool
  nextId : Nat
  deriving Repr, DecidableEq

def RunState.empty : RunState := ⟨[], [], 0, 0, 0, 0, false, 0⟩

/-- Append one console line. -/
def addLog (st : RunState) (line : String) : RunState :=
  { st with log := st.log ++ [line] }

/-- `get_synapse_folder` (line 74–75), as a failable lookup: a missing key
is Python's `KeyError`. -/
def lookupFolder (st : RunState) (k : String) : Option SynEntity :=
  (st.folders.find? (fun e => e.1 = k)).map (fun e => e.2)

/-- `set_synapse_folder` (line 79–80): dictionary assignment. -/
def setFolder (st : RunState) (k : String) (v : SynEntity) : RunState :=
  { st with folders := (k, v) :: st.folders }

/-- Environment-variable lookup (`os.environ[k]`). -/
def envLookup (env : List (String × String)) (k : String) : Option String :=
  (env.find? (fun e => e.1 = k)).map (fun e => e.2)

/-- `create_directory_in_synapse(path, virtual_path)` (lines 105–124).
Returns the new state and `false` exactly when the parent lookup raised
`KeyError`.  In dry-run mode the folder gets the fixed placeholder id
`'syn0'`; otherwise `store` is called and returns a fresh server id. -/
def Uploader.create_directory_in_synapse (u : Uploader) (st : RunState)
    (path : String) (virtual_path : Bool) : RunState × Bool :=
  let st := addLog st ("Processing Folder: " ++ path)
  let full_synapse_path := u.get_synapse_path path virtual_path
  match lookupFolder st (dirnameS full_synapse_path) with
  | none => (st, false)
  | some parent =>
    let st := addLog st ("  -> " ++ full_synapse_path)
    let folder_name := basenameS full_synapse_path
    if u.dry_run then
      (setFolder st full_synapse_path ⟨"syn0", folder_name, parent.id⟩, true)
    else
      (setFolder
        { st with storeCalls := st.storeCalls + 1, nextId := st.nextId + 1 }
        full_synapse_path
        ⟨"synStored" ++ toString st.nextId, folder_name, parent.id⟩, true)

/-- `upload_file_to_synapse(local_file)` (lines 128–138).  Returns `false`
exactly when the parent lookup raised `KeyError`; the `store` of the
`File` happens only outside dry-run mode. -/
def Uploader.upload_file_to_synapse (u : Uploader) (st : RunState)
    (local_file : String) : RunState × Bool :=
  let st := addLog st ("Processing File: " ++ local_file)
  let full_synapse_path := u.get_synapse_path local_file false
  match lookupFolder st (dirnameS full_synapse_path) with
  | none => (st, false)
  | some _parent =>
    let st := addLog st ("  -> " ++ full_synapse_path)
    if u.dry_run then (st, true)
    else
      ({ st with storeCalls := st.storeCalls + 1,
                 fileStores := st.fileStores + 1 }, true)

/-- `login()` (lines 84–90): reads `SYNAPSE_USER` then `SYNAPSE_PASSWORD`
from the environment (a missing one raises `KeyError` and returns
`false`), then constructs the Synapse client and calls its network
`login`. -/
def Uploader.login (_u : Uploader) (env : List (String × String))
    (st : RunState) : RunState × Bool :=
  let st := addLog st "Logging into Synapse..."
  match envLookup env "SYNAPSE_USER" with
  | none => (st, false)
  | some _user =>
    match envLookup env "SYNAPSE_PASSWORD" with
    | none => (st, false)
    | some _pass =>
      ({ st with clientConstructed := true, loginCalls := st.loginCalls + 1 },
       true)

/-- Sequencing of failable steps: propagate a `KeyError` abort, otherwise
continue from the new state. -/
def andThen (r : RunState × Bool) (f : RunState → RunState × Bool) :
    RunState × Bool :=
  match r with
  | (st, true) => f st
  | (st, false) => (st, false)

/-- The loop body of the remote-path pre-creation (lines 52–55): for each
non-empty segment, extend `full_path` with `os.path.join` and create a
virtual directory. -/
def Uploader.createVirtualFolders (u : Uploader) :
    List String → String → RunState → RunState × Bool
  | [], _, st => (st, true)
  | f :: rest, full_path, st =>
    andThen (u.create_directory_in_synapse st (osJoin2 full_path f) true)
      (fun st' => u.createVirtualFolders rest (osJoin2 full_path f) st')

/-- `filter(None, remote_path.split(os.sep))` (line 53): the non-empty
segments of the remote path. -/
def segsOf (rp : String) : List String :=
  ((pySplit rp.data).map (fun l => (⟨l⟩ : String))).filter (fun s => s ≠ "")

/-- Lines 51–55 of `start()`: if a remote path is configured, create its
non-empty `'/'`-separated segments as virtual folders, root to leaf. -/
def Uploader.createRemotePath (u : Uploader) (st : RunState) : RunState × Bool :=
  match u.remote_path with
  | none => (st, true)
  | some rp => u.createVirtualFolders (segsOf rp) "" st

/-- The body of the file loop (lines 63–65): upload each file of the
directory entry, path built with `os.path.join(dirpath, filename)`. -/
def Uploader.processFiles (u : Uploader) (dirpath : String) :
    List String → RunState → RunState × Bool
  | [], st => (st, true)
  | f :: fs, st =>
    andThen (u.upload_file_to_synapse st (osJoin2 dirpath f))
      (fun st' => u.processFiles dirpath fs st')

/-- The `os.walk` loop of `start()` (lines 58–65): for each walk entry,
create a folder unless the directory is the local root itself, then
upload its files. -/
def Uploader.processWalk (u : Uploader) :
    List (String × List String) → RunState → RunState × Bool
  | [], st => (st, true)
  | (dirpath, filenames) :: rest, st =>
    andThen (if dirpath = u.local_path then (st, true)
             else u.create_directory_in_synapse st dirpath false)
      (fun st1 =>
        andThen (u.processFiles dirpath filenames st1)
          (fun st2 => u.processWalk rest st2))

/-- The banner and header prints of `start()` (lines 37–43). -/
def Uploader.headerState (u : Uploader) : RunState :=
  let st := RunState.empty
  let st := if u.dry_run then addLog st "~~ Dry Run ~~" else st
  let st := addLog st ("Uploading to Project: " ++ u.synapse_project)
  let st := addLog st ("Uploading Directory: " ++ u.local_path)
  match u.remote_path with
  | some rp => addLog st ("Uploading To: " ++ rp)
  | none => st

/-- Lines 47–48 of `start()`: fetch the project handle over the network
(`self._synapse_client.get(Project(id=...))`) and insert it into the cache
keyed by the project id. -/
def Uploader.afterProject (u : Uploader) (st : RunState) : RunState :=
  setFolder { st with getCalls := st.getCalls + 1 } u.synapse_project
    ⟨u.synapse_project, u.synapse_project, ""⟩

/-- The completion print of `start()` (lines 67–70). -/
def Uploader.finishLine (u : Uploader) (st : RunState) : RunState × Bool :=
  (addLog st (if u.dry_run then "Dry Run Completed Successfully."
              else "Upload Completed Successfully."), true)

/-- `start()` after the header (lines 45–70): login, project fetch, remote
path creation, walk, completion line.  The boolean is `false` exactly when
some `KeyError` aborted the run. -/
def Uploader.runMain (u : Uploader) (env : List (String × String))
    (walk : List (String × List String)) (st0 : RunState) : RunState × Bool :=
  andThen (u.login env st0) (fun st =>
    andThen (u.createRemotePath (u.afterProject st)) (fun st =>
      andThen (u.processWalk walk st) (fun st => u.finishLine st)))

/-- `start()` (lines 36–70): the header followed by the main phases. -/
def Uploader.start (u : Uploader) (env : List (String × String))
    (walk : List (String × List String)) : RunState × Bool :=
  u.runMain env walk u.headerState

/-! ### Claim-side and specification-side definitions -/

/-- The path-resolution rule as the specification words it: join the
project id, the remote prefix (if any), and the local path with the local
root prefix (root plus separator) removed **from its front** (only a
leading occurrence is stripped).  Used to compare against the program's
`get_synapse_path`, which uses Python's replace-all `str.replace`. -/
def specResolve (u : Uploader) (local_path : String) : String :=
  osJoin2 (osJoin2 u.synapse_project
      (match u.remote_path with | some r => r | none => ""))
    (if (u.local_path ++ "/").data.isPrefixOf local_path.data then
       (⟨local_path.data.drop (u.local_path ++ "/").data.length⟩ : String)
     else local_path)

/-- A valid path segment produced by a real filesystem walk: non-empty and
containing no separator. -/
def validSegL (l : List Char) : Bool :=
  !l.isEmpty && !l.contains '/'

/-- One well-formedness step of a walk: the directory extends some
previously seen directory by exactly one valid segment. -/
def wfStep (seen : List String) (d : String) : Bool :=
  seen.any (fun q =>
    (q ++ "/").data.isPrefixOf d.data && validSegL (d.data.drop (q.data.length + 1)))

/-- Well-formedness of the tail of a walk, given the directories already
seen: every entry's directory is a child of an earlier directory and its
file names are valid segments.  This is what `os.walk`'s top-down order
guarantees. -/
def wfFrom (seen : List String) : List (String × List String) → Bool
  | [] => true
  | (d, fs) :: rest =>
    wfStep seen d && fs.all (fun f => validSegL f.data) && wfFrom (d :: seen) rest

/-- Well-formedness of a full `os.walk` output for root `root`: the walk is
empty, or the root is a non-empty path without trailing separator, the
first entry is the root itself, and every later entry extends an earlier
one by a valid segment. -/
def wfWalk (root : String) : List (String × List String) → Bool
  | [] => true
  | (d, fs) :: rest =>
    !root.data.isEmpty && root.data.getLast? ≠ some '/' && d = root &&
      fs.all (fun f => validSegL f.data) && wfFrom [root] rest

/-- `'/'`-join of a list of segments at the character level (no leading or
trailing separator). -/
def joinSegsL : List (List Char) → List Char
  | [] => []
  | [s] => s
  | s :: s' :: r => s ++ '/' :: joinSegsL (s' :: r)

/-- The cumulative `os.path.join` fold that `start()` uses to build the
virtual prefix path (`full_path` in lines 52–54), starting from `''`. -/
def joinAll (segs : List String) : String :=
  segs.foldl (fun a s => osJoin2 a s) ""

/-- No two adjacent separators (detects Python's `'a//b'`). -/
def noDSB : List Char → Bool
  | [] => true
  | [_] => true
  | a :: b :: t => !(a = '/' && b = '/') && noDSB (b :: t)

/-- A console line reporting progress (`'Processing Folder: …'` or
`'Processing File: …'`). -/
def isProcessingLine (s : String) : Bool :=
  "Processing".data.isPrefixOf s.data

/-- The directory path of a tree node addressed by its segment list,
as `os.walk` spells it: root joined with each segment. -/
def pathOf (root : String) (segs : List String) : String :=
  segs.foldl (fun a s => a ++ "/" ++ s) root

/-- The console line printed when a folder is processed. -/
def folderLine (s : String) : String := "Processing Folder: " ++ s

/-- The console line printed when a file is processed. -/
def fileLine (s : String) : String := "Processing File: " ++ s

/-- The console line printing a resolved remote path. -/
def arrowLine (s : String) : String := "  -> " ++ s

/-- The simulation relation between the state of a dry run and the state
of the corresponding real run: same folder-cache keys in the same order
and same console output except for the leading dry-run banner. -/
def dryMirrors (s t : RunState) : Prop :=
  s.folders.map Prod.fst = t.folders.map Prod.fst ∧
  s.log = "~~ Dry Run ~~" :: t.log

/-- Every cached folder except the project root carries the dry-run
placeholder id. -/
def allSyn0 (P : String) (fs : List (String × SynEntity)) : Prop :=
  ∀ kv ∈ fs, kv.1 ≠ P → kv.2.id = "syn0"

/-- A relative path string in good shape: empty, or non-empty with no
leading and no trailing separator. -/
def goodPath (x : String) : Prop :=
  x = "" ∨ (x.data ≠ [] ∧ x.data.head? ≠ some '/' ∧ x.data.getLast? ≠ some '/')

/-- The cache keys guaranteed present while the walk loop runs: the
project root entry, the final virtual-prefix entry when a remote path is
configured, and the resolved key of every already-visited directory other
than the local root. -/
def walkInv (u : Uploader) (st : RunState) (seen : List String) : Prop :=
  lookupFolder st u.synapse_project ≠ none ∧
  (∀ pre, u.remote_path = some pre →
    lookupFolder st (osJoin2 u.synapse_project pre) ≠ none) ∧
  (∀ x ∈ seen, x ≠ u.local_path →
    lookupFolder st (u.get_synapse_path x false) ≠ none)

/-- Every directory recorded as seen is the local root extended by valid
segments, and all the directories on the way down to it are seen as
well.  `os.walk`'s top-down order establishes this along the run. -/
def seenGood (root : String) (seen : List String) : Prop :=
  ∀ x ∈ seen, ∃ segs : List String,
    (∀ s ∈ segs, validSegL s.data = true) ∧
    x = pathOf root segs ∧
    (∀ i, i ≤ segs.length → pathOf root (segs.take i) ∈ seen)

/-! ### Basic lemmas about the string primitives -/

theorem rstripBy_append_sat (p : Char → Bool) (l : List Char) (c : Char)
    (h : p c = true) : rstripBy p (l ++ [c]) = rstripBy p l := by
  simp [rstripBy, List.dropWhile_cons, h]

theorem dropWhile_eq_self_of_not (p : Char → Bool) (l : List Char)
    (h : ∀ c ∈ l, p c = false) : l.dropWhile p = l := by
  cases l with
  | nil => rfl
  | cons c cs => simp [List.dropWhile_cons, h c (by simp)]

/-- Fuel irrelevance for the `str.replace` scanner. -/
theorem repAux_fuel (pat : List Char) :
    ∀ n m l, l.length ≤ n → l.length ≤ m → repAux pat n l = repAux pat m l := by
  intro n
  induction n with
  | zero =>
    intro m l hn _
    have : l = [] := List.eq_nil_of_length_eq_zero (Nat.le_zero.mp hn)
    subst this
    cases m <;> rfl
  | succ n ih =>
    intro m l hn hm
    cases l with
    | nil => cases m <;> rfl
    | cons c cs =>
      cases m with
      | zero => simp at hm
      | succ m =>
        show repAux pat (n+1) (c :: cs) = repAux pat (m+1) (c :: cs)
        simp only [repAux]
        by_cases hpre : (pat.isPrefixOf (c :: cs) && !pat.isEmpty) = true
        · rw [if_pos hpre, if_pos hpre]
          have hplen : 1 ≤ pat.length := by
            rcases pat with _ | ⟨a, pa⟩
            · simp [List.isEmpty] at hpre
            · simp
          apply ih
          · simp only [List.length_drop, List.length_cons] at *
            omega
          · simp only [List.length_drop, List.length_cons] at *
            omega
        · rw [if_neg hpre, if_neg hpre]
          have := ih m cs (by simpa using Nat.lt_succ_iff.mp (Nat.lt_of_lt_of_le (Nat.lt_succ_of_le (Nat.le_refl _)) hn)) (by simp at hm; omega)
          rw [this]

@[simp] theorem repL_nil (pat : List Char) : repL pat [] = [] := rfl

theorem repL_cons (pat : List Char) (hpat : pat ≠ []) (c : Char) (cs : List Char) :
    repL pat (c :: cs) =
      if pat.isPrefixOf (c :: cs) = true then repL pat ((c :: cs).drop pat.length)
      else c :: repL pat cs := by
  have hplen : 1 ≤ pat.length := by
    rcases pat with _ | ⟨a, pa⟩
    · exact absurd rfl hpat
    · simp
  show repAux pat (cs.length + 1) (c :: cs) = _
  simp only [repAux]
  by_cases hpre : pat.isPrefixOf (c :: cs) = true
  · have hni : (!pat.isEmpty) = true := by
      rcases pat with _ | _
      · exact absurd rfl hpat
      · rfl
    rw [if_pos (by rw [hpre, hni]; rfl), if_pos hpre]
    apply repAux_fuel
    · simp only [List.length_drop, List.length_cons]; omega
    · exact Nat.le_refl _
  · rw [if_neg (by simp [hpre]), if_neg hpre]
    rfl

/-- Scanning a string that starts with the pattern removes that occurrence. -/
theorem repL_prefix (pat l : List Char) (hpat : pat ≠ []) :
    repL pat (pat ++ l) = repL pat l := by
  rcases pat with _ | ⟨c, pc⟩
  · exact absurd rfl hpat
  · rw [show (c :: pc) ++ l = c :: (pc ++ l) from rfl,
      repL_cons _ hpat c (pc ++ l)]
    have hpre : (c :: pc).isPrefixOf (c :: (pc ++ l)) = true := by
      rw [List.isPrefixOf_iff_prefix]
      exact ⟨l, rfl⟩
    rw [if_pos hpre]
    congr 1
    rw [show c :: (pc ++ l) = (c :: pc) ++ l from rfl]
    exact List.drop_left _ _

/-- If the pattern occurs nowhere in the string, `replace` is the identity. -/
theorem repL_no_occurrence (pat : List Char) :
    ∀ l, ¬ pat <:+: l → repL pat l = l := by
  intro l
  induction l with
  | nil => intro _; rfl
  | cons c cs ih =>
    intro h
    have hpat : pat ≠ [] := by
      intro he
      subst he
      exact h List.nil_infix
    rw [repL_cons _ hpat c cs]
    rw [if_neg]
    · rw [ih (fun hi => h (List.infix_cons hi))]
    · intro hpre
      exact h (List.isPrefixOf_iff_prefix.mp hpre).isInfix

/-! ### Lemmas about the path primitives -/

theorem mem_of_getLast?_eq (X : List Char) (c : Char)
    (h : X.getLast? = some c) : c ∈ X := by
  obtain ⟨hne, hval⟩ := List.mem_getLast?_eq_getLast (Option.mem_def.mpr h)
  rw [hval]
  exact List.getLast_mem hne

theorem takeWhile_append_stop (p : Char → Bool) (as bs : List Char) (b : Char)
    (ha : ∀ a ∈ as, p a = true) (hb : p b = false) :
    (as ++ b :: bs).takeWhile p = as := by
  induction as with
  | nil => simp [List.takeWhile_cons, hb]
  | cons a as ih =>
    simp [List.takeWhile_cons, ha a (by simp),
      ih (fun x hx => ha x (by simp [hx]))]

theorem rstrip_no_trailing (X : List Char) (h : X.getLast? ≠ some '/') :
    rstripBy (fun c => c = '/') X = X := by
  unfold rstripBy
  cases hrev : X.reverse with
  | nil =>
    have : X = [] := by simpa using congrArg List.reverse hrev
    subst this
    rfl
  | cons c rest =>
    have hc : X.getLast? = some c := by
      rw [← List.head?_reverse, hrev]
      rfl
    have hcne : (decide (c = '/')) = false := by
      by_cases hcc : c = '/'
      · exact absurd (hcc ▸ hc) h
      · simp [hcc]
    rw [List.dropWhile_cons]
    simp only [hcne, Bool.false_eq_true, if_false]
    rw [← hrev, List.reverse_reverse]

theorem getLast?_ne_of_not_mem (X : List Char) (h : '/' ∉ X) :
    X.getLast? ≠ some '/' := by
  intro hc
  exact h (mem_of_getLast?_eq X '/' hc)

theorem takeWhile_all (p : Char → Bool) (xs : List Char)
    (h : ∀ a ∈ xs, p a = true) : xs.takeWhile p = xs := by
  induction xs with
  | nil => rfl
  | cons a as ih =>
    simp [List.takeWhile_cons, h a (by simp), ih (fun x hx => h x (by simp [hx]))]

theorem lastSeg_append (X Y : List Char) (hY : '/' ∉ Y) :
    lastSeg (X ++ '/' :: Y) = Y := by
  unfold lastSeg
  rw [List.reverse_append, List.reverse_cons, List.append_assoc,
    List.singleton_append]
  have hall : ∀ a ∈ Y.reverse, (fun c => decide (c ≠ '/')) a = true := by
    intro a hx
    have hmem : a ∈ Y := List.mem_reverse.mp hx
    simp only [decide_eq_true_eq]
    exact fun hcc => hY (hcc ▸ hmem)
  rw [takeWhile_append_stop _ Y.reverse X.reverse '/' hall (by simp)]
  exact List.reverse_reverse Y

theorem dirnameL_append (X Y : List Char) (hY : '/' ∉ Y)
    (hX : X ≠ []) (hlast : X.getLast? ≠ some '/') :
    dirnameL (X ++ '/' :: Y) = X := by
  unfold dirnameL
  rw [lastSeg_append X Y hY]
  have hlen : (X ++ '/' :: Y).length - Y.length = X.length + 1 := by
    simp only [List.length_append, List.length_cons]
    omega
  rw [hlen]
  have htake : (X ++ '/' :: Y).take (X.length + 1) = X ++ ['/'] := by
    rw [List.take_append_eq_append_take]
    simp
  rw [htake]
  have hnotall : ((X ++ ['/']).all (fun c => c = '/')) = false := by
    rcases hc : X.getLast? with _ | c
    · rw [List.getLast?_eq_none_iff] at hc
      exact absurd hc hX
    · have hmem : c ∈ X := mem_of_getLast?_eq X c hc
      have hcne : c ≠ '/' := fun hcc => hlast (hcc ▸ hc)
      apply Bool.eq_false_iff.mpr
      intro hall
      rw [List.all_eq_true] at hall
      exact hcne (by simpa using hall c (List.mem_append.mpr (Or.inl hmem)))
  rw [hnotall]
  simp only [Bool.false_eq_true, if_false]
  rw [rstripBy_append_sat _ _ _ (by decide)]
  exact rstrip_no_trailing X hlast

theorem dirnameL_no_slash (l : List Char) (h : '/' ∉ l) : dirnameL l = [] := by
  unfold dirnameL lastSeg
  have hself : l.reverse.takeWhile (fun c => decide (c ≠ '/')) = l.reverse := by
    apply takeWhile_all
    intro a ha
    simp only [decide_eq_true_eq]
    exact fun hcc => h (hcc ▸ List.mem_reverse.mp ha)
  rw [hself, List.reverse_reverse]
  simp

theorem head?_ne_of_not_mem (X : List Char) (h : '/' ∉ X) :
    X.head? ≠ some '/' := by
  intro hc
  cases X with
  | nil => simp at hc
  | cons a as =>
    simp at hc
    exact h (by simp [hc])

theorem osJoin2_data_sep (a b : String) (hb : b.data.head? ≠ some '/')
    (ha : a.data ≠ []) (ha2 : a.data.getLast? ≠ some '/') :
    (osJoin2 a b).data = a.data ++ '/' :: b.data := by
  show osJoin2L a.data b.data = _
  unfold osJoin2L
  rw [if_neg hb, if_neg ha, if_neg ha2]

theorem osJoin2_data_slash_end (a b : String) (hb : b.data.head? ≠ some '/')
    (ha2 : a.data.getLast? = some '/') :
    (osJoin2 a b).data = a.data ++ b.data := by
  show osJoin2L a.data b.data = _
  unfold osJoin2L
  have ha : a.data ≠ [] := by
    intro he
    rw [he] at ha2
    simp at ha2
  rw [if_neg hb, if_neg ha, if_pos ha2]

theorem osJoin2_empty_left (b : String) (hb : b.data.head? ≠ some '/') :
    (osJoin2 "" b).data = b.data := by
  show osJoin2L [] b.data = _
  unfold osJoin2L
  rw [if_neg hb, if_pos rfl]
  rfl

theorem getLast?_append_cons (A : List Char) (x : Char) (B : List Char) :
    (A ++ x :: B).getLast? = (x :: B).getLast? :=
  List.getLast?_append_cons A x B

theorem pySplit_cons (c : Char) (cs : List Char) :
    pySplit (c :: cs) =
      if c = '/' then [] :: pySplit cs
      else
        match pySplit cs with
        | [] => [[c]]
        | h :: t => (c :: h) :: t := rfl

theorem pySplit_ne_nil (l : List Char) : pySplit l ≠ [] := by
  cases l with
  | nil => simp [pySplit]
  | cons c cs =>
    rw [pySplit_cons]
    by_cases hc : c = '/'
    · simp [hc]
    · rw [if_neg hc]
      cases pySplit cs <;> simp

theorem pySplit_no_slash (l : List Char) : ∀ part ∈ pySplit l, '/' ∉ part := by
  induction l with
  | nil =>
    intro part hp
    simp [pySplit] at hp
    simp [hp]
  | cons c cs ih =>
    intro part hp
    by_cases hc : c = '/'
    · rw [pySplit_cons, if_pos hc] at hp
      rcases List.mem_cons.mp hp with hp | hp
      · simp [hp]
      · exact ih part hp
    · cases hps : pySplit cs with
      | nil => exact absurd hps (pySplit_ne_nil cs)
      | cons hd tl =>
        rw [pySplit_cons, if_neg hc, hps] at hp
        rcases List.mem_cons.mp hp with hp | hp
        · subst hp
          intro hmem
          rcases List.mem_cons.mp hmem with hmem | hmem
          · exact hc hmem.symm
          · exact ih hd (by rw [hps]; simp) hmem
        · exact ih part (by rw [hps]; simp [hp])

theorem segsOf_valid (rp : String) :
    ∀ s ∈ segsOf rp, s.data ≠ [] ∧ '/' ∉ s.data := by
  intro s hs
  unfold segsOf at hs
  rcases List.mem_filter.mp hs with ⟨hmem, hne⟩
  rcases List.mem_map.mp hmem with ⟨part, hpart, hval⟩
  constructor
  · intro hd
    have : s = "" := String.ext hd
    simp [this] at hne
  · intro hmem2
    exact pySplit_no_slash rp.data part hpart (by
      rw [← hval] at hmem2
      exact hmem2)

/-- Shape of the cumulative `os.path.join` fold over valid segments. -/
theorem joinAll_shape (segs : List String)
    (h : ∀ s ∈ segs, s.data ≠ [] ∧ '/' ∉ s.data) :
    (joinAll segs = "" → segs = []) ∧
    (segs ≠ [] → (joinAll segs).data ≠ [] ∧
      (joinAll segs).data.head? ≠ some '/' ∧
      (joinAll segs).data.getLast? ≠ some '/') := by
  induction segs using List.reverseRecOn with
  | nil => exact ⟨fun _ => rfl, fun hne => absurd rfl hne⟩
  | append_singleton done f ih =>
    have hf := h f (by simp)
    have hdone : ∀ s ∈ done, s.data ≠ [] ∧ '/' ∉ s.data :=
      fun s hs => h s (by simp [hs])
    have hjf : joinAll (done ++ [f]) = osJoin2 (joinAll done) f := by
      unfold joinAll
      rw [List.foldl_append]
      rfl
    have hfh : f.data.head? ≠ some '/' := head?_ne_of_not_mem _ hf.2
    have hfl : f.data.getLast? ≠ some '/' := getLast?_ne_of_not_mem _ hf.2
    by_cases hd : done = []
    · subst hd
      have hj0 : joinAll ([] : List String) = "" := rfl
      have hthis : (osJoin2 "" f).data = f.data := osJoin2_empty_left f hfh
      rw [hjf, hj0]
      constructor
      · intro he
        exfalso
        apply hf.1
        have hd2 := congrArg String.data he
        rw [hthis] at hd2
        simpa using hd2
      · intro _
        refine ⟨by rw [hthis]; exact hf.1, by rw [hthis]; exact hfh,
          by rw [hthis]; exact hfl⟩
    · obtain ⟨hne, hh, hl⟩ := (ih hdone).2 hd
      have hdata : (osJoin2 (joinAll done) f).data
          = (joinAll done).data ++ '/' :: f.data :=
        osJoin2_data_sep _ _ hfh hne hl
      rw [hjf]
      constructor
      · intro he
        have := congrArg String.data he
        rw [hdata] at this
        simp at this
      · intro _
        refine ⟨by rw [hdata]; simp, ?_, ?_⟩
        · rw [hdata]
          cases hje : (joinAll done).data with
          | nil => exact absurd hje hne
          | cons x xs =>
            rw [hje] at hh
            simpa using hh
        · rw [hdata, getLast?_append_cons]
          cases hfd : f.data with
          | nil => exact absurd hfd hf.1
          | cons x xs =>
            rw [show ('/' :: x :: xs).getLast? = (x :: xs).getLast? from rfl]
            rw [← hfd]
            exact hfl

/-! ### Cache-lookup lemmas -/

@[simp] theorem lookupFolder_setFolder_self (st : RunState) (k : String)
    (v : SynEntity) : lookupFolder (setFolder st k v) k = some v := by
  unfold lookupFolder setFolder
  simp [List.find?_cons]

theorem lookupFolder_setFolder_mono (st : RunState) (k k' : String)
    (v : SynEntity) (h : lookupFolder st k ≠ none) :
    lookupFolder (setFolder st k' v) k ≠ none := by
  unfold lookupFolder setFolder at *
  simp only [List.find?_cons]
  cases hd : (decide (k' = k)) with
  | true => simp
  | false =>
    simp only [hd]
    exact h

theorem find?_append_mono (k : String) (n old : List (String × SynEntity))
    (h : old.find? (fun e => e.1 = k) ≠ none) :
    (n ++ old).find? (fun e => e.1 = k) ≠ none := by
  induction n with
  | nil => exact h
  | cons a as ih =>
    rw [List.cons_append, List.find?_cons]
    cases hd : (decide (a.1 = k)) with
    | true => simp
    | false =>
      simp only [hd]
      exact ih

theorem lookupFolder_ext_mono (st st' : RunState) (k : String)
    (hext : ∃ n, st'.folders = n ++ st.folders)
    (h : lookupFolder st k ≠ none) : lookupFolder st' k ≠ none := by
  rcases hext with ⟨n, hn⟩
  unfold lookupFolder at *
  rw [hn]
  have := find?_append_mono k n st.folders (by
    intro hc
    apply h
    rw [hc]
    rfl)
  intro hc
  apply this
  cases hf : (n ++ st.folders).find? (fun e => e.1 = k) with
  | none => rfl
  | some x =>
    rw [hf] at hc
    simp at hc

/-! ### Projection lemmas for the run-state operations -/

@[simp] theorem addLog_folders (st : RunState) (s : String) :
    (addLog st s).folders = st.folders := rfl
@[simp] theorem addLog_log (st : RunState) (s : String) :
    (addLog st s).log = st.log ++ [s] := rfl
@[simp] theorem addLog_loginCalls (st : RunState) (s : String) :
    (addLog st s).loginCalls = st.loginCalls := rfl
@[simp] theorem addLog_getCalls (st : RunState) (s : String) :
    (addLog st s).getCalls = st.getCalls := rfl
@[simp] theorem addLog_storeCalls (st : RunState) (s : String) :
    (addLog st s).storeCalls = st.storeCalls := rfl
@[simp] theorem addLog_fileStores (st : RunState) (s : String) :
    (addLog st s).fileStores = st.fileStores := rfl
@[simp] theorem addLog_clientConstructed (st : RunState) (s : String) :
    (addLog st s).clientConstructed = st.clientConstructed := rfl
@[simp] theorem setFolder_log (st : RunState) (k : String) (v : SynEntity) :
    (setFolder st k v).log = st.log := rfl
@[simp] theorem setFolder_folders (st : RunState) (k : String) (v : SynEntity) :
    (setFolder st k v).folders = (k, v) :: st.folders := rfl
@[simp] theorem setFolder_loginCalls (st : RunState) (k : String) (v : SynEntity) :
    (setFolder st k v).loginCalls = st.loginCalls := rfl
@[simp] theorem setFolder_getCalls (st : RunState) (k : String) (v : SynEntity) :
    (setFolder st k v).getCalls = st.getCalls := rfl
@[simp] theorem setFolder_storeCalls (st : RunState) (k : String) (v : SynEntity) :
    (setFolder st k v).storeCalls = st.storeCalls := rfl
@[simp] theorem setFolder_fileStores (st : RunState) (k : String) (v : SynEntity) :
    (setFolder st k v).fileStores = st.fileStores := rfl
@[simp] theorem setFolder_clientConstructed (st : RunState) (k : String)
    (v : SynEntity) :
    (setFolder st k v).clientConstructed = st.clientConstructed := rfl

/-- Two strings with different prefixes (up to a common length) stay
different under arbitrary suffixes. -/
theorem append_ne_of_take_ne (x y : String) (n : Nat) (hx : n ≤ x.data.length)
    (hy : n ≤ y.data.length) (hne : x.data.take n ≠ y.data.take n) :
    ∀ a b : String, x ++ a ≠ y ++ b := by
  intro a b h
  apply hne
  have hd := congrArg String.data h
  rw [String.data_append, String.data_append] at hd
  have h2 := congrArg (List.take n) hd
  rw [List.take_append_eq_append_take, List.take_append_eq_append_take,
    Nat.sub_eq_zero_of_le hx, Nat.sub_eq_zero_of_le hy] at h2
  simpa using h2

theorem folderLine_injective (a b : String) (h : folderLine a = folderLine b) :
    a = b := by
  unfold folderLine at h
  have hd := congrArg String.data h
  rw [String.data_append, String.data_append] at hd
  exact String.ext (List.append_cancel_left hd)

theorem fileLine_ne_folderLine (a b : String) : fileLine a ≠ folderLine b :=
  append_ne_of_take_ne "Processing File: " "Processing Folder: " 13
    (by decide) (by decide) (by decide) a b

theorem arrowLine_ne_folderLine (a b : String) : arrowLine a ≠ folderLine b :=
  append_ne_of_take_ne "  -> " "Processing Folder: " 1
    (by decide) (by decide) (by decide) a b

theorem fileLine_injective (a b : String) (h : fileLine a = fileLine b) :
    a = b := by
  unfold fileLine at h
  have hd := congrArg String.data h
  rw [String.data_append, String.data_append] at hd
  exact String.ext (List.append_cancel_left hd)

@[simp] theorem lookupFolder_addLog (st : RunState) (s k : String) :
    lookupFolder (addLog st s) k = lookupFolder st k := rfl

/-! ### Unfolding equations for the run phases -/

@[simp] theorem andThen_true (st : RunState) (f : RunState → RunState × Bool) :
    andThen (st, true) f = f st := rfl

@[simp] theorem andThen_false (st : RunState) (f : RunState → RunState × Bool) :
    andThen (st, false) f = (st, false) := rfl

theorem processFiles_nil (u : Uploader) (d : String) (st : RunState) :
    u.processFiles d [] st = (st, true) := rfl

theorem processFiles_cons (u : Uploader) (d f : String) (fs : List String)
    (st : RunState) :
    u.processFiles d (f :: fs) st =
      andThen (u.upload_file_to_synapse st (osJoin2 d f))
        (fun st' => u.processFiles d fs st') := rfl

theorem processWalk_nil (u : Uploader) (st : RunState) :
    u.processWalk [] st = (st, true) := rfl

theorem processWalk_cons (u : Uploader) (e : String × List String)
    (rest : List (String × List String)) (st : RunState) :
    u.processWalk (e :: rest) st =
      andThen (if e.1 = u.local_path then (st, true)
               else u.create_directory_in_synapse st e.1 false)
        (fun st1 =>
          andThen (u.processFiles e.1 e.2 st1)
            (fun st2 => u.processWalk rest st2)) := by
  cases e
  rfl

theorem createVirtualFolders_nil (u : Uploader) (full : String) (st : RunState) :
    u.createVirtualFolders [] full st = (st, true) := rfl

theorem createVirtualFolders_cons (u : Uploader) (f : String) (rest : List String)
    (full : String) (st : RunState) :
    u.createVirtualFolders (f :: rest) full st =
      andThen (u.create_directory_in_synapse st (osJoin2 full f) true)
        (fun st' => u.createVirtualFolders rest (osJoin2 full f) st') := rfl

/-! ### Folder-cache shape lemmas for the operations -/

theorem allSyn0_nil (P : String) : allSyn0 P [] := by
  intro kv hkv
  simp at hkv

theorem allSyn0_cons (P k : String) (v : SynEntity) (fs : List (String × SynEntity)) :
    allSyn0 P ((k, v) :: fs) ↔ (k ≠ P → v.id = "syn0") ∧ allSyn0 P fs := by
  constructor
  · intro h
    exact ⟨fun hk => h (k, v) (by simp) hk, fun kv hkv => h kv (by simp [hkv])⟩
  · rintro ⟨h1, h2⟩ kv hkv hne
    rcases List.mem_cons.mp hkv with he | hm
    · subst he
      exact h1 hne
    · exact h2 kv hm hne

theorem create_dir_allSyn0 (P : String) (u : Uploader) (hu : u.dry_run = true)
    (st : RunState) (path : String) (v : Bool) (h : allSyn0 P st.folders) :
    allSyn0 P (u.create_directory_in_synapse st path v).1.folders := by
  unfold Uploader.create_directory_in_synapse
  simp only [lookupFolder_addLog]
  cases hl : lookupFolder st (dirnameS (u.get_synapse_path path v)) with
  | none => simpa using h
  | some parent =>
    simp only [hu]
    simp only [if_true]
    simp only [setFolder_folders, addLog_folders]
    rw [allSyn0_cons]
    exact ⟨fun _ => rfl, h⟩

theorem upload_file_folders (u : Uploader) (st : RunState) (f : String) :
    (u.upload_file_to_synapse st f).1.folders = st.folders := by
  unfold Uploader.upload_file_to_synapse
  simp only [lookupFolder_addLog]
  cases hl : lookupFolder st (dirnameS (u.get_synapse_path f false)) with
  | none => simp [hl]
  | some parent => cases hd : u.dry_run <;> simp [hl, hd]

theorem processFiles_folders (u : Uploader) (d : String) :
    ∀ (fs : List String) (st : RunState),
      (u.processFiles d fs st).1.folders = st.folders := by
  intro fs
  induction fs with
  | nil => intro st; rfl
  | cons f fs ih =>
    intro st
    rw [processFiles_cons]
    rcases hr : u.upload_file_to_synapse st (osJoin2 d f) with ⟨st', b⟩
    have hfold : st'.folders = st.folders := by
      have := upload_file_folders u st (osJoin2 d f)
      rw [hr] at this
      exact this
    cases b
    · simpa using hfold
    · simpa [ih st'] using hfold

theorem virtual_allSyn0 (P : String) (u : Uploader) (hu : u.dry_run = true) :
    ∀ (segs : List String) (full : String) (st : RunState),
      allSyn0 P st.folders →
      allSyn0 P (u.createVirtualFolders segs full st).1.folders := by
  intro segs
  induction segs with
  | nil => intro full st h; exact h
  | cons f rest ih =>
    intro full st h
    rw [createVirtualFolders_cons]
    rcases hc : u.create_directory_in_synapse st (osJoin2 full f) true with ⟨st', b⟩
    have h' : allSyn0 P st'.folders := by
      have := create_dir_allSyn0 P u hu st (osJoin2 full f) true h
      rw [hc] at this
      exact this
    cases b
    · simpa using h'
    · simpa using ih (osJoin2 full f) st' h'

theorem processWalk_allSyn0 (P : String) (u : Uploader) (hu : u.dry_run = true) :
    ∀ (w : List (String × List String)) (st : RunState),
      allSyn0 P st.folders →
      allSyn0 P (u.processWalk w st).1.folders := by
  intro w
  induction w with
  | nil => intro st h; exact h
  | cons e rest ih =>
    intro st h
    rcases h1 : (if e.1 = u.local_path then (st, true)
        else u.create_directory_in_synapse st e.1 false) with ⟨st1, b1⟩
    have hst1 : allSyn0 P st1.folders := by
      by_cases he : e.1 = u.local_path
      · rw [if_pos he] at h1
        cases h1
        exact h
      · rw [if_neg he] at h1
        have := create_dir_allSyn0 P u hu st e.1 false h
        rw [h1] at this
        exact this
    rw [processWalk_cons, h1]
    cases b1 with
    | false => simpa using hst1
    | true =>
      rcases h2 : u.processFiles e.1 e.2 st1 with ⟨st2, b2⟩
      have hst2 : allSyn0 P st2.folders := by
        have := processFiles_folders u e.1 e.2 st1
        rw [h2] at this
        rw [this]
        exact hst1
      simp only [andThen_true, h2]
      cases b2 with
      | false => simpa using hst2
      | true => simpa using ih st2 hst2

theorem login_folders (u : Uploader) (env : List (String × String)) (st : RunState) :
    (u.login env st).1.folders = st.folders := by
  unfold Uploader.login
  cases h1 : envLookup env "SYNAPSE_USER" with
  | none => simp [h1]
  | some us =>
    cases h2 : envLookup env "SYNAPSE_PASSWORD" with
    | none => simp [h1, h2]
    | some pw => simp [h1, h2]

theorem headerState_folders (u : Uploader) : u.headerState.folders = [] := by
  unfold Uploader.headerState
  cases hd : u.dry_run <;> cases hr : u.remote_path <;>
    simp [hd, RunState.empty]

theorem createRemotePath_allSyn0 (P : String) (u : Uploader)
    (hu : u.dry_run = true) (st : RunState) (h : allSyn0 P st.folders) :
    allSyn0 P (u.createRemotePath st).1.folders := by
  unfold Uploader.createRemotePath
  cases hr : u.remote_path with
  | none => exact h
  | some rp => exact virtual_allSyn0 P u hu _ "" st h

theorem start_allSyn0 (u : Uploader) (hu : u.dry_run = true)
    (env : List (String × String)) (w : List (String × List String)) :
    allSyn0 u.synapse_project (u.start env w).1.folders := by
  unfold Uploader.start Uploader.runMain
  rcases hlog : u.login env u.headerState with ⟨st5, b5⟩
  have hf5 : st5.folders = [] := by
    have := login_folders u env u.headerState
    rw [hlog] at this
    simpa [headerState_folders] using this
  have h5 : allSyn0 u.synapse_project st5.folders := by
    rw [hf5]
    exact allSyn0_nil _
  cases b5 with
  | false => simpa using h5
  | true =>
    have h6 : allSyn0 u.synapse_project (u.afterProject st5).folders := by
      unfold Uploader.afterProject
      simp only [setFolder_folders]
      rw [allSyn0_cons]
      exact ⟨fun hne => absurd rfl hne, h5⟩
    simp only [andThen_true]
    rcases hc : u.createRemotePath (u.afterProject st5) with ⟨st8, b8⟩
    have h8 : allSyn0 u.synapse_project st8.folders := by
      have := createRemotePath_allSyn0 u.synapse_project u hu (u.afterProject st5) h6
      rw [hc] at this
      exact this
    cases b8 with
    | false => simpa using h8
    | true =>
      simp only [andThen_true]
      rcases hw : u.processWalk w st8 with ⟨st9, b9⟩
      have h9 : allSyn0 u.synapse_project st9.folders := by
        have := processWalk_allSyn0 u.synapse_project u hu w st8 h8
        rw [hw] at this
        exact this
      cases b9 with
      | false => simpa using h9
      | true =>
        unfold Uploader.finishLine
        simpa using h9

/-! ### Counter bookkeeping for the operations -/

theorem create_dir_preserved (u : Uploader) (st : RunState) (path : String)
    (v : Bool) :
    (u.create_directory_in_synapse st path v).1.loginCalls = st.loginCalls ∧
    (u.create_directory_in_synapse st path v).1.getCalls = st.getCalls ∧
    (u.create_directory_in_synapse st path v).1.clientConstructed
      = st.clientConstructed ∧
    (u.dry_run = true →
      (u.create_directory_in_synapse st path v).1.storeCalls = st.storeCalls ∧
      (u.create_directory_in_synapse st path v).1.fileStores = st.fileStores) := by
  unfold Uploader.create_directory_in_synapse
  simp only [lookupFolder_addLog]
  cases hl : lookupFolder st (dirnameS (u.get_synapse_path path v)) with
  | none => simp
  | some parent => cases hd : u.dry_run <;> simp [hd]

theorem upload_file_preserved (u : Uploader) (st : RunState) (f : String) :
    (u.upload_file_to_synapse st f).1.loginCalls = st.loginCalls ∧
    (u.upload_file_to_synapse st f).1.getCalls = st.getCalls ∧
    (u.upload_file_to_synapse st f).1.clientConstructed = st.clientConstructed ∧
    (u.dry_run = true →
      (u.upload_file_to_synapse st f).1.storeCalls = st.storeCalls ∧
      (u.upload_file_to_synapse st f).1.fileStores = st.fileStores) := by
  unfold Uploader.upload_file_to_synapse
  simp only [lookupFolder_addLog]
  cases hl : lookupFolder st (dirnameS (u.get_synapse_path f false)) with
  | none => simp
  | some parent => cases hd : u.dry_run <;> simp [hd]

theorem processFiles_preserved (u : Uploader) (d : String) :
    ∀ (fs : List String) (st : RunState),
      (u.processFiles d fs st).1.loginCalls = st.loginCalls ∧
      (u.processFiles d fs st).1.getCalls = st.getCalls ∧
      (u.processFiles d fs st).1.clientConstructed = st.clientConstructed ∧
      (u.dry_run = true →
        (u.processFiles d fs st).1.storeCalls = st.storeCalls ∧
        (u.processFiles d fs st).1.fileStores = st.fileStores) := by
  intro fs
  induction fs with
  | nil => intro st; exact ⟨rfl, rfl, rfl, fun _ => ⟨rfl, rfl⟩⟩
  | cons f fs ih =>
    intro st
    rw [processFiles_cons]
    rcases hr : u.upload_file_to_synapse st (osJoin2 d f) with ⟨st', b⟩
    have hp := upload_file_preserved u st (osJoin2 d f)
    rw [hr] at hp
    cases b
    · exact hp
    · simp only [andThen_true]
      rcases ih st' with ⟨i1, i2, i3, i4⟩
      refine ⟨i1.trans hp.1, i2.trans hp.2.1, i3.trans hp.2.2.1, fun hd => ?_⟩
      exact ⟨(i4 hd).1.trans (hp.2.2.2 hd).1, (i4 hd).2.trans (hp.2.2.2 hd).2⟩

theorem processWalk_preserved (u : Uploader) :
    ∀ (w : List (String × List String)) (st : RunState),
      (u.processWalk w st).1.loginCalls = st.loginCalls ∧
      (u.processWalk w st).1.getCalls = st.getCalls ∧
      (u.processWalk w st).1.clientConstructed = st.clientConstructed ∧
      (u.dry_run = true →
        (u.processWalk w st).1.storeCalls = st.storeCalls ∧
        (u.processWalk w st).1.fileStores = st.fileStores) := by
  intro w
  induction w with
  | nil => intro st; exact ⟨rfl, rfl, rfl, fun _ => ⟨rfl, rfl⟩⟩
  | cons e rest ih =>
    intro st
    rcases h1 : (if e.1 = u.local_path then (st, true)
        else u.create_directory_in_synapse st e.1 false) with ⟨st1, b1⟩
    have hp1 : st1.loginCalls = st.loginCalls ∧ st1.getCalls = st.getCalls ∧
        st1.clientConstructed = st.clientConstructed ∧
        (u.dry_run = true → st1.storeCalls = st.storeCalls ∧
          st1.fileStores = st.fileStores) := by
      by_cases he : e.1 = u.local_path
      · rw [if_pos he] at h1
        cases h1
        exact ⟨rfl, rfl, rfl, fun _ => ⟨rfl, rfl⟩⟩
      · rw [if_neg he] at h1
        have := create_dir_preserved u st e.1 false
        rw [h1] at this
        exact this
    rw [processWalk_cons, h1]
    cases b1 with
    | false => exact hp1
    | true =>
      simp only [andThen_true]
      rcases h2 : u.processFiles e.1 e.2 st1 with ⟨st2, b2⟩
      have hp2 := processFiles_preserved u e.1 e.2 st1
      rw [h2] at hp2
      have hcomb : st2.loginCalls = st.loginCalls ∧ st2.getCalls = st.getCalls ∧
          st2.clientConstructed = st.clientConstructed ∧
          (u.dry_run = true → st2.storeCalls = st.storeCalls ∧
            st2.fileStores = st.fileStores) := by
        refine ⟨hp2.1.trans hp1.1, hp2.2.1.trans hp1.2.1,
          hp2.2.2.1.trans hp1.2.2.1, fun hd => ?_⟩
        exact ⟨(hp2.2.2.2 hd).1.trans ((hp1.2.2.2 hd)).1,
          (hp2.2.2.2 hd).2.trans ((hp1.2.2.2 hd)).2⟩
      cases b2 with
      | false => exact hcomb
      | true =>
        simp only [andThen_true]
        rcases ih st2 with ⟨i1, i2, i3, i4⟩
        refine ⟨i1.trans hcomb.1, i2.trans hcomb.2.1,
          i3.trans hcomb.2.2.1, fun hd => ?_⟩
        exact ⟨(i4 hd).1.trans ((hcomb.2.2.2 hd)).1,
          (i4 hd).2.trans ((hcomb.2.2.2 hd)).2⟩

theorem virtual_preserved (u : Uploader) :
    ∀ (segs : List String) (full : String) (st : RunState),
      (u.createVirtualFolders segs full st).1.loginCalls = st.loginCalls ∧
      (u.createVirtualFolders segs full st).1.getCalls = st.getCalls ∧
      (u.createVirtualFolders segs full st).1.clientConstructed
        = st.clientConstructed ∧
      (u.dry_run = true →
        (u.createVirtualFolders segs full st).1.storeCalls = st.storeCalls ∧
        (u.createVirtualFolders segs full st).1.fileStores = st.fileStores) := by
  intro segs
  induction segs with
  | nil => intro full st; exact ⟨rfl, rfl, rfl, fun _ => ⟨rfl, rfl⟩⟩
  | cons f rest ih =>
    intro full st
    rw [createVirtualFolders_cons]
    rcases hc : u.create_directory_in_synapse st (osJoin2 full f) true with ⟨st', b⟩
    have hp := create_dir_preserved u st (osJoin2 full f) true
    rw [hc] at hp
    cases b
    · exact hp
    · simp only [andThen_true]
      rcases ih (osJoin2 full f) st' with ⟨i1, i2, i3, i4⟩
      refine ⟨i1.trans hp.1, i2.trans hp.2.1, i3.trans hp.2.2.1, fun hd => ?_⟩
      exact ⟨(i4 hd).1.trans (hp.2.2.2 hd).1, (i4 hd).2.trans (hp.2.2.2 hd).2⟩

theorem createRemotePath_preserved (u : Uploader) (st : RunState) :
    (u.createRemotePath st).1.loginCalls = st.loginCalls ∧
    (u.createRemotePath st).1.getCalls = st.getCalls ∧
    (u.createRemotePath st).1.clientConstructed = st.clientConstructed ∧
    (u.dry_run = true →
      (u.createRemotePath st).1.storeCalls = st.storeCalls ∧
      (u.createRemotePath st).1.fileStores = st.fileStores) := by
  unfold Uploader.createRemotePath
  cases hr : u.remote_path with
  | none => exact ⟨rfl, rfl, rfl, fun _ => ⟨rfl, rfl⟩⟩
  | some rp => exact virtual_preserved u _ "" st

theorem login_shape (u : Uploader) (env : List (String × String)) (st : RunState) :
    (u.login env st).1.getCalls = st.getCalls ∧
    (u.login env st).1.storeCalls = st.storeCalls ∧
    (u.login env st).1.fileStores = st.fileStores ∧
    ((u.login env st).2 = true →
      (u.login env st).1.loginCalls = st.loginCalls + 1 ∧
      (u.login env st).1.clientConstructed = true) ∧
    ((u.login env st).2 = false →
      (u.login env st).1.loginCalls = st.loginCalls ∧
      (u.login env st).1.clientConstructed = st.clientConstructed) := by
  unfold Uploader.login
  cases h1 : envLookup env "SYNAPSE_USER" with
  | none => simp [h1]
  | some us =>
    cases h2 : envLookup env "SYNAPSE_PASSWORD" with
    | none => simp [h1, h2]
    | some pw => simp [h1, h2]

theorem headerState_counters (u : Uploader) :
    u.headerState.loginCalls = 0 ∧ u.headerState.getCalls = 0 ∧
    u.headerState.storeCalls = 0 ∧ u.headerState.fileStores = 0 ∧
    u.headerState.clientConstructed = false := by
  unfold Uploader.headerState
  cases hd : u.dry_run <;> cases hr : u.remote_path <;>
    simp [hd, RunState.empty]

/-- Dry-run frame conditions at the level of a whole run: no `store` ever
happens, no file is uploaded, and when the run completes, the only
network interactions were the single `login` and the single project
`get`. -/
theorem start_dry_frame (u : Uploader) (hu : u.dry_run = true)
    (env : List (String × String)) (w : List (String × List String)) :
    (u.start env w).1.storeCalls = 0 ∧
    (u.start env w).1.fileStores = 0 ∧
    ((u.start env w).2 = true →
      (u.start env w).1.loginCalls = 1 ∧ (u.start env w).1.getCalls = 1) := by
  obtain ⟨hh1, hh2, hh3, hh4, hh5⟩ := headerState_counters u
  unfold Uploader.start Uploader.runMain
  rcases hlog : u.login env u.headerState with ⟨st5, b5⟩
  have hl := login_shape u env u.headerState
  rw [hlog] at hl
  cases b5 with
  | false =>
    have hl5 := hl.2.2.2.2 rfl
    simp only [andThen_false]
    exact ⟨hl.2.1.trans hh3, hl.2.2.1.trans hh4, fun hc => by cases hc⟩
  | true =>
    have hl5 := hl.2.2.2.1 rfl
    simp only [andThen_true]
    have hap : (u.afterProject st5).storeCalls = st5.storeCalls ∧
        (u.afterProject st5).fileStores = st5.fileStores ∧
        (u.afterProject st5).loginCalls = st5.loginCalls ∧
        (u.afterProject st5).getCalls = st5.getCalls + 1 :=
      ⟨rfl, rfl, rfl, rfl⟩
    rcases hc : u.createRemotePath (u.afterProject st5) with ⟨st8, b8⟩
    have hcp := createRemotePath_preserved u (u.afterProject st5)
    rw [hc] at hcp
    cases b8 with
    | false =>
      simp only [andThen_false]
      refine ⟨?_, ?_, fun hcon => by cases hcon⟩
      · rw [(hcp.2.2.2 hu).1, hap.1, hl.2.1, hh3]
      · rw [(hcp.2.2.2 hu).2, hap.2.1, hl.2.2.1, hh4]
    | true =>
      simp only [andThen_true]
      rcases hw : u.processWalk w st8 with ⟨st9, b9⟩
      have hwp := processWalk_preserved u w st8
      rw [hw] at hwp
      have hst : st9.storeCalls = 0 ∧ st9.fileStores = 0 ∧
          st9.loginCalls = 1 ∧ st9.getCalls = 1 := by
        refine ⟨?_, ?_, ?_, ?_⟩
        · rw [(hwp.2.2.2 hu).1, (hcp.2.2.2 hu).1, hap.1, hl.2.1, hh3]
        · rw [(hwp.2.2.2 hu).2, (hcp.2.2.2 hu).2, hap.2.1, hl.2.2.1, hh4]
        · rw [hwp.1, hcp.1, hap.2.2.1, hl5.1, hh1]
        · rw [hwp.2.1, hcp.2.1, hap.2.2.2, hl.1, hh2]
      cases b9 with
      | false => exact ⟨hst.1, hst.2.1, fun hcon => by cases hcon⟩
      | true =>
        unfold Uploader.finishLine
        exact ⟨hst.1, hst.2.1, fun _ => ⟨hst.2.2.1, hst.2.2.2⟩⟩

/-! ### Log-structure lemmas for the walk -/

theorem create_dir_log (u : Uploader) (st : RunState) (path : String) (v : Bool) :
    (u.create_directory_in_synapse st path v).1.log = st.log ++ [folderLine path] ∨
    (u.create_directory_in_synapse st path v).1.log
      = st.log ++ [folderLine path, arrowLine (u.get_synapse_path path v)] := by
  unfold Uploader.create_directory_in_synapse
  simp only [lookupFolder_addLog]
  cases hl : lookupFolder st (dirnameS (u.get_synapse_path path v)) with
  | none => left; simp [folderLine]
  | some parent =>
    right
    cases hd : u.dry_run <;> simp [hd, folderLine, arrowLine]

theorem upload_file_log (u : Uploader) (st : RunState) (f : String) :
    (u.upload_file_to_synapse st f).1.log = st.log ++ [fileLine f] ∨
    (u.upload_file_to_synapse st f).1.log
      = st.log ++ [fileLine f, arrowLine (u.get_synapse_path f false)] := by
  unfold Uploader.upload_file_to_synapse
  simp only [lookupFolder_addLog]
  cases hl : lookupFolder st (dirnameS (u.get_synapse_path f false)) with
  | none => left; simp [fileLine]
  | some parent =>
    right
    cases hd : u.dry_run <;> simp [hd, fileLine, arrowLine]

theorem processFiles_log (u : Uploader) (d : String) :
    ∀ (fs : List String) (st : RunState),
      ∃ L, (u.processFiles d fs st).1.log = st.log ++ L ∧
        (∀ line ∈ L, (∃ s, line = fileLine s) ∨ (∃ s, line = arrowLine s)) ∧
        ((u.processFiles d fs st).2 = true →
          ∀ f ∈ fs, fileLine (osJoin2 d f) ∈ L) := by
  intro fs
  induction fs with
  | nil =>
    intro st
    exact ⟨[], by simp [processFiles_nil], by simp, by simp⟩
  | cons f fs ih =>
    intro st
    rw [processFiles_cons]
    rcases hr : u.upload_file_to_synapse st (osJoin2 d f) with ⟨st', b⟩
    have hlog := upload_file_log u st (osJoin2 d f)
    rw [hr] at hlog
    cases b with
    | false =>
      rcases hlog with hlog | hlog
      · exact ⟨[fileLine (osJoin2 d f)], hlog, by
          intro line hline
          simp at hline
          exact Or.inl ⟨_, hline⟩, by simp⟩
      · exact ⟨[fileLine (osJoin2 d f),
            arrowLine (u.get_synapse_path (osJoin2 d f) false)], hlog, by
          intro line hline
          rcases List.mem_cons.mp hline with h | h
          · exact Or.inl ⟨_, h⟩
          · simp at h
            exact Or.inr ⟨_, h⟩, by simp⟩
    | true =>
      simp only [andThen_true]
      rcases ih st' with ⟨L, hL, hclass, hmem⟩
      rcases hlog with hlog | hlog
      · refine ⟨[fileLine (osJoin2 d f)] ++ L, ?_, ?_, ?_⟩
        · rw [hL, hlog, List.append_assoc]
        · intro line hline
          rcases List.mem_append.mp hline with h | h
          · simp at h
            exact Or.inl ⟨_, h⟩
          · exact hclass line h
        · intro hok g hg
          rcases List.mem_cons.mp hg with hg | hg
          · subst hg
            exact List.mem_append.mpr (Or.inl (by simp))
          · exact List.mem_append.mpr (Or.inr (hmem hok g hg))
      · refine ⟨[fileLine (osJoin2 d f),
            arrowLine (u.get_synapse_path (osJoin2 d f) false)] ++ L, ?_, ?_, ?_⟩
        · rw [hL, hlog, List.append_assoc]
        · intro line hline
          rcases List.mem_append.mp hline with h | h
          · rcases List.mem_cons.mp h with h | h
            · exact Or.inl ⟨_, h⟩
            · simp at h
              exact Or.inr ⟨_, h⟩
          · exact hclass line h
        · intro hok g hg
          rcases List.mem_cons.mp hg with hg | hg
          · subst hg
            exact List.mem_append.mpr (Or.inl (by simp))
          · exact List.mem_append.mpr (Or.inr (hmem hok g hg))

theorem processWalk_log (u : Uploader) :
    ∀ (w : List (String × List String)) (st : RunState),
      ∃ L, (u.processWalk w st).1.log = st.log ++ L ∧
        (∀ line ∈ L, (∃ dp, dp ≠ u.local_path ∧ line = folderLine dp) ∨
          (∃ s, line = fileLine s) ∨ (∃ s, line = arrowLine s)) ∧
        ((u.processWalk w st).2 = true → ∀ e ∈ w,
          (e.1 ≠ u.local_path → folderLine e.1 ∈ L) ∧
          (∀ f ∈ e.2, fileLine (osJoin2 e.1 f) ∈ L)) := by
  intro w
  induction w with
  | nil =>
    intro st
    exact ⟨[], by simp [processWalk_nil], by simp, by simp⟩
  | cons e rest ih =>
    intro st
    rcases h1 : (if e.1 = u.local_path then (st, true)
        else u.create_directory_in_synapse st e.1 false) with ⟨st1, b1⟩
    -- the possible log contribution of the create step
    have hstep : (st1.log = st.log ∧ e.1 = u.local_path ∧ b1 = true) ∨
        ((st1.log = st.log ++ [folderLine e.1] ∨
          st1.log = st.log ++ [folderLine e.1,
            arrowLine (u.get_synapse_path e.1 false)]) ∧ e.1 ≠ u.local_path) := by
      by_cases he : e.1 = u.local_path
      · rw [if_pos he] at h1
        cases h1
        exact Or.inl ⟨rfl, he, rfl⟩
      · rw [if_neg he] at h1
        have := create_dir_log u st e.1 false
        rw [h1] at this
        exact Or.inr ⟨this, he⟩
    rw [processWalk_cons, h1]
    cases b1 with
    | false =>
      rcases hstep with ⟨_, _, hb⟩ | ⟨hlog, he⟩
      · cases hb
      rcases hlog with hlog | hlog
      · refine ⟨[folderLine e.1], hlog, ?_, by simp⟩
        intro line hline
        simp at hline
        exact Or.inl ⟨e.1, he, hline⟩
      · refine ⟨[folderLine e.1, arrowLine (u.get_synapse_path e.1 false)],
          hlog, ?_, by simp⟩
        intro line hline
        rcases List.mem_cons.mp hline with h | h
        · exact Or.inl ⟨e.1, he, h⟩
        · simp at h
          exact Or.inr (Or.inr ⟨_, h⟩)
    | true =>
      simp only [andThen_true]
      rcases h2 : u.processFiles e.1 e.2 st1 with ⟨st2, b2⟩
      have hfl := processFiles_log u e.1 e.2 st1
      rw [h2] at hfl
      rcases hfl with ⟨L2, hL2, hclass2, hmem2⟩
      -- the log contribution of the create step as a list
      have hstep' : ∃ L1, st1.log = st.log ++ L1 ∧
          (∀ line ∈ L1, (∃ dp, dp ≠ u.local_path ∧ line = folderLine dp) ∨
            (∃ s, line = fileLine s) ∨ (∃ s, line = arrowLine s)) ∧
          (e.1 ≠ u.local_path → folderLine e.1 ∈ L1) := by
        rcases hstep with ⟨hlog, he, _⟩ | ⟨hlog, he⟩
        · exact ⟨[], by simp [hlog], by simp, fun hne => absurd he hne⟩
        · rcases hlog with hlog | hlog
          · refine ⟨[folderLine e.1], hlog, ?_, fun _ => by simp⟩
            intro line hline
            simp at hline
            exact Or.inl ⟨e.1, he, hline⟩
          · refine ⟨[folderLine e.1, arrowLine (u.get_synapse_path e.1 false)],
              hlog, ?_, fun _ => by simp⟩
            intro line hline
            rcases List.mem_cons.mp hline with h | h
            · exact Or.inl ⟨e.1, he, h⟩
            · simp at h
              exact Or.inr (Or.inr ⟨_, h⟩)
      rcases hstep' with ⟨L1, hL1, hclass1, hfolder1⟩
      cases b2 with
      | false =>
        have hL2' : st2.log = st1.log ++ L2 := hL2
        refine ⟨L1 ++ L2, by
          simp only [andThen_false]
          rw [hL2', hL1, List.append_assoc], ?_, by simp⟩
        intro line hline
        rcases List.mem_append.mp hline with h | h
        · exact hclass1 line h
        · rcases hclass2 line h with h' | h'
          · exact Or.inr (Or.inl h')
          · exact Or.inr (Or.inr h')
      | true =>
        simp only [andThen_true]
        rcases ih st2 with ⟨L3, hL3, hclass3, hmem3⟩
        refine ⟨L1 ++ L2 ++ L3, ?_, ?_, ?_⟩
        · rw [hL3, hL2, hL1]
          simp [List.append_assoc]
        · intro line hline
          rcases List.mem_append.mp hline with h | h
          · rcases List.mem_append.mp h with h' | h'
            · exact hclass1 line h'
            · rcases hclass2 line h' with h'' | h''
              · exact Or.inr (Or.inl h'')
              · exact Or.inr (Or.inr h'')
          · exact hclass3 line h
        · intro hok g hg
          rcases List.mem_cons.mp hg with hg | hg
          · subst hg
            constructor
            · intro hne
              exact List.mem_append.mpr (Or.inl (List.mem_append.mpr
                (Or.inl (hfolder1 hne))))
            · intro f hf
              exact List.mem_append.mpr (Or.inl (List.mem_append.mpr
                (Or.inr (hmem2 rfl f hf))))
          · constructor
            · intro hne
              exact List.mem_append.mpr (Or.inr ((hmem3 hok g hg).1 hne))
            · intro f hf
              exact List.mem_append.mpr (Or.inr ((hmem3 hok g hg).2 f hf))

/-! ### Folder-list extension lemmas -/

theorem create_dir_folders_ext (u : Uploader) (st : RunState) (path : String)
    (v : Bool) :
    ∃ n, (u.create_directory_in_synapse st path v).1.folders = n ++ st.folders := by
  unfold Uploader.create_directory_in_synapse
  simp only [lookupFolder_addLog]
  cases hl : lookupFolder st (dirnameS (u.get_synapse_path path v)) with
  | none => exact ⟨[], rfl⟩
  | some parent =>
    cases hd : u.dry_run <;> simp [hd] <;> exact ⟨[_], rfl⟩

theorem processFiles_folders_ext (u : Uploader) (d : String)
    (fs : List String) (st : RunState) :
    ∃ n, (u.processFiles d fs st).1.folders = n ++ st.folders :=
  ⟨[], by rw [processFiles_folders]; rfl⟩

theorem processWalk_folders_ext (u : Uploader) :
    ∀ (w : List (String × List String)) (st : RunState),
      ∃ n, (u.processWalk w st).1.folders = n ++ st.folders := by
  intro w
  induction w with
  | nil => intro st; exact ⟨[], rfl⟩
  | cons e rest ih =>
    intro st
    rcases h1 : (if e.1 = u.local_path then (st, true)
        else u.create_directory_in_synapse st e.1 false) with ⟨st1, b1⟩
    have hx1 : ∃ n, st1.folders = n ++ st.folders := by
      by_cases he : e.1 = u.local_path
      · rw [if_pos he] at h1
        cases h1
        exact ⟨[], rfl⟩
      · rw [if_neg he] at h1
        have := create_dir_folders_ext u st e.1 false
        rw [h1] at this
        exact this
    rw [processWalk_cons, h1]
    cases b1 with
    | false => exact hx1
    | true =>
      simp only [andThen_true]
      rcases h2 : u.processFiles e.1 e.2 st1 with ⟨st2, b2⟩
      have hx2 : st2.folders = st1.folders := by
        have := processFiles_folders u e.1 e.2 st1
        rw [h2] at this
        exact this
      cases b2 with
      | false =>
        rcases hx1 with ⟨n, hn⟩
        refine ⟨n, ?_⟩
        simp only [andThen_false]
        rw [show (st2, false).1.folders = st2.folders from rfl, hx2, hn]
      | true =>
        simp only [andThen_true]
        rcases ih st2 with ⟨m, hm⟩
        rcases hx1 with ⟨n, hn⟩
        exact ⟨m ++ n, by rw [hm, hx2, hn, List.append_assoc]⟩

theorem virtual_folders_ext (u : Uploader) :
    ∀ (segs : List String) (full : String) (st : RunState),
      ∃ n, (u.createVirtualFolders segs full st).1.folders = n ++ st.folders := by
  intro segs
  induction segs with
  | nil => intro full st; exact ⟨[], rfl⟩
  | cons f rest ih =>
    intro full st
    rw [createVirtualFolders_cons]
    rcases hc : u.create_directory_in_synapse st (osJoin2 full f) true with ⟨st', b⟩
    have hx : ∃ n, st'.folders = n ++ st.folders := by
      have := create_dir_folders_ext u st (osJoin2 full f) true
      rw [hc] at this
      exact this
    cases b with
    | false => exact hx
    | true =>
      simp only [andThen_true]
      rcases ih (osJoin2 full f) st' with ⟨m, hm⟩
      rcases hx with ⟨n, hn⟩
      exact ⟨m ++ n, by rw [hm, hn, List.append_assoc]⟩

/-! ### The virtual-prefix creation loop -/

theorem joinAll_append_singleton (done : List String) (f : String) :
    joinAll (done ++ [f]) = osJoin2 (joinAll done) f := by
  unfold joinAll
  rw [List.foldl_append]
  rfl

theorem create_dir_ok (u : Uploader) (st : RunState) (path : String) (v : Bool)
    (h : lookupFolder st (dirnameS (u.get_synapse_path path v)) ≠ none) :
    (u.create_directory_in_synapse st path v).2 = true ∧
    (u.create_directory_in_synapse st path v).1.log
      = st.log ++ [folderLine path, arrowLine (u.get_synapse_path path v)] ∧
    lookupFolder (u.create_directory_in_synapse st path v).1
      (u.get_synapse_path path v) ≠ none := by
  unfold Uploader.create_directory_in_synapse
  simp only [lookupFolder_addLog]
  cases hl : lookupFolder st (dirnameS (u.get_synapse_path path v)) with
  | none => exact absurd hl h
  | some parent =>
    cases hdry : u.dry_run <;>
      simp [hdry, folderLine, arrowLine, List.append_assoc]

/-- The parent key that the virtual creation of segment `f` looks up:
the project itself for the first segment, the previous cumulative key
afterwards. -/
theorem virtual_parent_key (u : Uploader) (hp1 : u.synapse_project.data ≠ [])
    (hp2 : '/' ∉ u.synapse_project.data) (done : List String) (f : String)
    (hdone : ∀ s ∈ done, s.data ≠ [] ∧ '/' ∉ s.data)
    (_hf1 : f.data ≠ []) (hf2 : '/' ∉ f.data) :
    dirnameS (osJoin2 u.synapse_project (osJoin2 (joinAll done) f))
      = (if done = [] then u.synapse_project
         else osJoin2 u.synapse_project (joinAll done)) := by
  have hplast : u.synapse_project.data.getLast? ≠ some '/' :=
    getLast?_ne_of_not_mem _ hp2
  have hfh : f.data.head? ≠ some '/' := head?_ne_of_not_mem _ hf2
  by_cases hd : done = []
  · subst hd
    rw [if_pos rfl]
    have h1 : (osJoin2 (joinAll ([] : List String)) f).data = f.data :=
      osJoin2_empty_left f hfh
    have h2 : (osJoin2 u.synapse_project (osJoin2 (joinAll ([] : List String)) f)).data
        = u.synapse_project.data ++ '/' :: f.data := by
      rw [osJoin2_data_sep _ _ (by rw [h1]; exact hfh) hp1 hplast, h1]
    apply String.ext
    show dirnameL (osJoin2 u.synapse_project
        (osJoin2 (joinAll ([] : List String)) f)).data = _
    rw [h2]
    exact dirnameL_append _ _ hf2 hp1 hplast
  · rw [if_neg hd]
    obtain ⟨hjne, hjh, hjl⟩ := (joinAll_shape done hdone).2 hd
    have h1 : (osJoin2 (joinAll done) f).data
        = (joinAll done).data ++ '/' :: f.data :=
      osJoin2_data_sep _ _ hfh hjne hjl
    have h1h : (osJoin2 (joinAll done) f).data.head? ≠ some '/' := by
      rw [h1]
      cases hje : (joinAll done).data with
      | nil => exact absurd hje hjne
      | cons x xs =>
        rw [hje] at hjh
        simpa using hjh
    have h2 : (osJoin2 u.synapse_project (osJoin2 (joinAll done) f)).data
        = (u.synapse_project.data ++ '/' :: (joinAll done).data)
          ++ '/' :: f.data := by
      rw [osJoin2_data_sep _ _ h1h hp1 hplast, h1]
      simp
    have hXne : u.synapse_project.data ++ '/' :: (joinAll done).data ≠ [] := by
      simp
    have hXlast : (u.synapse_project.data ++ '/' :: (joinAll done).data).getLast?
        ≠ some '/' := by
      rw [getLast?_append_cons]
      cases hje : (joinAll done).data with
      | nil => exact absurd hje hjne
      | cons x xs =>
        rw [show ('/' :: x :: xs).getLast? = (x :: xs).getLast? from rfl, ← hje]
        exact hjl
    apply String.ext
    show dirnameL (osJoin2 u.synapse_project
        (osJoin2 (joinAll done) f)).data = (osJoin2 u.synapse_project (joinAll done)).data
    rw [h2, dirnameL_append _ _ hf2 hXne hXlast,
      osJoin2_data_sep _ _ (by
        cases hje : (joinAll done).data with
        | nil => exact absurd hje hjne
        | cons x xs =>
          rw [hje] at hjh
          simpa using hjh) hp1 hplast]

theorem virtual_loop (u : Uploader) (hp1 : u.synapse_project.data ≠ [])
    (hp2 : '/' ∉ u.synapse_project.data) :
    ∀ (rest done : List String) (st : RunState),
      (∀ s ∈ rest, s.data ≠ [] ∧ '/' ∉ s.data) →
      (∀ s ∈ done, s.data ≠ [] ∧ '/' ∉ s.data) →
      lookupFolder st (if done = [] then u.synapse_project
        else osJoin2 u.synapse_project (joinAll done)) ≠ none →
      (u.createVirtualFolders rest (joinAll done) st).2 = true ∧
      (∃ L, (u.createVirtualFolders rest (joinAll done) st).1.log = st.log ++ L ∧
        List.Sublist ((List.range rest.length).map
          (fun i => folderLine (joinAll (done ++ rest.take (i + 1))))) L) ∧
      (∀ i, i < rest.length →
        lookupFolder (u.createVirtualFolders rest (joinAll done) st).1
          (osJoin2 u.synapse_project (joinAll (done ++ rest.take (i + 1))))
          ≠ none) := by
  intro rest
  induction rest with
  | nil =>
    intro done st _ _ _
    refine ⟨rfl, ⟨[], by simp [createVirtualFolders_nil], by simp⟩, ?_⟩
    intro i hi
    simp at hi
  | cons f rest ih =>
    intro done st hrest hdone hst
    have hf := hrest f (by simp)
    have hrest' : ∀ s ∈ rest, s.data ≠ [] ∧ '/' ∉ s.data :=
      fun s hs => hrest s (by simp [hs])
    have hdone' : ∀ s ∈ done ++ [f], s.data ≠ [] ∧ '/' ∉ s.data := by
      intro s hs
      rcases List.mem_append.mp hs with hs | hs
      · exact hdone s hs
      · simp at hs
        subst hs
        exact hf
    have hkey : u.get_synapse_path (osJoin2 (joinAll done) f) true
        = osJoin2 u.synapse_project (osJoin2 (joinAll done) f) := rfl
    have hparent := virtual_parent_key u hp1 hp2 done f hdone hf.1 hf.2
    have hlk : lookupFolder st
        (dirnameS (u.get_synapse_path (osJoin2 (joinAll done) f) true)) ≠ none := by
      rw [hkey, hparent]
      exact hst
    obtain ⟨hok, hlog, hself⟩ :=
      create_dir_ok u st (osJoin2 (joinAll done) f) true hlk
    rcases hcr : u.create_directory_in_synapse st (osJoin2 (joinAll done) f) true
      with ⟨st', b⟩
    rw [hcr] at hok hlog hself
    have hb : b = true := hok
    subst hb
    have hstep : lookupFolder st'
        (osJoin2 u.synapse_project (joinAll (done ++ [f]))) ≠ none := by
      rw [joinAll_append_singleton]
      rw [hkey] at hself
      exact hself
    have hihkey : lookupFolder st'
        (if done ++ [f] = [] then u.synapse_project
         else osJoin2 u.synapse_project (joinAll (done ++ [f]))) ≠ none := by
      rw [if_neg (by simp)]
      exact hstep
    obtain ⟨iok, ⟨L', hL', hsub'⟩, ikeys⟩ := ih (done ++ [f]) st' hrest' hdone' hihkey
    rw [createVirtualFolders_cons, hcr]
    simp only [andThen_true]
    have hjsingle : osJoin2 (joinAll done) f = joinAll (done ++ [f]) :=
      (joinAll_append_singleton done f).symm
    rw [hjsingle]
    refine ⟨iok, ?_, ?_⟩
    · refine ⟨[folderLine (osJoin2 (joinAll done) f),
        arrowLine (osJoin2 u.synapse_project (osJoin2 (joinAll done) f))] ++ L',
        ?_, ?_⟩
      · rw [hL', hlog, hkey]
        simp [List.append_assoc]
      · simp only [List.length_cons]
        rw [List.range_succ_eq_map, List.map_cons, List.map_map]
        have hhead : folderLine (joinAll (done ++ (f :: rest).take (0 + 1)))
            = folderLine (osJoin2 (joinAll done) f) := by
          rw [show (f :: rest).take (0 + 1) = [f] from rfl,
            joinAll_append_singleton]
        have htail : (List.range rest.length).map
              ((fun i => folderLine (joinAll (done ++ (f :: rest).take (i + 1))))
                ∘ Nat.succ)
            = (List.range rest.length).map
              (fun i => folderLine (joinAll ((done ++ [f]) ++ rest.take (i + 1)))) := by
          apply List.map_congr_left
          intro i _
          show folderLine (joinAll (done ++ (f :: rest).take (i + 1 + 1))) = _
          rw [List.take_succ_cons]
          congr 2
          simp [List.append_assoc]
        rw [hhead, htail]
        exact List.Sublist.cons₂ _ (List.Sublist.cons _ hsub')
    · intro i hi
      cases i with
      | zero =>
        have hext := virtual_folders_ext u rest (joinAll (done ++ [f])) st'
        refine lookupFolder_ext_mono st' _ _ hext ?_
        rw [show (f :: rest).take (0 + 1) = [f] from rfl]
        exact hstep
      | succ j =>
        have hj : j < rest.length := by
          simp at hi
          omega
        have := ikeys j hj
        rw [show (f :: rest).take (j + 1 + 1) = f :: rest.take (j + 1) from
          List.take_succ_cons]
        rw [show done ++ f :: rest.take (j + 1) = (done ++ [f]) ++ rest.take (j + 1) by
          simp [List.append_assoc]]
        exact this

theorem login_ok (u : Uploader) (env : List (String × String)) (st : RunState)
    (he1 : envLookup env "SYNAPSE_USER" ≠ none)
    (he2 : envLookup env "SYNAPSE_PASSWORD" ≠ none) :
    (u.login env st).2 = true := by
  unfold Uploader.login
  cases h1 : envLookup env "SYNAPSE_USER" with
  | none => exact absurd h1 he1
  | some us =>
    cases h2 : envLookup env "SYNAPSE_PASSWORD" with
    | none => exact absurd h2 he2
    | some pw => rfl

theorem sublist_embed (lines L pre post : List String)
    (h : List.Sublist lines L) : List.Sublist lines (pre ++ L ++ post) := by
  have h1 : List.Sublist lines (L ++ post) :=
    h.trans (List.sublist_append_left _ _)
  have h2 : List.Sublist lines (pre ++ (L ++ post)) :=
    h1.trans (List.sublist_append_right _ _)
  simpa [List.append_assoc] using h2

/-! ### Model validation on the specification's concrete scenarios -/

example : dirnameS "syn1/a//b/f" = "syn1/a//b" := by decide
example : dirnameS "syn1" = "" := by decide
example : dirnameS "/x" = "/" := by decide
example : basenameS "syn1/a/b" = "b" := by decide
example : osJoin2 (osJoin2 "syn1" "") "bc" = "syn1/bc" := by decide
example : osJoin2 (osJoin2 "syn1" "a//b") "f" = "syn1/a//b/f" := by decide
example : osJoin2 "syn1" "/x" = "/x" := by decide
example : repL "/a/".data "/a/b/a/c".data = "bc".data := by decide
example : pySplit "a//b".data = ["a".data, [], "b".data] := by decide
example : pyStrip " /// " = "///" := by decide

/-- Spec §8 scenario: root `/data/exp1` with `sub/a.txt` and `b.txt`,
project `syn111`, no prefix: folder `syn111/sub` is created, `b.txt`
resolves under `syn111`, `sub/a.txt` under `syn111/sub`. -/
example :
    ((init "syn111" "/data/exp1" none false).start
        [("SYNAPSE_USER", "u"), ("SYNAPSE_PASSWORD", "p")]
        [("/data/exp1", ["b.txt"]), ("/data/exp1/sub", ["a.txt"])]).1.log =
      ["Uploading to Project: syn111", "Uploading Directory: /data/exp1",
       "Logging into Synapse...",
       "Processing File: /data/exp1/b.txt", "  -> syn111/b.txt",
       "Processing Folder: /data/exp1/sub", "  -> syn111/sub",
       "Processing File: /data/exp1/sub/a.txt", "  -> syn111/sub/a.txt",
       "Upload Completed Successfully."] := by decide

/-- Spec §8 scenario with remote prefix `results/run1`: the virtual folders
`syn111/results` and `syn111/results/run1` are pre-created and `sub`
becomes `syn111/results/run1/sub`. -/
example :
    ((init "syn111" "/data/exp1" (some "results/run1") false).start
        [("SYNAPSE_USER", "u"), ("SYNAPSE_PASSWORD", "p")]
        [("/data/exp1", ["b.txt"]), ("/data/exp1/sub", ["a.txt"])]).1.folders.map
        Prod.fst =
      ["syn111/results/run1/sub", "syn111/results/run1", "syn111/results",
       "syn111"] := by decide

/-! ### C9: trailing separator on the local root -/

theorem rstripSep_append_sep (l : String) :
    rstripSep (l ++ "/") = rstripSep l := by
  show (⟨rstripBy _ (l ++ "/").data⟩ : String) = _
  rw [String.data_append]
  show (⟨rstripBy _ (l.data ++ ['/'])⟩ : String) = _
  rw [rstripBy_append_sat _ _ _ (by decide)]
  rfl

/-- **C9** (implicit, from `__init__` lines 24–27): the constructor strips
trailing path separators from the local root, so a root passed with a
trailing separator produces the identical uploader: same stored local
path, same resolved remote paths, and the same behavior of `start()`. -/
theorem claim_C9_trailing_separator (p l : String) (r : Option String) (d : Bool) :
    init p (l ++ "/") r d = init p l r d ∧
    (∀ lp v, (init p (l ++ "/") r d).get_synapse_path lp v
        = (init p l r d).get_synapse_path lp v) ∧
    (∀ env w, (init p (l ++ "/") r d).start env w
        = (init p l r d).start env w) := by
  have h : init p (l ++ "/") r d = init p l r d := by
    unfold init
    rw [rstripSep_append_sep]
  exact ⟨h, fun lp v => by rw [h], fun env w => by rw [h]⟩

/-! ### C6: blank or separator-only remote path -/

theorem stripL_of_all_space (l : List Char) (h : ∀ c ∈ l, pyIsSpace c = true) :
    stripL l = [] := by
  unfold stripL lstripBy rstripBy
  rw [List.dropWhile_eq_nil_iff.mpr h]
  rfl

theorem stripL_of_no_space (l : List Char) (h : ∀ c ∈ l, pyIsSpace c = false) :
    stripL l = l := by
  unfold stripL lstripBy rstripBy
  rw [dropWhile_eq_self_of_not _ _ h,
    dropWhile_eq_self_of_not _ _ (fun c hc => h c (List.mem_reverse.mp hc)),
    List.reverse_reverse]

/-- **C6** (from `__init__` lines 31–34): a remote path that is empty, all
whitespace, or all separators is normalised away: the constructed uploader
equals the one constructed with no remote path at all, hence `start()`
behaves identically (same folder creations, same uploads, same cache). -/
theorem claim_C6_blank_remote_path (p l r : String) (d : Bool)
    (h : (∀ c ∈ r.data, pyIsSpace c = true) ∨ (∀ c ∈ r.data, c = '/')) :
    init p l (some r) d = init p l none d ∧
    ∀ env w, (init p l (some r) d).start env w = (init p l none d).start env w := by
  have key : normRemote (some r) = none := by
    show (if 0 < (pyStrip r).data.length then
        let r2 := rstripSep (lstripSep (pyStrip r))
        if r2.data.length = 0 then none else some r2
      else none) = (none : Option String)
    rcases h with h | h
    · rw [if_neg]
      have : (pyStrip r).data = [] := stripL_of_all_space _ h
      simp [this]
    · have hstrip : (pyStrip r).data = r.data :=
        stripL_of_no_space _ (fun c hc => by rw [h c hc]; decide)
      by_cases hz : (pyStrip r).data.length = 0
      · rw [if_neg (by omega)]
      · rw [if_pos (by omega)]
        have h2 : (lstripSep (pyStrip r)).data = [] := by
          show lstripBy _ (pyStrip r).data = []
          rw [hstrip]
          unfold lstripBy
          exact List.dropWhile_eq_nil_iff.mpr (fun c hc => by simp [h c hc])
        have h3 : (rstripSep (lstripSep (pyStrip r))).data = [] := by
          show rstripBy _ (lstripSep (pyStrip r)).data = []
          rw [h2]
          rfl
        simp [h3]
  have he : init p l (some r) d = init p l none d := by
    unfold init
    rw [key]
    rfl
  exact ⟨he, fun env w => by rw [he]⟩

/-- Witness for C6: the separator-only remote path `"///"` yields the same
run as no remote path. -/
theorem claim_C6_witness :
    (∀ c ∈ ("///" : String).data, c = '/') ∧
    init "syn1" "/a" (some "///") false = init "syn1" "/a" none false := by
  refine ⟨by decide, ?_⟩
  exact (claim_C6_blank_remote_path "syn1" "/a" "///" false (Or.inr (by decide))).1

/-! ### Further composition lemmas for whole runs -/

theorem ne_append_of_take_ne (x y : String) (n : Nat) (_hx : n ≤ x.data.length)
    (hy : n ≤ y.data.length) (hne : x.data.take n ≠ y.data.take n) :
    ∀ b : String, x ≠ y ++ b := by
  intro b h
  apply hne
  have hd := congrArg String.data h
  rw [String.data_append] at hd
  have h2 := congrArg (List.take n) hd
  rw [List.take_append_eq_append_take, Nat.sub_eq_zero_of_le hy] at h2
  simpa using h2

theorem login_log (u : Uploader) (env : List (String × String)) (st : RunState) :
    (u.login env st).1.log = st.log ++ ["Logging into Synapse..."] := by
  unfold Uploader.login
  cases h1 : envLookup env "SYNAPSE_USER" with
  | none => simp [h1]
  | some us =>
    cases h2 : envLookup env "SYNAPSE_PASSWORD" with
    | none => simp [h1, h2]
    | some pw => simp [h1, h2]

theorem headerState_log (u : Uploader) :
    u.headerState.log =
      (if u.dry_run then ["~~ Dry Run ~~"] else []) ++
      ["Uploading to Project: " ++ u.synapse_project,
       "Uploading Directory: " ++ u.local_path] ++
      (match u.remote_path with
       | some rp => ["Uploading To: " ++ rp]
       | none => []) := by
  unfold Uploader.headerState
  cases hd : u.dry_run <;> cases hr : u.remote_path <;>
    simp [hd, hr, RunState.empty]

theorem createRemotePath_none (u : Uploader) (hr : u.remote_path = none)
    (st : RunState) : u.createRemotePath st = (st, true) := by
  simp [Uploader.createRemotePath, hr]

/-- When a run completes, every file of every walk entry was reported with
its `Processing File` console line. -/
theorem start_ok_file_lines (u : Uploader) (env : List (String × String))
    (w : List (String × List String)) (hok : (u.start env w).2 = true) :
    ∀ e ∈ w, ∀ f ∈ e.2, fileLine (osJoin2 e.1 f) ∈ (u.start env w).1.log := by
  unfold Uploader.start Uploader.runMain at hok ⊢
  rcases hlog : u.login env u.headerState with ⟨st5, b5⟩
  rw [hlog] at hok
  cases b5 with
  | false => simp at hok
  | true =>
    simp only [andThen_true] at hok ⊢
    rcases hc : u.createRemotePath (u.afterProject st5) with ⟨st8, b8⟩
    rw [hc] at hok
    cases b8 with
    | false => simp at hok
    | true =>
      simp only [andThen_true] at hok ⊢
      rcases hw : u.processWalk w st8 with ⟨st9, b9⟩
      rw [hw] at hok
      cases b9 with
      | false => simp at hok
      | true =>
        rcases processWalk_log u w st8 with ⟨L, hL, _, hmem⟩
        rw [hw] at hL hmem
        have hL' : st9.log = st8.log ++ L := hL
        intro e he f hf
        unfold Uploader.finishLine
        simp only [andThen_true, addLog_log]
        have : fileLine (osJoin2 e.1 f) ∈ st9.log := by
          rw [hL']
          exact List.mem_append.mpr (Or.inr ((hmem rfl e he).2 f hf))
        exact List.mem_append.mpr (Or.inl this)

/-! ### Dry-run / real-run bisimulation -/

theorem find_keys_isSome (k : String) :
    ∀ (as bs : List (String × SynEntity)),
      as.map Prod.fst = bs.map Prod.fst →
      (as.find? (fun e => e.1 = k)).isSome = (bs.find? (fun e => e.1 = k)).isSome := by
  intro as
  induction as with
  | nil =>
    intro bs hb
    have : bs = [] := by
      cases bs with
      | nil => rfl
      | cons b bs' => simp at hb
    subst this
    rfl
  | cons a as' ih =>
    intro bs hb
    cases bs with
    | nil => simp at hb
    | cons b bs' =>
      simp only [List.map_cons, List.cons.injEq] at hb
      rw [List.find?_cons, List.find?_cons]
      have hk : (decide (a.1 = k)) = (decide (b.1 = k)) := by rw [hb.1]
      cases hd : decide (b.1 = k) with
      | false => rw [hk, hd]; exact ih bs' hb.2
      | true => rw [hk, hd]; rfl

theorem lookupFolder_isSome_eq (s t : RunState) (k : String)
    (h : s.folders.map Prod.fst = t.folders.map Prod.fst) :
    (lookupFolder s k).isSome = (lookupFolder t k).isSome := by
  unfold lookupFolder
  have := find_keys_isSome k s.folders t.folders h
  cases hs : s.folders.find? (fun e => e.1 = k) <;>
    cases ht : t.folders.find? (fun e => e.1 = k) <;>
    rw [hs, ht] at this <;> simp_all

theorem dry_get_synapse_path (p l : String) (r : Option String) (x : String)
    (v : Bool) :
    (⟨true, p, l, r⟩ : Uploader).get_synapse_path x v
      = (⟨false, p, l, r⟩ : Uploader).get_synapse_path x v := rfl

theorem create_dir_bisim (p l : String) (r : Option String) (path : String)
    (v : Bool) (s t : RunState) (h : dryMirrors s t) :
    ((⟨true, p, l, r⟩ : Uploader).create_directory_in_synapse s path v).2
      = ((⟨false, p, l, r⟩ : Uploader).create_directory_in_synapse t path v).2 ∧
    dryMirrors ((⟨true, p, l, r⟩ : Uploader).create_directory_in_synapse s path v).1
      ((⟨false, p, l, r⟩ : Uploader).create_directory_in_synapse t path v).1 := by
  obtain ⟨hkeys, hlog⟩ := h
  unfold Uploader.create_directory_in_synapse
  simp only [lookupFolder_addLog]
  have hiso := lookupFolder_isSome_eq s t
    (dirnameS ((⟨false, p, l, r⟩ : Uploader).get_synapse_path path v)) hkeys
  rw [show (⟨true, p, l, r⟩ : Uploader).get_synapse_path path v
      = (⟨false, p, l, r⟩ : Uploader).get_synapse_path path v from rfl]
  cases hs : lookupFolder s
      (dirnameS ((⟨false, p, l, r⟩ : Uploader).get_synapse_path path v)) with
  | none =>
    cases ht : lookupFolder t
        (dirnameS ((⟨false, p, l, r⟩ : Uploader).get_synapse_path path v)) with
    | none =>
      refine ⟨rfl, hkeys, ?_⟩
      simp [hlog]
    | some pt =>
      rw [hs, ht] at hiso
      simp at hiso
  | some ps =>
    cases ht : lookupFolder t
        (dirnameS ((⟨false, p, l, r⟩ : Uploader).get_synapse_path path v)) with
    | none =>
      rw [hs, ht] at hiso
      simp at hiso
    | some pt =>
      refine ⟨rfl, ?_, ?_⟩
      · simp [hkeys]
      · simp [hlog]

theorem upload_file_bisim (p l : String) (r : Option String) (f : String)
    (s t : RunState) (h : dryMirrors s t) :
    ((⟨true, p, l, r⟩ : Uploader).upload_file_to_synapse s f).2
      = ((⟨false, p, l, r⟩ : Uploader).upload_file_to_synapse t f).2 ∧
    dryMirrors ((⟨true, p, l, r⟩ : Uploader).upload_file_to_synapse s f).1
      ((⟨false, p, l, r⟩ : Uploader).upload_file_to_synapse t f).1 := by
  obtain ⟨hkeys, hlog⟩ := h
  unfold Uploader.upload_file_to_synapse
  simp only [lookupFolder_addLog]
  have hiso := lookupFolder_isSome_eq s t
    (dirnameS ((⟨false, p, l, r⟩ : Uploader).get_synapse_path f false)) hkeys
  rw [show (⟨true, p, l, r⟩ : Uploader).get_synapse_path f false
      = (⟨false, p, l, r⟩ : Uploader).get_synapse_path f false from rfl]
  cases hs : lookupFolder s
      (dirnameS ((⟨false, p, l, r⟩ : Uploader).get_synapse_path f false)) with
  | none =>
    cases ht : lookupFolder t
        (dirnameS ((⟨false, p, l, r⟩ : Uploader).get_synapse_path f false)) with
    | none =>
      refine ⟨rfl, hkeys, ?_⟩
      simp [hlog]
    | some pt =>
      rw [hs, ht] at hiso
      simp at hiso
  | some ps =>
    cases ht : lookupFolder t
        (dirnameS ((⟨false, p, l, r⟩ : Uploader).get_synapse_path f false)) with
    | none =>
      rw [hs, ht] at hiso
      simp at hiso
    | some pt =>
      refine ⟨rfl, hkeys, ?_⟩
      simp [hlog]

theorem processFiles_bisim (p l : String) (r : Option String) (d : String) :
    ∀ (fs : List String) (s t : RunState), dryMirrors s t →
      ((⟨true, p, l, r⟩ : Uploader).processFiles d fs s).2
        = ((⟨false, p, l, r⟩ : Uploader).processFiles d fs t).2 ∧
      dryMirrors ((⟨true, p, l, r⟩ : Uploader).processFiles d fs s).1
        ((⟨false, p, l, r⟩ : Uploader).processFiles d fs t).1 := by
  intro fs
  induction fs with
  | nil => intro s t h; exact ⟨rfl, h⟩
  | cons f fs ih =>
    intro s t h
    rw [processFiles_cons, processFiles_cons]
    rcases hu1 : (⟨true, p, l, r⟩ : Uploader).upload_file_to_synapse s
        (osJoin2 d f) with ⟨s', a⟩
    rcases hu0 : (⟨false, p, l, r⟩ : Uploader).upload_file_to_synapse t
        (osJoin2 d f) with ⟨t', b⟩
    have hb := upload_file_bisim p l r (osJoin2 d f) s t h
    rw [hu1, hu0] at hb
    obtain ⟨hab, hm⟩ := hb
    cases a with
    | false =>
      cases b with
      | false => exact ⟨rfl, hm⟩
      | true => simp at hab
    | true =>
      cases b with
      | false => simp at hab
      | true =>
        simp only [andThen_true]
        exact ih s' t' hm

theorem processWalk_bisim (p l : String) (r : Option String) :
    ∀ (w : List (String × List String)) (s t : RunState), dryMirrors s t →
      ((⟨true, p, l, r⟩ : Uploader).processWalk w s).2
        = ((⟨false, p, l, r⟩ : Uploader).processWalk w t).2 ∧
      dryMirrors ((⟨true, p, l, r⟩ : Uploader).processWalk w s).1
        ((⟨false, p, l, r⟩ : Uploader).processWalk w t).1 := by
  intro w
  induction w with
  | nil => intro s t h; exact ⟨rfl, h⟩
  | cons e rest ih =>
    intro s t h
    rw [processWalk_cons, processWalk_cons]
    have hloc : (⟨true, p, l, r⟩ : Uploader).local_path
        = (⟨false, p, l, r⟩ : Uploader).local_path := rfl
    rcases h1 : (if e.1 = (⟨true, p, l, r⟩ : Uploader).local_path then (s, true)
        else (⟨true, p, l, r⟩ : Uploader).create_directory_in_synapse s e.1 false)
      with ⟨s1, a1⟩
    rcases h0 : (if e.1 = (⟨false, p, l, r⟩ : Uploader).local_path then (t, true)
        else (⟨false, p, l, r⟩ : Uploader).create_directory_in_synapse t e.1 false)
      with ⟨t1, b1⟩
    have hstep : a1 = b1 ∧ dryMirrors s1 t1 := by
      by_cases he : e.1 = (⟨false, p, l, r⟩ : Uploader).local_path
      · rw [if_pos he] at h0
        rw [hloc, if_pos he] at h1
        cases h1
        cases h0
        exact ⟨rfl, h⟩
      · rw [if_neg he] at h0
        rw [hloc, if_neg he] at h1
        have := create_dir_bisim p l r e.1 false s t h
        rw [h1, h0] at this
        exact this
    obtain ⟨hab, hm1⟩ := hstep
    cases a1 with
    | false =>
      cases b1 with
      | false => exact ⟨rfl, hm1⟩
      | true => simp at hab
    | true =>
      cases b1 with
      | false => simp at hab
      | true =>
        simp only [andThen_true]
        rcases h2 : (⟨true, p, l, r⟩ : Uploader).processFiles e.1 e.2 s1
          with ⟨s2, a2⟩
        rcases h2' : (⟨false, p, l, r⟩ : Uploader).processFiles e.1 e.2 t1
          with ⟨t2, b2⟩
        have hfb := processFiles_bisim p l r e.1 e.2 s1 t1 hm1
        rw [h2, h2'] at hfb
        obtain ⟨hab2, hm2⟩ := hfb
        cases a2 with
        | false =>
          cases b2 with
          | false => exact ⟨rfl, hm2⟩
          | true => simp at hab2
        | true =>
          cases b2 with
          | false => simp at hab2
          | true =>
            simp only [andThen_true]
            exact ih s2 t2 hm2

theorem virtual_bisim (p l : String) (r : Option String) :
    ∀ (segs : List String) (full : String) (s t : RunState), dryMirrors s t →
      ((⟨true, p, l, r⟩ : Uploader).createVirtualFolders segs full s).2
        = ((⟨false, p, l, r⟩ : Uploader).createVirtualFolders segs full t).2 ∧
      dryMirrors ((⟨true, p, l, r⟩ : Uploader).createVirtualFolders segs full s).1
        ((⟨false, p, l, r⟩ : Uploader).createVirtualFolders segs full t).1 := by
  intro segs
  induction segs with
  | nil => intro full s t h; exact ⟨rfl, h⟩
  | cons f rest ih =>
    intro full s t h
    rw [createVirtualFolders_cons, createVirtualFolders_cons]
    rcases h1 : (⟨true, p, l, r⟩ : Uploader).create_directory_in_synapse s
        (osJoin2 full f) true with ⟨s', a⟩
    rcases h0 : (⟨false, p, l, r⟩ : Uploader).create_directory_in_synapse t
        (osJoin2 full f) true with ⟨t', b⟩
    have hb := create_dir_bisim p l r (osJoin2 full f) true s t h
    rw [h1, h0] at hb
    obtain ⟨hab, hm⟩ := hb
    cases a with
    | false =>
      cases b with
      | false => exact ⟨rfl, hm⟩
      | true => simp at hab
    | true =>
      cases b with
      | false => simp at hab
      | true =>
        simp only [andThen_true]
        exact ih (osJoin2 full f) s' t' hm

theorem createRemotePath_bisim (p l : String) (r : Option String)
    (s t : RunState) (h : dryMirrors s t) :
    ((⟨true, p, l, r⟩ : Uploader).createRemotePath s).2
      = ((⟨false, p, l, r⟩ : Uploader).createRemotePath t).2 ∧
    dryMirrors ((⟨true, p, l, r⟩ : Uploader).createRemotePath s).1
      ((⟨false, p, l, r⟩ : Uploader).createRemotePath t).1 := by
  unfold Uploader.createRemotePath
  cases hr : r with
  | none => exact ⟨rfl, h⟩
  | some rp =>
    exact virtual_bisim p l (some rp)
      (((pySplit rp.data).map (fun c => (⟨c⟩ : String))).filter
        (fun s => s ≠ "")) "" s t h

theorem login_bisim (p l : String) (r : Option String)
    (env : List (String × String)) (s t : RunState) (h : dryMirrors s t) :
    ((⟨true, p, l, r⟩ : Uploader).login env s).2
      = ((⟨false, p, l, r⟩ : Uploader).login env t).2 ∧
    dryMirrors ((⟨true, p, l, r⟩ : Uploader).login env s).1
      ((⟨false, p, l, r⟩ : Uploader).login env t).1 := by
  obtain ⟨hkeys, hlog⟩ := h
  unfold Uploader.login
  cases h1 : envLookup env "SYNAPSE_USER" with
  | none => exact ⟨rfl, hkeys, by simp [hlog]⟩
  | some us =>
    cases h2 : envLookup env "SYNAPSE_PASSWORD" with
    | none => exact ⟨rfl, hkeys, by simp [hlog]⟩
    | some pw => exact ⟨rfl, hkeys, by simp [hlog]⟩

theorem headerState_bisim (p l : String) (r : Option String) :
    dryMirrors (⟨true, p, l, r⟩ : Uploader).headerState
      (⟨false, p, l, r⟩ : Uploader).headerState := by
  unfold Uploader.headerState
  cases hr : r with
  | none => exact ⟨rfl, by simp [RunState.empty]⟩
  | some rp => exact ⟨rfl, by simp [RunState.empty]⟩

theorem afterProject_bisim (p l : String) (r : Option String)
    (s t : RunState) (h : dryMirrors s t) :
    dryMirrors ((⟨true, p, l, r⟩ : Uploader).afterProject s)
      ((⟨false, p, l, r⟩ : Uploader).afterProject t) := by
  obtain ⟨hkeys, hlog⟩ := h
  unfold Uploader.afterProject
  exact ⟨by simp [hkeys], by simp [hlog]⟩

theorem filter_processing_of_mirrors (s t : RunState) (h : dryMirrors s t) :
    s.log.filter (fun x => isProcessingLine x)
      = t.log.filter (fun x => isProcessingLine x) := by
  rw [h.2, List.filter_cons]
  have : isProcessingLine "~~ Dry Run ~~" = false := by decide
  simp [this]

/-- The whole-run bisimulation: a dry run and a real run of the same
configuration succeed or fail together and print the same `Processing`
lines. -/
theorem start_bisim (p l : String) (r : Option String)
    (env : List (String × String)) (w : List (String × List String)) :
    ((⟨true, p, l, r⟩ : Uploader).start env w).2
      = ((⟨false, p, l, r⟩ : Uploader).start env w).2 ∧
    ((⟨true, p, l, r⟩ : Uploader).start env w).1.log.filter
        (fun x => isProcessingLine x)
      = ((⟨false, p, l, r⟩ : Uploader).start env w).1.log.filter
        (fun x => isProcessingLine x) := by
  unfold Uploader.start Uploader.runMain
  rcases hl1 : (⟨true, p, l, r⟩ : Uploader).login env
      (⟨true, p, l, r⟩ : Uploader).headerState with ⟨s5, a5⟩
  rcases hl0 : (⟨false, p, l, r⟩ : Uploader).login env
      (⟨false, p, l, r⟩ : Uploader).headerState with ⟨t5, b5⟩
  have hlb := login_bisim p l r env _ _ (headerState_bisim p l r)
  rw [hl1, hl0] at hlb
  obtain ⟨hab, hm5⟩ := hlb
  cases a5 with
  | false =>
    cases b5 with
    | false => exact ⟨rfl, filter_processing_of_mirrors _ _ hm5⟩
    | true => simp at hab
  | true =>
    cases b5 with
    | false => simp at hab
    | true =>
      simp only [andThen_true]
      have hm6 := afterProject_bisim p l r s5 t5 hm5
      rcases hc1 : (⟨true, p, l, r⟩ : Uploader).createRemotePath
          ((⟨true, p, l, r⟩ : Uploader).afterProject s5) with ⟨s8, a8⟩
      rcases hc0 : (⟨false, p, l, r⟩ : Uploader).createRemotePath
          ((⟨false, p, l, r⟩ : Uploader).afterProject t5) with ⟨t8, b8⟩
      have hcb := createRemotePath_bisim p l r _ _ hm6
      rw [hc1, hc0] at hcb
      obtain ⟨hab8, hm8⟩ := hcb
      cases a8 with
      | false =>
        cases b8 with
        | false => exact ⟨rfl, filter_processing_of_mirrors _ _ hm8⟩
        | true => simp at hab8
      | true =>
        cases b8 with
        | false => simp at hab8
        | true =>
          simp only [andThen_true]
          rcases hw1 : (⟨true, p, l, r⟩ : Uploader).processWalk w s8
            with ⟨s9, a9⟩
          rcases hw0 : (⟨false, p, l, r⟩ : Uploader).processWalk w t8
            with ⟨t9, b9⟩
          have hwb := processWalk_bisim p l r w s8 t8 hm8
          rw [hw1, hw0] at hwb
          obtain ⟨hab9, hm9⟩ := hwb
          cases a9 with
          | false =>
            cases b9 with
            | false => exact ⟨rfl, filter_processing_of_mirrors _ _ hm9⟩
            | true => simp at hab9
          | true =>
            cases b9 with
            | false => simp at hab9
            | true =>
              unfold Uploader.finishLine
              refine ⟨rfl, ?_⟩
              have hfilter := filter_processing_of_mirrors _ _ hm9
              have e1 : isProcessingLine "Dry Run Completed Successfully."
                  = false := by decide
              have e2 : isProcessingLine "Upload Completed Successfully."
                  = false := by decide
              simp [List.filter_append, hfilter, e1, e2]

/-! ### C8: missing credentials abort before any remote call -/

/-- **C8** (from `login()` lines 84–90): if `SYNAPSE_USER` or
`SYNAPSE_PASSWORD` is absent from the environment, the run aborts with a
lookup failure before any remote interaction: no login call, no project
`get`, no `store`, and the Synapse client is never even constructed. -/
theorem claim_C8_missing_credentials (u : Uploader)
    (env : List (String × String)) (w : List (String × List String))
    (h : envLookup env "SYNAPSE_USER" = none ∨
         envLookup env "SYNAPSE_PASSWORD" = none) :
    (u.start env w).2 = false ∧
    (u.start env w).1.loginCalls = 0 ∧
    (u.start env w).1.getCalls = 0 ∧
    (u.start env w).1.storeCalls = 0 ∧
    (u.start env w).1.clientConstructed = false := by
  rcases h with h | h
  · cases hd : u.dry_run <;> cases hr : u.remote_path <;>
      simp [Uploader.start, Uploader.runMain, Uploader.headerState,
        Uploader.login, h, hd, hr, RunState.empty]
  · cases hu : envLookup env "SYNAPSE_USER" <;>
      cases hd : u.dry_run <;> cases hr : u.remote_path <;>
      simp [Uploader.start, Uploader.runMain, Uploader.headerState,
        Uploader.login, h, hu, hd, hr, RunState.empty]

/-- Witness for C8: an empty environment aborts the run with no remote
calls. -/
theorem claim_C8_witness :
    envLookup [] "SYNAPSE_USER" = none ∧
    (((init "syn1" "/a" none false).start [] [("/a", ["f"])]).2 = false ∧
     ((init "syn1" "/a" none false).start [] [("/a", ["f"])]).1.loginCalls = 0 ∧
     ((init "syn1" "/a" none false).start [] [("/a", ["f"])]).1.getCalls = 0 ∧
     ((init "syn1" "/a" none false).start [] [("/a", ["f"])]).1.storeCalls = 0 ∧
     ((init "syn1" "/a" none false).start [] [("/a", ["f"])]).1.clientConstructed
        = false) :=
  ⟨rfl, claim_C8_missing_credentials _ _ _ (Or.inl rfl)⟩

/-! ### C1: path resolution strips every occurrence, not just the front -/

/-- **C1 counterexample**: with project `syn1`, local root `/a` and no
remote prefix, the local path `/a/b/a/c` (the directory `b/a/c` under the
root — the root's name reappears inside) resolves to `syn1/bc`, because
Python's `str.replace` removes *every* occurrence of `"/a/"`, while the
claimed front-stripping rule would give `syn1/b/a/c`. -/
theorem claim_C1_counterexample :
    (init "syn1" "/a" none false).get_synapse_path "/a/b/a/c" false = "syn1/bc" ∧
    specResolve (init "syn1" "/a" none false) "/a/b/a/c" = "syn1/b/a/c" ∧
    ("syn1/bc" : String) ≠ "syn1/b/a/c" := by decide

/-- **C1 amended** (from `get_synapse_path` lines 94–101): for a local path
under the local root, resolution with `is_virtual` false returns the join
of the project id, the remote prefix (if any), and the path with the root
prefix stripped from its front — *provided* the root-plus-separator string
occurs nowhere in the remainder; in general `str.replace` removes every
occurrence, not only the leading one. -/
theorem claim_C1_front_strip (u : Uploader) (rest : String)
    (h : ¬ (u.local_path ++ "/").data <:+: rest.data) :
    u.get_synapse_path (u.local_path ++ "/" ++ rest) false
      = specResolve u (u.local_path ++ "/" ++ rest) := by
  have hpat : (u.local_path ++ "/").data ≠ [] := by
    rw [String.data_append]
    simp
  have hdata : (u.local_path ++ "/" ++ rest).data
      = (u.local_path ++ "/").data ++ rest.data := String.data_append _ _
  have hrep : repL (u.local_path ++ "/").data (u.local_path ++ "/" ++ rest).data
      = rest.data := by
    rw [hdata, repL_prefix _ _ hpat, repL_no_occurrence _ _ h]
  have hpre : (u.local_path ++ "/").data.isPrefixOf
      (u.local_path ++ "/" ++ rest).data = true := by
    rw [hdata, List.isPrefixOf_iff_prefix]
    exact ⟨rest.data, rfl⟩
  show osJoin2 _ (pyReplaceEmpty _ _) = specResolve u _
  unfold specResolve pyReplaceEmpty
  rw [hrep]
  rw [if_pos hpre]
  rw [hdata, List.drop_left]

/-- Witness for the amended C1: a benign path under the root where the
root string does not reappear. -/
theorem claim_C1_front_strip_witness :
    (¬ ((init "syn111" "/data/exp1" (some "results/run1") false).local_path
        ++ "/").data <:+: ("sub/a.txt" : String).data) ∧
    (init "syn111" "/data/exp1" (some "results/run1") false).get_synapse_path
        ((init "syn111" "/data/exp1" (some "results/run1") false).local_path
          ++ "/" ++ "sub/a.txt") false
      = specResolve (init "syn111" "/data/exp1" (some "results/run1") false)
          ((init "syn111" "/data/exp1" (some "results/run1") false).local_path
            ++ "/" ++ "sub/a.txt") :=
  ⟨by decide, claim_C1_front_strip _ "sub/a.txt" (by decide)⟩

/-! ### C10: one fixed placeholder id for all dry-run folders -/

/-- **C10** (from `create_directory_in_synapse` lines 117–119): in a dry
run every simulated folder — any cache entry other than the project root
entry — carries the one placeholder identifier `'syn0'`; distinct folders
do not receive distinct placeholders. -/
theorem claim_C10_single_placeholder (p l : String) (r : Option String)
    (env : List (String × String)) (w : List (String × List String)) :
    ∀ kv ∈ ((init p l r true).start env w).1.folders,
      kv.1 ≠ p → kv.2.id = "syn0" :=
  start_allSyn0 (init p l r true) rfl env w

/-- Witness for C10: in a concrete dry run the folder created for `/a/b`
is cached with id `'syn0'`. -/
theorem claim_C10_witness :
    (("syn1/b", (⟨"syn0", "b", "syn1"⟩ : SynEntity)) ∈
      ((init "syn1" "/a" none true).start
        [("SYNAPSE_USER", "u"), ("SYNAPSE_PASSWORD", "p")]
        [("/a", []), ("/a/b", [])]).1.folders) ∧
    (("syn1/b" : String) ≠ "syn1") ∧
    (⟨"syn0", "b", "syn1"⟩ : SynEntity).id = "syn0" :=
  ⟨by decide, by decide,
    claim_C10_single_placeholder "syn1" "/a" none
      [("SYNAPSE_USER", "u"), ("SYNAPSE_PASSWORD", "p")]
      [("/a", []), ("/a/b", [])]
      ("syn1/b", ⟨"syn0", "b", "syn1"⟩) (by decide) (by decide)⟩

/-! ### C4: what a dry run does and does not touch -/

/-- **C4 counterexample**: a dry run still performs network calls — the
`login()` call and the project `get` happen regardless of the dry-run
flag (lines 45–47 run before the flag is ever consulted), so the claim
"start() performs no network calls at all" is false. -/
theorem claim_C4_counterexample :
    ((init "syn1" "/a" none true).start
        [("SYNAPSE_USER", "u"), ("SYNAPSE_PASSWORD", "p")]
        [("/a", ["f"])]).1.loginCalls = 1 ∧
    ((init "syn1" "/a" none true).start
        [("SYNAPSE_USER", "u"), ("SYNAPSE_PASSWORD", "p")]
        [("/a", ["f"])]).1.getCalls = 1 ∧
    ((init "syn1" "/a" none true).start
        [("SYNAPSE_USER", "u"), ("SYNAPSE_PASSWORD", "p")]
        [("/a", ["f"])]).1.clientConstructed = true := by decide

/-- **C4 amended** (from `start`/`create_directory_in_synapse`/
`upload_file_to_synapse`): in a dry run no `store` call is ever made and
no file is uploaded; every folder creation is simulated by the fixed
placeholder id `'syn0'`; file uploads are skipped but still logged; the
`login` call and the project `get` do still happen (one of each on a
completed run). -/
theorem claim_C4_dry_run_frame (p l : String) (r : Option String)
    (env : List (String × String)) (w : List (String × List String)) :
    ((init p l r true).start env w).1.storeCalls = 0 ∧
    ((init p l r true).start env w).1.fileStores = 0 ∧
    (∀ kv ∈ ((init p l r true).start env w).1.folders,
      kv.1 ≠ p → kv.2.id = "syn0") ∧
    (((init p l r true).start env w).2 = true →
      ((init p l r true).start env w).1.loginCalls = 1 ∧
      ((init p l r true).start env w).1.getCalls = 1 ∧
      ∀ e ∈ w, ∀ f ∈ e.2,
        fileLine (osJoin2 e.1 f) ∈ ((init p l r true).start env w).1.log) := by
  obtain ⟨h1, h2, h3⟩ := start_dry_frame (init p l r true) rfl env w
  refine ⟨h1, h2, start_allSyn0 (init p l r true) rfl env w, fun hok => ?_⟩
  exact ⟨(h3 hok).1, (h3 hok).2, start_ok_file_lines _ env w hok⟩

/-- Witness for the amended C4 on a concrete completed dry run. -/
theorem claim_C4_witness :
    (((init "syn1" "/a" none true).start
        [("SYNAPSE_USER", "u"), ("SYNAPSE_PASSWORD", "p")]
        [("/a", ["f"])]).2 = true) ∧
    ((init "syn1" "/a" none true).start
        [("SYNAPSE_USER", "u"), ("SYNAPSE_PASSWORD", "p")]
        [("/a", ["f"])]).1.storeCalls = 0 ∧
    ((init "syn1" "/a" none true).start
        [("SYNAPSE_USER", "u"), ("SYNAPSE_PASSWORD", "p")]
        [("/a", ["f"])]).1.loginCalls = 1 :=
  ⟨by decide,
   (claim_C4_dry_run_frame "syn1" "/a" none
      [("SYNAPSE_USER", "u"), ("SYNAPSE_PASSWORD", "p")] [("/a", ["f"])]).1,
   ((claim_C4_dry_run_frame "syn1" "/a" none
      [("SYNAPSE_USER", "u"), ("SYNAPSE_PASSWORD", "p")] [("/a", ["f"])]).2.2.2
      (by decide)).1⟩

/-! ### C3: dry run stores nothing but prints the same progress -/

/-- **C3** (from `create_directory_in_synapse` lines 117–121 and
`upload_file_to_synapse` lines 137–138): a run with `dry_run` set makes
zero `store` calls and uploads zero files, succeeds or fails exactly when
the real run of the same configuration does, and prints the identical
sequence of `Processing` console lines. -/
theorem claim_C3_dry_run_equivalence (p l : String) (r : Option String)
    (env : List (String × String)) (w : List (String × List String)) :
    ((init p l r true).start env w).1.storeCalls = 0 ∧
    ((init p l r true).start env w).1.fileStores = 0 ∧
    ((init p l r true).start env w).2 = ((init p l r false).start env w).2 ∧
    ((init p l r true).start env w).1.log.filter (fun x => isProcessingLine x)
      = ((init p l r false).start env w).1.log.filter
          (fun x => isProcessingLine x) := by
  have hb := start_bisim p (rstripSep l) (normRemote r) env w
  obtain ⟨h1, h2, _⟩ := start_dry_frame (init p l r true) rfl env w
  exact ⟨h1, h2, hb.1, hb.2⟩

/-! ### C7: the local root itself is never mirrored -/

/-- **C7** (from `start()` lines 58–61): the walk loop creates a folder
for every visited directory except the one equal to the local root: the
walk phase never emits the root's `Processing Folder` line (no
`create_directory_in_synapse` call is made for the root), while on a
completed run every other visited directory gets one; moreover, with no
remote prefix configured, the root's folder line appears nowhere in the
whole run's console output. -/
theorem claim_C7_root_never_created (u : Uploader) :
    (∀ (st : RunState) (w : List (String × List String)),
      ∃ L, (u.processWalk w st).1.log = st.log ++ L ∧
        folderLine u.local_path ∉ L ∧
        ((u.processWalk w st).2 = true →
          ∀ e ∈ w, e.1 ≠ u.local_path → folderLine e.1 ∈ L)) ∧
    (u.remote_path = none → ∀ env w,
      folderLine u.local_path ∉ (u.start env w).1.log) := by
  have hpart1 : ∀ (st : RunState) (w : List (String × List String)),
      ∃ L, (u.processWalk w st).1.log = st.log ++ L ∧
        folderLine u.local_path ∉ L ∧
        ((u.processWalk w st).2 = true →
          ∀ e ∈ w, e.1 ≠ u.local_path → folderLine e.1 ∈ L) := by
    intro st w
    rcases processWalk_log u w st with ⟨L, hL, hclass, hmem⟩
    refine ⟨L, hL, ?_, fun hok e he hne => (hmem hok e he).1 hne⟩
    intro hin
    rcases hclass _ hin with ⟨dp, hdp, hline⟩ | ⟨s, hline⟩ | ⟨s, hline⟩
    · exact hdp (folderLine_injective _ _ hline.symm)
    · exact fileLine_ne_folderLine s u.local_path hline.symm
    · exact arrowLine_ne_folderLine s u.local_path hline.symm
  refine ⟨hpart1, fun hr env w => ?_⟩
  have hhdr : ∀ s ∈ u.headerState.log, s ≠ folderLine u.local_path := by
    rw [headerState_log, hr]
    intro s hs
    simp only [List.append_nil] at hs
    rcases List.mem_append.mp hs with hs | hs
    · have : s = "~~ Dry Run ~~" := by
        cases hd : u.dry_run <;> rw [hd] at hs <;> simp at hs
        exact hs
      rw [this]
      exact ne_append_of_take_ne "~~ Dry Run ~~" "Processing Folder: " 1
        (by decide) (by decide) (by decide) u.local_path
    · rcases List.mem_cons.mp hs with hs | hs
      · rw [hs]
        exact append_ne_of_take_ne "Uploading to Project: "
          "Processing Folder: " 1 (by decide) (by decide) (by decide) _ _
      · simp at hs
        rw [hs]
        exact append_ne_of_take_ne "Uploading Directory: "
          "Processing Folder: " 1 (by decide) (by decide) (by decide) _ _
  unfold Uploader.start Uploader.runMain
  rcases hlog : u.login env u.headerState with ⟨st5, b5⟩
  have hlog5 : st5.log = u.headerState.log ++ ["Logging into Synapse..."] := by
    have := login_log u env u.headerState
    rw [hlog] at this
    exact this
  have hmem5 : folderLine u.local_path ∉ st5.log := by
    rw [hlog5]
    intro hin
    rcases List.mem_append.mp hin with hin | hin
    · exact hhdr _ hin rfl
    · simp at hin
      exact ne_append_of_take_ne "Logging into Synapse..." "Processing Folder: "
        1 (by decide) (by decide) (by decide) u.local_path hin.symm
  cases b5 with
  | false => exact hmem5
  | true =>
    simp only [andThen_true]
    rw [createRemotePath_none u hr (u.afterProject st5)]
    simp only [andThen_true]
    rcases hw : u.processWalk w (u.afterProject st5) with ⟨st9, b9⟩
    rcases hpart1 (u.afterProject st5) w with ⟨L, hL, hnotin, _⟩
    rw [hw] at hL
    have hL' : st9.log = (u.afterProject st5).log ++ L := hL
    have hap : (u.afterProject st5).log = st5.log := rfl
    have hmem9 : folderLine u.local_path ∉ st9.log := by
      rw [hL', hap]
      intro hin
      rcases List.mem_append.mp hin with hin | hin
      · exact hmem5 hin
      · exact hnotin hin
    cases b9 with
    | false => exact hmem9
    | true =>
      unfold Uploader.finishLine
      simp only [andThen_true, addLog_log]
      intro hin
      rcases List.mem_append.mp hin with hin | hin
      · exact hmem9 hin
      · simp at hin
        cases hd : u.dry_run <;> rw [hd] at hin <;> simp at hin
        · exact ne_append_of_take_ne "Upload Completed Successfully."
            "Processing Folder: " 1 (by decide) (by decide) (by decide)
            u.local_path hin.symm
        · exact ne_append_of_take_ne "Dry Run Completed Successfully."
            "Processing Folder: " 1 (by decide) (by decide) (by decide)
            u.local_path hin.symm

/-! ### C5: the remote prefix is created segment by segment -/

/-- **C5** (from `start()` lines 51–55 and `get_synapse_path` lines
94–96): for every configured remote prefix, `start()` splits the prefix
into segments on the path separator, discards the empty segments, and
creates one virtual folder per remaining segment, in order from root to
leaf (their `Processing Folder` lines appear in that order in the log),
each keyed in the folder cache by the cumulative `os.path.join` of the
segments joined under the project identifier. -/
theorem claim_C5_virtual_prefix (u : Uploader) (rp : String)
    (env : List (String × String)) (w : List (String × List String))
    (hr : u.remote_path = some rp)
    (hp1 : u.synapse_project.data ≠ [])
    (hp2 : '/' ∉ u.synapse_project.data)
    (he1 : envLookup env "SYNAPSE_USER" ≠ none)
    (he2 : envLookup env "SYNAPSE_PASSWORD" ≠ none) :
    List.Sublist ((List.range (segsOf rp).length).map
        (fun i => folderLine (joinAll ((segsOf rp).take (i + 1)))))
      (u.start env w).1.log ∧
    ∀ i, i < (segsOf rp).length →
      lookupFolder (u.start env w).1
        (osJoin2 u.synapse_project (joinAll ((segsOf rp).take (i + 1)))) ≠ none := by
  unfold Uploader.start Uploader.runMain
  rcases hl : u.login env u.headerState with ⟨st5, b5⟩
  have hb5 : b5 = true := by
    have := login_ok u env u.headerState he1 he2
    rw [hl] at this
    exact this
  subst hb5
  simp only [andThen_true]
  have hkey0 : lookupFolder (u.afterProject st5)
      (if ([] : List String) = [] then u.synapse_project
       else osJoin2 u.synapse_project (joinAll [])) ≠ none := by
    rw [if_pos rfl]
    unfold Uploader.afterProject
    rw [lookupFolder_setFolder_self]
    simp
  obtain ⟨vok, ⟨L, hLlog, hLsub⟩, vkeys⟩ :=
    virtual_loop u hp1 hp2 (segsOf rp) [] (u.afterProject st5)
      (segsOf_valid rp) (by simp) hkey0
  rcases hc : u.createVirtualFolders (segsOf rp) "" (u.afterProject st5)
    with ⟨st8, b8⟩
  have hc' : u.createVirtualFolders (segsOf rp) (joinAll [])
      (u.afterProject st5) = (st8, b8) := hc
  rw [hc'] at vok hLlog vkeys
  have hb8 : b8 = true := vok
  subst hb8
  have hcrp : u.createRemotePath (u.afterProject st5) = (st8, true) := by
    unfold Uploader.createRemotePath
    rw [hr]
    exact hc
  rw [hcrp]
  simp only [andThen_true]
  have hLsub' : List.Sublist ((List.range (segsOf rp).length).map
      (fun i => folderLine (joinAll ((segsOf rp).take (i + 1))))) L := by
    have : ∀ i ∈ List.range (segsOf rp).length,
        folderLine (joinAll (([] : List String) ++ (segsOf rp).take (i + 1)))
          = folderLine (joinAll ((segsOf rp).take (i + 1))) := by
      intro i _
      rw [List.nil_append]
    rw [← List.map_congr_left this]
    exact hLsub
  have hst8log : st8.log = (u.afterProject st5).log ++ L := hLlog
  have hst8keys : ∀ i, i < (segsOf rp).length →
      lookupFolder st8
        (osJoin2 u.synapse_project (joinAll ((segsOf rp).take (i + 1)))) ≠ none := by
    intro i hi
    have := vkeys i hi
    rwa [List.nil_append] at this
  rcases hw : u.processWalk w st8 with ⟨st9, b9⟩
  obtain ⟨Lw, hLw, _, _⟩ := processWalk_log u w st8
  rw [hw] at hLw
  have hLw' : st9.log = st8.log ++ Lw := hLw
  have hwext : ∃ n, st9.folders = n ++ st8.folders := by
    have := processWalk_folders_ext u w st8
    rw [hw] at this
    exact this
  have hkeys9 : ∀ i, i < (segsOf rp).length →
      lookupFolder st9
        (osJoin2 u.synapse_project (joinAll ((segsOf rp).take (i + 1)))) ≠ none := by
    intro i hi
    exact lookupFolder_ext_mono st8 st9 _ hwext (hst8keys i hi)
  cases b9 with
  | false =>
    simp only [andThen_false]
    constructor
    · rw [hLw', hst8log]
      exact sublist_embed _ L (u.afterProject st5).log Lw hLsub'
    · exact hkeys9
  | true =>
    unfold Uploader.finishLine
    constructor
    · simp only [andThen_true, addLog_log]
      rw [hLw', hst8log]
      rw [List.append_assoc, List.append_assoc]
      have := sublist_embed _ L (u.afterProject st5).log
        (Lw ++ [if u.dry_run then "Dry Run Completed Successfully."
                else "Upload Completed Successfully."]) hLsub'
      simpa [List.append_assoc] using this
    · intro i hi
      refine lookupFolder_ext_mono st9 _ _ ⟨[], rfl⟩ (hkeys9 i hi)

/-- Witness for C5: the spec's prefix scenario `results/run1`: both
cumulative folder lines appear in order and both cumulative keys are
cached. -/
theorem claim_C5_witness :
    ((init "syn111" "/data/exp1" (some "results/run1") false).remote_path
      = some "results/run1") ∧
    List.Sublist ((List.range (segsOf "results/run1").length).map
        (fun i => folderLine (joinAll ((segsOf "results/run1").take (i + 1)))))
      ((init "syn111" "/data/exp1" (some "results/run1") false).start
        [("SYNAPSE_USER", "u"), ("SYNAPSE_PASSWORD", "p")]
        [("/data/exp1", ["b.txt"])]).1.log := by
  refine ⟨by decide, ?_⟩
  exact ( claim_C5_virtual_prefix
    (init "syn111" "/data/exp1" (some "results/run1") false) "results/run1"
    [("SYNAPSE_USER", "u"), ("SYNAPSE_PASSWORD", "p")]
    [("/data/exp1", ["b.txt"])]
    (by decide) (by decide) (by decide) (by decide) (by decide)).1

/-- Witness for C7: in a concrete no-prefix run the root's folder line
never appears. -/
theorem claim_C7_witness :
    ((init "syn1" "/a" none false).remote_path = none) ∧
    folderLine (init "syn1" "/a" none false).local_path ∉
      ((init "syn1" "/a" none false).start
        [("SYNAPSE_USER", "u"), ("SYNAPSE_PASSWORD", "p")]
        [("/a", ["f"]), ("/a/b", [])]).1.log :=
  ⟨rfl, (claim_C7_root_never_created (init "syn1" "/a" none false)).2 rfl
    [("SYNAPSE_USER", "u"), ("SYNAPSE_PASSWORD", "p")]
    [("/a", ["f"]), ("/a/b", [])]⟩

/-! ### Structure of the replace scan over separator-joined paths

These lemmas analyse `repL pat` for a pattern that ends in the
separator (the program's `local_path + os.sep`), the core of the walk
phase of claim C2. -/

theorem getLast?_cons_ne (a : Char) (l : List Char) (h : l ≠ []) :
    (a :: l).getLast? = l.getLast? := by
  cases l with
  | nil => exact absurd rfl h
  | cons b t => exact List.getLast?_cons_cons

theorem prefix_shorten (x y z : List Char) (h : x <+: y ++ z)
    (hlen : x.length ≤ y.length) : x <+: y := by
  rcases h with ⟨t, ht⟩
  have hx : x = (y ++ z).take x.length := by
    rw [← ht]
    exact (List.take_left x t).symm
  have h0 : x.length - y.length = 0 := Nat.sub_eq_zero_of_le hlen
  rw [List.take_append_eq_append_take, h0] at hx
  simp only [List.take_zero, List.append_nil] at hx
  exact hx ▸ List.take_prefix x.length y

theorem pat_not_prefix_flat (pat : List Char) (h2 : 2 ≤ pat.length)
    (hlast : pat.getLast? = some '/') (name : List Char)
    (hname : '/' ∉ name) : ¬ pat <+: ('/' :: name) := by
  intro hp
  cases pat with
  | nil => simp at h2
  | cons p0 pt =>
    rcases List.cons_prefix_cons.mp hp with ⟨-, hpt⟩
    have hptne : pt ≠ [] := by
      intro he
      rw [he] at h2
      simp at h2
    rw [getLast?_cons_ne p0 pt hptne] at hlast
    exact hname (hpt.subset (mem_of_getLast?_eq pt '/' hlast))

theorem repL_flat (pat l : List Char) (hp : '/' ∈ pat) (hl : '/' ∉ l) :
    repL pat l = l := by
  apply repL_no_occurrence
  intro hinf
  exact hl (hinf.subset hp)

/-- The key scanning dichotomy: replacing inside `A ++ '/' :: name` with a
separator-free `name` either treats the final separator untouched, or the
very last pattern occurrence straddles it, gluing `name` onto the output
of the scan of a strict prefix of `A`. -/
theorem repL_glue (pat : List Char) (h2 : 2 ≤ pat.length)
    (hlast : pat.getLast? = some '/') (name : List Char) (hname : '/' ∉ name) :
    ∀ n A, A.length ≤ n →
      repL pat (A ++ '/' :: name) = repL pat A ++ '/' :: name ∨
      ∃ A₁, A ++ ['/'] = A₁ ++ pat ∧
        repL pat (A ++ '/' :: name) = repL pat A₁ ++ name := by
  have hpne : pat ≠ [] := by
    intro he
    rw [he] at h2
    simp at h2
  have hslash : '/' ∈ pat := mem_of_getLast?_eq pat '/' hlast
  have hbase : repL pat (([] : List Char) ++ '/' :: name)
      = repL pat [] ++ '/' :: name := by
    rw [List.nil_append, repL_nil, List.nil_append,
      repL_cons pat hpne '/' name, if_neg (by
        intro hb
        exact pat_not_prefix_flat pat h2 hlast name hname
          (List.isPrefixOf_iff_prefix.mp hb)),
      repL_flat pat name hslash hname]
  intro n
  induction n with
  | zero =>
    intro A hA
    rw [List.eq_nil_of_length_eq_zero (Nat.le_zero.mp hA)]
    exact Or.inl hbase
  | succ n ih =>
    intro A hA
    cases A with
    | nil => exact Or.inl hbase
    | cons c A' =>
      by_cases hp : pat <+: (c :: (A' ++ '/' :: name))
      · have hpapp : pat <+: ((c :: A') ++ '/' :: name) := by
          rw [List.cons_append]
          exact hp
        have hrw : repL pat ((c :: A') ++ '/' :: name)
            = repL pat (((c :: A') ++ '/' :: name).drop pat.length) := by
          rw [show (c :: A') ++ '/' :: name = c :: (A' ++ '/' :: name) from rfl,
            repL_cons pat hpne c (A' ++ '/' :: name),
            if_pos (List.isPrefixOf_iff_prefix.mpr hp)]
        by_cases hlen : pat.length ≤ (c :: A').length
        · have hpA : pat <+: (c :: A') :=
            prefix_shorten pat (c :: A') ('/' :: name) hpapp hlen
          rcases hpA with ⟨t, ht⟩
          have hdrop : ((c :: A') ++ '/' :: name).drop pat.length
              = t ++ '/' :: name := by
            rw [← ht, List.append_assoc, List.drop_left]
          have htlen : t.length ≤ n := by
            have hle := congrArg List.length ht
            simp only [List.length_append, List.length_cons] at hle hA
            omega
          rcases ih t htlen with h1 | ⟨B, hB, hB2⟩
          · left
            rw [hrw, hdrop, h1, ← ht, repL_prefix pat t hpne]
          · right
            refine ⟨pat ++ B, ?_, ?_⟩
            · rw [← ht, List.append_assoc, hB, ← List.append_assoc]
            · rw [hrw, hdrop, hB2, repL_prefix pat B hpne]
        · push_neg at hlen
          have hpat_take : pat
              = (c :: A') ++ ('/' :: name).take (pat.length - (c :: A').length) := by
            rcases hpapp with ⟨t, ht⟩
            have h1 : pat = ((c :: A') ++ '/' :: name).take pat.length := by
              rw [← ht]
              exact (List.take_left pat t).symm
            have h1b : ((c :: A') ++ '/' :: name).take pat.length
                = (c :: A') ++ ('/' :: name).take (pat.length - (c :: A').length) := by
              rw [List.take_append_eq_append_take,
                List.take_of_length_le (Nat.le_of_lt hlen)]
            exact h1.trans h1b
          rcases hk : pat.length - (c :: A').length with _ | j
          · omega
          · rw [hk, List.take_succ_cons] at hpat_take
            cases j with
            | zero =>
              right
              refine ⟨[], ?_, ?_⟩
              · rw [List.nil_append, hpat_take, List.take_zero]
              · have hsplit : (c :: A') ++ '/' :: name
                    = pat ++ name := by
                  rw [hpat_take, List.take_zero, List.append_assoc]
                  rfl
                rw [hrw, hsplit, List.drop_left, repL_nil, List.nil_append,
                  repL_flat pat name hslash hname]
            | succ j' =>
              exfalso
              have hTne : name.take (j' + 1) ≠ [] := by
                intro he
                have hle := congrArg List.length hpat_take
                rw [he] at hle
                simp only [List.length_append, List.length_cons,
                  List.length_nil] at hle hk
                omega
              have hlast2 : pat.getLast? = (name.take (j' + 1)).getLast? := by
                rw [hpat_take, getLast?_append_cons,
                  getLast?_cons_ne '/' _ hTne]
              rw [hlast] at hlast2
              exact hname (List.take_subset _ _
                (mem_of_getLast?_eq _ '/' hlast2.symm))
      · have hrw : repL pat ((c :: A') ++ '/' :: name)
            = c :: repL pat (A' ++ '/' :: name) := by
          rw [show (c :: A') ++ '/' :: name = c :: (A' ++ '/' :: name) from rfl,
            repL_cons pat hpne c (A' ++ '/' :: name), if_neg (by
              intro hb
              exact hp (List.isPrefixOf_iff_prefix.mp hb))]
        have hA' : A'.length ≤ n := by
          simp only [List.length_cons] at hA
          omega
        rcases ih A' hA' with h1 | ⟨B, hB, hB2⟩
        · left
          have hcA : repL pat (c :: A') = c :: repL pat A' := by
            rw [repL_cons pat hpne c A', if_neg (by
              intro hb
              apply hp
              have h3 := (List.isPrefixOf_iff_prefix.mp hb).trans
                (List.prefix_append (c :: A') ('/' :: name))
              rw [List.cons_append] at h3
              exact h3)]
          rw [hrw, h1, hcA]
          rfl
        · right
          refine ⟨c :: B, ?_, ?_⟩
          · rw [show (c :: A') ++ ['/'] = c :: (A' ++ ['/']) from rfl, hB]
            rfl
          · have hcB : repL pat (c :: B) = c :: repL pat B := by
              rw [repL_cons pat hpne c B, if_neg (by
                intro hb
                have hpb := List.isPrefixOf_iff_prefix.mp hb
                have hcBp : (c :: B) <+: ((c :: A') ++ ['/']) := by
                  rw [show (c :: A') ++ ['/'] = c :: (A' ++ ['/']) from rfl, hB]
                  exact ⟨pat, rfl⟩
                have hpA1 : pat <+: ((c :: A') ++ ['/']) := hpb.trans hcBp
                have hlenB : pat.length ≤ (c :: A').length := by
                  have hl1 := hpb.length_le
                  have hl2 := congrArg List.length hB
                  simp only [List.length_cons, List.length_append,
                    List.length_nil] at hl1 hl2 ⊢
                  omega
                have hfin : pat <+: (c :: A') :=
                  prefix_shorten pat (c :: A') ['/'] hpA1 hlenB
                apply hp
                have h3 := hfin.trans
                  (List.prefix_append (c :: A') ('/' :: name))
                rw [List.cons_append] at h3
                exact h3)]
            rw [hrw, hB2, hcB]
            rfl

/-- The scan of a pattern ending in the separator keeps the last
character of inputs that do not end in the separator, and in particular
keeps them non-empty. -/
theorem repL_getLast (pat : List Char) (hpat : pat ≠ [])
    (hplast : pat.getLast? = some '/') :
    ∀ n l, l.length ≤ n → l ≠ [] → l.getLast? ≠ some '/' →
      repL pat l ≠ [] ∧ (repL pat l).getLast? = l.getLast? := by
  have hp1 : 1 ≤ pat.length := by
    cases pat with
    | nil => exact absurd rfl hpat
    | cons a t => simp
  intro n
  induction n with
  | zero =>
    intro l hl hne _
    exact absurd (List.eq_nil_of_length_eq_zero (Nat.le_zero.mp hl)) hne
  | succ n ih =>
    intro l hl hne hlast
    cases l with
    | nil => exact absurd rfl hne
    | cons c cs =>
      rw [repL_cons pat hpat c cs]
      by_cases hp : pat.isPrefixOf (c :: cs) = true
      · rw [if_pos hp]
        rcases List.isPrefixOf_iff_prefix.mp hp with ⟨t, ht⟩
        have hdrop : (c :: cs).drop pat.length = t := by
          rw [← ht, List.drop_left]
        cases t with
        | nil =>
          exfalso
          rw [List.append_nil] at ht
          rw [← ht] at hlast
          exact hlast hplast
        | cons x xs =>
          have hlast' : (c :: cs).getLast? = (x :: xs).getLast? := by
            rw [← ht, List.getLast?_append_of_ne_nil pat (by simp)]
          have hlen : (x :: xs).length ≤ n := by
            have hle := congrArg List.length ht
            simp only [List.length_cons, List.length_append] at hle hl ⊢
            omega
          have hres := ih (x :: xs) hlen (by simp)
            (by rw [← hlast']; exact hlast)
          rw [hdrop]
          exact ⟨hres.1, by rw [hres.2, hlast']⟩
      · rw [if_neg hp]
        cases cs with
        | nil => exact ⟨by simp, by simp⟩
        | cons b bs =>
          have hlast' : (c :: b :: bs).getLast? = (b :: bs).getLast? :=
            List.getLast?_cons_cons
          have hlen : (b :: bs).length ≤ n := by
            simp only [List.length_cons] at hl ⊢
            omega
          have hres := ih (b :: bs) hlen (by simp)
            (by rw [← hlast']; exact hlast)
          refine ⟨by simp, ?_⟩
          rw [getLast?_cons_ne c (repL pat (b :: bs)) hres.1, hres.2, hlast']

theorem noDSB_cons_cons (a b : Char) (t : List Char) :
    noDSB (a :: b :: t) = (!(a = '/' && b = '/') && noDSB (b :: t)) := rfl

theorem noDSB_tail (c : Char) (cs : List Char) (h : noDSB (c :: cs) = true) :
    noDSB cs = true := by
  cases cs with
  | nil => rfl
  | cons b t =>
    rw [noDSB_cons_cons, Bool.and_eq_true] at h
    exact h.2

theorem noDSB_drop (l : List Char) :
    ∀ n, noDSB l = true → noDSB (l.drop n) = true := by
  induction l with
  | nil =>
    intro n _
    rw [List.drop_nil]
    rfl
  | cons c cs ih =>
    intro n h
    cases n with
    | zero => exact h
    | succ m =>
      rw [List.drop_succ_cons]
      exact ih m (noDSB_tail c cs h)

/-- In a string without doubled separators, the character right after a
separator is never a separator again. -/
theorem noDSB_adj (l : List Char) : ∀ n, noDSB l = true →
    (l.take n).getLast? = some '/' → (l.drop n).head? ≠ some '/' := by
  induction l with
  | nil =>
    intro n _ htake
    rw [List.take_nil] at htake
    simp at htake
  | cons c cs ih =>
    intro n h htake
    cases n with
    | zero => simp at htake
    | succ m =>
      rw [List.take_succ_cons] at htake
      rw [List.drop_succ_cons]
      by_cases hm : cs.take m = []
      · rw [hm] at htake
        have hc : c = '/' := by simpa using htake
        rcases List.take_eq_nil_iff.mp hm with hm0 | hcs
        · subst hm0
          rw [List.drop_zero]
          cases cs with
          | nil => simp
          | cons b t =>
            subst hc
            rw [noDSB_cons_cons, Bool.and_eq_true] at h
            have hb := h.1
            simp only [Bool.not_eq_eq_eq_not, Bool.not_true, Bool.and_eq_false_iff,
              decide_eq_false_iff_not] at hb
            have hbne : b ≠ '/' := by
              intro hbe
              subst hbe
              simp at hb
            simp [hbne]
        · subst hcs
          simp
      · rw [getLast?_cons_ne c (cs.take m) hm] at htake
        exact ih m (noDSB_tail c cs h) htake

/-- The scan of a pattern ending in the separator never moves a separator
to the front: on inputs without doubled separators whose head is not a
separator, the output head is not a separator either. -/
theorem repL_head (pat : List Char) (hpat : pat ≠ [])
    (hplast : pat.getLast? = some '/') :
    ∀ n l, l.length ≤ n → noDSB l = true → l.head? ≠ some '/' →
      (repL pat l).head? ≠ some '/' := by
  intro n
  induction n with
  | zero =>
    intro l hl _ _
    rw [List.eq_nil_of_length_eq_zero (Nat.le_zero.mp hl)]
    simp
  | succ n ih =>
    intro l hl hnds hhead
    cases l with
    | nil => simp
    | cons c cs =>
      rw [repL_cons pat hpat c cs]
      by_cases hp : pat.isPrefixOf (c :: cs) = true
      · rw [if_pos hp]
        rcases List.isPrefixOf_iff_prefix.mp hp with ⟨t, ht⟩
        have htake : (c :: cs).take pat.length = pat := by
          rw [← ht, List.take_left]
        have hdrophead : ((c :: cs).drop pat.length).head? ≠ some '/' := by
          apply noDSB_adj (c :: cs) pat.length hnds
          rw [htake]
          exact hplast
        have hp1 : 1 ≤ pat.length := by
          cases pat with
          | nil => exact absurd rfl hpat
          | cons a t => simp
        have hlen : ((c :: cs).drop pat.length).length ≤ n := by
          simp only [List.length_drop, List.length_cons] at hl ⊢
          omega
        exact ih _ hlen (noDSB_drop (c :: cs) pat.length hnds) hdrophead
      · rw [if_neg hp]
        simpa using hhead

theorem noDSB_of_no_slash (l : List Char) (h : '/' ∉ l) : noDSB l = true := by
  induction l with
  | nil => rfl
  | cons a cs ih =>
    cases cs with
    | nil => rfl
    | cons b t =>
      rw [noDSB_cons_cons]
      have ha : a ≠ '/' := fun hc => h (by simp [hc])
      have hrest : noDSB (b :: t) = true := ih (fun hm => h (by simp [hm]))
      simp [ha, hrest]

theorem noDSB_append (A B : List Char) :
    noDSB A = true → noDSB B = true →
    (A.getLast? = some '/' → B.head? ≠ some '/') → noDSB (A ++ B) = true := by
  induction A with
  | nil =>
    intro _ hB _
    exact hB
  | cons a A' ih =>
    intro hA hB hj
    cases A' with
    | nil =>
      cases B with
      | nil => rfl
      | cons b t =>
        rw [show ([a] ++ b :: t) = a :: b :: t from rfl, noDSB_cons_cons]
        by_cases ha : a = '/'
        · have hbne : b ≠ '/' := by
            have := hj (by simp [ha])
            simpa using this
          simp [ha, hbne, hB]
        · simp [ha, hB]
    | cons a2 t2 =>
      rw [noDSB_cons_cons, Bool.and_eq_true] at hA
      have h1 := hA.1
      have h2 := hA.2
      have hj' : (a2 :: t2).getLast? = some '/' → B.head? ≠ some '/' := by
        intro hg
        exact hj (by rw [getLast?_cons_ne a (a2 :: t2) (by simp)]; exact hg)
      have hih : noDSB (a2 :: (t2 ++ B)) = true := ih h2 hB hj'
      show noDSB (a :: a2 :: (t2 ++ B)) = true
      rw [noDSB_cons_cons, Bool.and_eq_true]
      exact ⟨h1, hih⟩

/-! ### Separator-joined segment lists and their prefixes -/

theorem joinSegsL_cons_cons (s s2 : List Char) (r : List (List Char)) :
    joinSegsL (s :: s2 :: r) = s ++ '/' :: joinSegsL (s2 :: r) := rfl

theorem joinSegsL_snoc (M : List (List Char)) (f : List Char) (h : M ≠ []) :
    joinSegsL (M ++ [f]) = joinSegsL M ++ '/' :: f := by
  induction M with
  | nil => exact absurd rfl h
  | cons s M' ih =>
    cases M' with
    | nil => rfl
    | cons s2 r =>
      rw [show (s :: s2 :: r) ++ [f] = s :: s2 :: (r ++ [f]) from rfl,
        joinSegsL_cons_cons,
        show s2 :: (r ++ [f]) = (s2 :: r) ++ [f] from rfl,
        ih (by simp), joinSegsL_cons_cons, List.append_assoc]
      rfl

theorem joinSegsL_shape (M : List (List Char))
    (hM : ∀ m ∈ M, m ≠ [] ∧ '/' ∉ m) (hne : M ≠ []) :
    joinSegsL M ≠ [] ∧ (joinSegsL M).head? ≠ some '/' ∧
    (joinSegsL M).getLast? ≠ some '/' ∧ noDSB (joinSegsL M) = true := by
  induction M with
  | nil => exact absurd rfl hne
  | cons s M' ih =>
    have hs := hM s (by simp)
    cases M' with
    | nil =>
      exact ⟨hs.1, head?_ne_of_not_mem s hs.2, getLast?_ne_of_not_mem s hs.2,
        noDSB_of_no_slash s hs.2⟩
    | cons s2 r =>
      have hM' : ∀ m ∈ s2 :: r, m ≠ [] ∧ '/' ∉ m :=
        fun m hm => hM m (by simp [hm])
      obtain ⟨hR1, hR2, hR3, hR4⟩ := ih hM' (by simp)
      rw [joinSegsL_cons_cons]
      refine ⟨by simp, ?_, ?_, ?_⟩
      · rw [List.head?_append_of_ne_nil s hs.1]
        exact head?_ne_of_not_mem s hs.2
      · rw [getLast?_append_cons, getLast?_cons_ne '/' _ hR1]
        exact hR3
      · apply noDSB_append s ('/' :: joinSegsL (s2 :: r))
          (noDSB_of_no_slash s hs.2)
        · cases hR : joinSegsL (s2 :: r) with
          | nil => exact absurd hR hR1
          | cons rb rt =>
            have hrbne : rb ≠ '/' := by
              rw [hR] at hR2
              simpa using hR2
            rw [noDSB_cons_cons, Bool.and_eq_true]
            refine ⟨by simp [hrbne], ?_⟩
            rw [← hR]
            exact hR4
        · intro hc
          exact absurd hc (getLast?_ne_of_not_mem s hs.2)

theorem prefix_append_cons (Q X Y : List Char) (h : Q <+: X ++ '/' :: Y) :
    Q <+: X ∨ ∃ pref, pref <+: Y ∧ Q = X ++ '/' :: pref := by
  by_cases hlen : Q.length ≤ X.length
  · exact Or.inl (prefix_shorten Q X ('/' :: Y) h hlen)
  · push_neg at hlen
    right
    rcases h with ⟨t, ht⟩
    have h1 : Q = (X ++ '/' :: Y).take Q.length := by
      rw [← ht]
      exact (List.take_left Q t).symm
    have h2 : (X ++ '/' :: Y).take Q.length
        = X ++ ('/' :: Y).take (Q.length - X.length) := by
      rw [List.take_append_eq_append_take,
        List.take_of_length_le (Nat.le_of_lt hlen)]
    rcases hk : Q.length - X.length with _ | j
    · omega
    · refine ⟨Y.take j, List.take_prefix j Y, ?_⟩
      rw [h1, h2, hk, List.take_succ_cons]

/-- A prefix of a separator-join of valid segments is either inside the
first segment (no separator at all) or a shorter join followed by a
separator and part of the next segment. -/
theorem prefix_joinSegsL (M : List (List Char))
    (hM : ∀ m ∈ M, m ≠ [] ∧ '/' ∉ m) :
    ∀ t, t ≤ M.length → ∀ Q, Q <+: joinSegsL (M.take t) →
      ('/' ∉ Q) ∨
      ∃ t2 pref, 1 ≤ t2 ∧ t2 < t ∧ '/' ∉ pref ∧
        Q = joinSegsL (M.take t2) ++ '/' :: pref := by
  intro t
  induction t with
  | zero =>
    intro _ Q hQ
    left
    have hq : Q = [] := List.prefix_nil.mp hQ
    subst hq
    simp
  | succ t ih =>
    intro ht Q hQ
    have htlt : t < M.length := ht
    obtain ⟨m, hm⟩ : ∃ m, M[t]? = some m :=
      ⟨_, List.getElem?_eq_getElem htlt⟩
    have hmM : m ∈ M := List.getElem?_mem hm
    have htake : M.take (t + 1) = M.take t ++ [m] := by
      rw [List.take_succ, hm]
      rfl
    by_cases ht0 : t = 0
    · subst ht0
      rw [htake] at hQ
      left
      intro hc
      exact (hM m hmM).2 (hQ.subset hc)
    · have ht1 : 1 ≤ t := Nat.one_le_iff_ne_zero.mpr ht0
      have htne : M.take t ≠ [] := by
        rw [Ne, List.take_eq_nil_iff]
        push_neg
        refine ⟨ht0, ?_⟩
        intro he
        rw [he] at htlt
        simp at htlt
      rw [htake, joinSegsL_snoc _ m htne] at hQ
      rcases prefix_append_cons Q (joinSegsL (M.take t)) m hQ
        with h1 | ⟨pref, hp1, hp2⟩
      · rcases ih (Nat.le_of_lt htlt) Q h1
          with h2 | ⟨t2, pref, a1, a2, a3, a4⟩
        · exact Or.inl h2
        · exact Or.inr ⟨t2, pref, a1, Nat.lt_succ_of_lt a2, a3, a4⟩
      · right
        refine ⟨t, pref, ht1, Nat.lt_succ_self t, ?_, hp2⟩
        exact fun hc => (hM m hmM).2 (hp1.subset hc)

/-- The central classification for claim C2: the replaced form of a
segment path followed by a separator and a flat tail is either entirely
separator-free, or the replaced form of a shorter segment path followed
by a separator and a flat tail.  This says every separator surviving the
replacement marks the replaced form of some ancestor directory. -/
theorem repL_seg_structure (R : List Char) (hR : R ≠ [])
    (M : List (List Char)) (hM : ∀ m ∈ M, m ≠ [] ∧ '/' ∉ m) :
    ∀ n t tail, 1 ≤ t → t ≤ M.length → '/' ∉ tail →
      (joinSegsL (M.take t)).length ≤ n →
      ('/' ∉ repL (R ++ ['/']) (joinSegsL (M.take t) ++ '/' :: tail)) ∨
      ∃ i tail2, 1 ≤ i ∧ i ≤ M.length ∧ '/' ∉ tail2 ∧
        repL (R ++ ['/']) (joinSegsL (M.take t) ++ '/' :: tail)
          = repL (R ++ ['/']) (joinSegsL (M.take i)) ++ '/' :: tail2 := by
  have h2 : 2 ≤ (R ++ ['/']).length := by
    cases R with
    | nil => exact absurd rfl hR
    | cons a l => simp
  have hlast : (R ++ ['/']).getLast? = some '/' := List.getLast?_concat R
  intro n
  induction n with
  | zero =>
    intro t tail ht1 ht2 _ hlen
    exfalso
    have htne : M.take t ≠ [] := by
      rw [Ne, List.take_eq_nil_iff]
      push_neg
      refine ⟨by omega, ?_⟩
      intro he
      rw [he] at ht2
      simp at ht2
      omega
    have hsh := (joinSegsL_shape (M.take t)
      (fun m hm => hM m (List.take_subset t M hm)) htne).1
    exact hsh (List.eq_nil_of_length_eq_zero (Nat.le_zero.mp hlen))
  | succ n ih =>
    intro t tail ht1 ht2 htail hlen
    rcases repL_glue (R ++ ['/']) h2 hlast tail htail
        (joinSegsL (M.take t)).length (joinSegsL (M.take t)) (Nat.le_refl _)
      with h1 | ⟨A₁, hA1, hA2⟩
    · exact Or.inr ⟨t, tail, ht1, ht2, htail, h1⟩
    · have hA1' : joinSegsL (M.take t) = A₁ ++ R := by
        have h3 : joinSegsL (M.take t) ++ ['/'] = (A₁ ++ R) ++ ['/'] := by
          rw [hA1, List.append_assoc]
        exact List.append_cancel_right h3
      have hA1p : A₁ <+: joinSegsL (M.take t) := ⟨R, hA1'.symm⟩
      rcases prefix_joinSegsL M hM t ht2 A₁ hA1p
        with hflat | ⟨t2, pref, hb1, hb2, hb3, hb4⟩
      · left
        rw [hA2, repL_flat (R ++ ['/']) A₁ (by simp) hflat]
        intro hc
        rcases List.mem_append.mp hc with hc | hc
        · exact hflat hc
        · exact htail hc
      · have hlen2 : (joinSegsL (M.take t2)).length ≤ n := by
          have e1 := congrArg List.length hA1'
          have e2 := congrArg List.length hb4
          have hRlen : 1 ≤ R.length := by
            cases R with
            | nil => exact absurd rfl hR
            | cons a l => simp
          simp only [List.length_append, List.length_cons] at e1 e2
          omega
        rcases ih t2 pref hb1 (Nat.le_of_lt (Nat.lt_of_lt_of_le hb2 ht2))
            hb3 hlen2 with hV | ⟨i, tl2, c1, c2, c3, c4⟩
        · left
          rw [hA2, hb4]
          intro hc
          rcases List.mem_append.mp hc with hc | hc
          · exact hV hc
          · exact htail hc
        · right
          refine ⟨i, tl2 ++ tail, c1, c2, ?_, ?_⟩
          · intro hc
            rcases List.mem_append.mp hc with hc | hc
            · exact c3 hc
            · exact htail hc
          · rw [hA2, hb4, c4, List.append_assoc]
            rfl

/-! ### Walked directory paths -/

theorem validSegL_facts (l : List Char) (h : validSegL l = true) :
    l ≠ [] ∧ '/' ∉ l := by
  unfold validSegL at h
  simp at h
  exact h

theorem map_data_facts (segs : List String)
    (h : ∀ s ∈ segs, validSegL s.data = true) :
    ∀ m ∈ segs.map String.data, m ≠ [] ∧ '/' ∉ m := by
  intro m hm
  rcases List.mem_map.mp hm with ⟨s, hs, hrw⟩
  rw [← hrw]
  exact validSegL_facts s.data (h s hs)

theorem pathOf_snoc (root : String) (S : List String) (f : String) :
    pathOf root (S ++ [f]) = pathOf root S ++ "/" ++ f := by
  unfold pathOf
  rw [List.foldl_append]
  rfl

theorem pathOf_data (root : String) :
    ∀ segs : List String, segs ≠ [] →
      (pathOf root segs).data
        = (root.data ++ ['/']) ++ joinSegsL (segs.map String.data) := by
  intro segs
  induction segs using List.reverseRecOn with
  | nil => intro h; exact absurd rfl h
  | append_singleton S f ih =>
    intro _
    rw [pathOf_snoc]
    by_cases hS : S = []
    · subst hS
      show (pathOf root [] ++ "/" ++ f).data = _
      rw [String.data_append, String.data_append]
      rfl
    · rw [String.data_append, String.data_append, ih hS, List.map_append,
        show List.map String.data [f] = [f.data] from rfl,
        joinSegsL_snoc (List.map String.data S) f.data
          (show List.map String.data S ≠ [] by
            intro he
            exact hS (List.map_eq_nil_iff.mp he)),
        show "/".data = ['/'] from rfl]
      simp [List.append_assoc]

theorem pathOf_ne_root (root : String) (segs : List String)
    (h : segs ≠ []) : pathOf root segs ≠ root := by
  intro he
  have hd := congrArg (fun s => s.data.length) he
  simp only [pathOf_data root segs h, List.length_append,
    List.length_cons, List.length_nil] at hd
  omega

theorem pathOf_shape (root : String) (hroot1 : root.data ≠ [])
    (hroot2 : root.data.getLast? ≠ some '/') (segs : List String)
    (hsegs : ∀ s ∈ segs, validSegL s.data = true) :
    (pathOf root segs).data ≠ [] ∧
    (pathOf root segs).data.getLast? ≠ some '/' := by
  by_cases hS : segs = []
  · subst hS
    exact ⟨hroot1, hroot2⟩
  · obtain ⟨hj1, _, hj3, _⟩ := joinSegsL_shape (segs.map String.data)
      (map_data_facts segs hsegs) (by
        intro he
        exact hS (List.map_eq_nil_iff.mp he))
    rw [pathOf_data root segs hS]
    constructor
    · simp
    · rw [List.getLast?_append_of_ne_nil _ hj1]
      exact hj3

theorem osJoin2_eq_append (d f : String) (hd1 : d.data ≠ [])
    (hd2 : d.data.getLast? ≠ some '/') (hf : f.data.head? ≠ some '/') :
    osJoin2 d f = d ++ "/" ++ f := by
  apply String.ext
  rw [osJoin2_data_sep d f hf hd1 hd2, String.data_append, String.data_append]
  show d.data ++ '/' :: f.data = (d.data ++ ['/']) ++ f.data
  simp [List.append_assoc]

theorem osJoin2_empty_right (a : String) (ha : a.data ≠ [])
    (ha2 : a.data.getLast? ≠ some '/') :
    (osJoin2 a "").data = a.data ++ ['/'] := by
  show osJoin2L a.data "".data = _
  unfold osJoin2L
  rw [if_neg (by intro hc; simp at hc), if_neg ha, if_neg ha2]

/-! ### Shape of resolved remote keys -/

theorem append_seg_data (a b : String) :
    (a ++ "/" ++ b).data = a.data ++ '/' :: b.data := by
  rw [String.data_append, String.data_append,
    show "/".data = ['/'] from rfl, List.append_assoc]
  rfl

theorem local_pat_data (u : Uploader) :
    (u.local_path ++ "/").data = u.local_path.data ++ ['/'] := by
  rw [String.data_append]

/-- Resolution of a real path with no remote prefix configured: the
project id, a separator, and the replaced local path. -/
theorem resolve_data_none (u : Uploader) (hr : u.remote_path = none)
    (hp1 : u.synapse_project.data ≠ []) (hp2 : '/' ∉ u.synapse_project.data)
    (x : String) (X : List Char)
    (hX : (pyReplaceEmpty x (u.local_path ++ "/")).data = X)
    (hXh : X.head? ≠ some '/') :
    (u.get_synapse_path x false).data
      = u.synapse_project.data ++ '/' :: X := by
  have hkey : u.get_synapse_path x false
      = osJoin2 (osJoin2 u.synapse_project
          (match u.remote_path with | some r => r | none => ""))
        (pyReplaceEmpty x (u.local_path ++ "/")) := rfl
  rw [hkey, hr]
  show (osJoin2 (osJoin2 u.synapse_project "")
      (pyReplaceEmpty x (u.local_path ++ "/"))).data = _
  have hplast : u.synapse_project.data.getLast? ≠ some '/' :=
    getLast?_ne_of_not_mem _ hp2
  have hinner : (osJoin2 u.synapse_project "").data
      = u.synapse_project.data ++ ['/'] :=
    osJoin2_empty_right u.synapse_project hp1 hplast
  have houter : (osJoin2 (osJoin2 u.synapse_project "")
        (pyReplaceEmpty x (u.local_path ++ "/"))).data
      = (osJoin2 u.synapse_project "").data
        ++ (pyReplaceEmpty x (u.local_path ++ "/")).data := by
    apply osJoin2_data_slash_end
    · rw [hX]
      exact hXh
    · rw [hinner]
      exact List.getLast?_concat _
  rw [houter, hinner, hX, List.append_assoc]
  rfl

/-- Resolution of a real path under a well-formed remote prefix: the
project id, the prefix, and the replaced local path, all separated. -/
theorem resolve_data_some (u : Uploader) (pre : String)
    (hr : u.remote_path = some pre)
    (hp1 : u.synapse_project.data ≠ []) (hp2 : '/' ∉ u.synapse_project.data)
    (hpre1 : pre.data ≠ []) (hpre2 : pre.data.head? ≠ some '/')
    (hpre3 : pre.data.getLast? ≠ some '/')
    (x : String) (X : List Char)
    (hX : (pyReplaceEmpty x (u.local_path ++ "/")).data = X)
    (hXh : X.head? ≠ some '/') :
    (u.get_synapse_path x false).data
      = (u.synapse_project.data ++ '/' :: pre.data) ++ '/' :: X := by
  have hkey : u.get_synapse_path x false
      = osJoin2 (osJoin2 u.synapse_project
          (match u.remote_path with | some r => r | none => ""))
        (pyReplaceEmpty x (u.local_path ++ "/")) := rfl
  rw [hkey, hr]
  show (osJoin2 (osJoin2 u.synapse_project pre)
      (pyReplaceEmpty x (u.local_path ++ "/"))).data = _
  have hplast : u.synapse_project.data.getLast? ≠ some '/' :=
    getLast?_ne_of_not_mem _ hp2
  have hinner : (osJoin2 u.synapse_project pre).data
      = u.synapse_project.data ++ '/' :: pre.data :=
    osJoin2_data_sep _ _ hpre2 hp1 hplast
  have houter : (osJoin2 (osJoin2 u.synapse_project pre)
        (pyReplaceEmpty x (u.local_path ++ "/"))).data
      = (osJoin2 u.synapse_project pre).data
        ++ '/' :: (pyReplaceEmpty x (u.local_path ++ "/")).data := by
    apply osJoin2_data_sep
    · rw [hX]
      exact hXh
    · rw [hinner]
      simp
    · rw [hinner, getLast?_append_cons, getLast?_cons_ne '/' _ hpre1]
      exact hpre3
  rw [houter, hinner, hX]

set_option maxHeartbeats 1600000 in
/-- The heart of claim C2: for a child of a visited directory, the parent
key looked up by `create_directory_in_synapse` / `upload_file_to_synapse`
is already cached — it is the project entry, the prefix entry, or the
resolved key of a visited ancestor, whichever the replace scan leaves as
the last separator of the resolved path. -/
theorem child_parent_cached (u : Uploader)
    (hp1 : u.synapse_project.data ≠ []) (hp2 : '/' ∉ u.synapse_project.data)
    (hroot1 : u.local_path.data ≠ [])
    (_hroot2 : u.local_path.data.getLast? ≠ some '/')
    (hpre : ∀ pre, u.remote_path = some pre →
      pre.data ≠ [] ∧ pre.data.head? ≠ some '/' ∧
      pre.data.getLast? ≠ some '/')
    (st : RunState) (seen : List String) (hinv : walkInv u st seen)
    (segs : List String) (hsegs : ∀ s ∈ segs, validSegL s.data = true)
    (hanc : ∀ i, i ≤ segs.length → pathOf u.local_path (segs.take i) ∈ seen)
    (name : String) (hname : validSegL name.data = true) :
    lookupFolder st (dirnameS (u.get_synapse_path
      (pathOf u.local_path segs ++ "/" ++ name) false)) ≠ none := by
  obtain ⟨hnd1, hnd2⟩ := validSegL_facts name.data hname
  have hplast : u.synapse_project.data.getLast? ≠ some '/' :=
    getLast?_ne_of_not_mem _ hp2
  have hpatne : u.local_path.data ++ ['/'] ≠ [] := by simp
  have hpatlast : (u.local_path.data ++ ['/']).getLast? = some '/' :=
    List.getLast?_concat _
  by_cases hsegs0 : segs = []
  · -- a child of the root itself: the replaced path is the bare segment
    subst hsegs0
    have hp0 : pathOf u.local_path [] = u.local_path := rfl
    rw [hp0]
    have hXdata : (pyReplaceEmpty (u.local_path ++ "/" ++ name)
        (u.local_path ++ "/")).data = name.data := by
      show repL (u.local_path ++ "/").data
        (u.local_path ++ "/" ++ name).data = name.data
      rw [local_pat_data, append_seg_data,
        show u.local_path.data ++ '/' :: name.data
          = (u.local_path.data ++ ['/']) ++ name.data by
            simp [List.append_assoc],
        repL_prefix _ _ hpatne]
      exact repL_flat _ _ (by simp) hnd2
    have hXh : name.data.head? ≠ some '/' := head?_ne_of_not_mem _ hnd2
    rcases hrem : u.remote_path with _ | pre
    · have hres := resolve_data_none u hrem hp1 hp2
        (u.local_path ++ "/" ++ name) name.data hXdata hXh
      have hdir : dirnameS (u.get_synapse_path
          (u.local_path ++ "/" ++ name) false) = u.synapse_project := by
        apply String.ext
        show dirnameL (u.get_synapse_path
          (u.local_path ++ "/" ++ name) false).data = u.synapse_project.data
        rw [hres]
        exact dirnameL_append _ _ hnd2 hp1 hplast
      rw [hdir]
      exact hinv.1
    · obtain ⟨hpre1, hpre2, hpre3⟩ := hpre pre hrem
      have hres := resolve_data_some u pre hrem hp1 hp2 hpre1 hpre2 hpre3
        (u.local_path ++ "/" ++ name) name.data hXdata hXh
      have hdir : dirnameS (u.get_synapse_path
          (u.local_path ++ "/" ++ name) false)
          = osJoin2 u.synapse_project pre := by
        apply String.ext
        show dirnameL (u.get_synapse_path
          (u.local_path ++ "/" ++ name) false).data
          = (osJoin2 u.synapse_project pre).data
        rw [hres, dirnameL_append
            (u.synapse_project.data ++ '/' :: pre.data) name.data hnd2
            (by simp)
            (by rw [getLast?_append_cons, getLast?_cons_ne '/' _ hpre1]
                exact hpre3),
          osJoin2_data_sep _ _ hpre2 hp1 hplast]
      rw [hdir]
      exact hinv.2.1 pre hrem
  · -- a child below at least one walked segment
    have hMfacts := map_data_facts segs hsegs
    have hMne : segs.map String.data ≠ [] := by
      intro he
      exact hsegs0 (List.map_eq_nil_iff.mp he)
    obtain ⟨hj1, hj2, hj3, hj4⟩ :=
      joinSegsL_shape (segs.map String.data) hMfacts hMne
    have hpd := pathOf_data u.local_path segs hsegs0
    have hchild : (pathOf u.local_path segs ++ "/" ++ name).data
        = (u.local_path.data ++ ['/'])
          ++ (joinSegsL (segs.map String.data) ++ '/' :: name.data) := by
      rw [append_seg_data, hpd, List.append_assoc]
    have hXdata : (pyReplaceEmpty (pathOf u.local_path segs ++ "/" ++ name)
        (u.local_path ++ "/")).data
        = repL (u.local_path.data ++ ['/'])
            (joinSegsL (segs.map String.data) ++ '/' :: name.data) := by
      show repL (u.local_path ++ "/").data
        (pathOf u.local_path segs ++ "/" ++ name).data = _
      rw [local_pat_data, hchild, repL_prefix _ _ hpatne]
    have hin_ne : joinSegsL (segs.map String.data) ++ '/' :: name.data ≠ [] := by
      simp
    have hin_h : (joinSegsL (segs.map String.data)
        ++ '/' :: name.data).head? ≠ some '/' := by
      rw [List.head?_append_of_ne_nil _ hj1]
      exact hj2
    have hin_l : (joinSegsL (segs.map String.data)
        ++ '/' :: name.data).getLast? ≠ some '/' := by
      rw [getLast?_append_cons, getLast?_cons_ne '/' _ hnd1]
      exact getLast?_ne_of_not_mem _ hnd2
    have hnds_tail : noDSB ('/' :: name.data) = true := by
      show noDSB (['/'] ++ name.data) = true
      apply noDSB_append ['/'] name.data rfl (noDSB_of_no_slash _ hnd2)
      intro _
      exact head?_ne_of_not_mem _ hnd2
    have hin_nds : noDSB (joinSegsL (segs.map String.data)
        ++ '/' :: name.data) = true := by
      apply noDSB_append _ _ hj4 hnds_tail
      intro hg
      exact absurd hg hj3
    have hXfacts := repL_getLast (u.local_path.data ++ ['/']) hpatne hpatlast
      (joinSegsL (segs.map String.data) ++ '/' :: name.data).length
      (joinSegsL (segs.map String.data) ++ '/' :: name.data)
      (Nat.le_refl _) hin_ne hin_l
    have hXh := repL_head (u.local_path.data ++ ['/']) hpatne hpatlast
      (joinSegsL (segs.map String.data) ++ '/' :: name.data).length
      (joinSegsL (segs.map String.data) ++ '/' :: name.data)
      (Nat.le_refl _) hin_nds hin_h
    have hMlen : 1 ≤ (segs.map String.data).length := by
      cases hms : segs.map String.data with
      | nil => exact absurd hms hMne
      | cons a l => simp
    have htkl : (segs.map String.data).take (segs.map String.data).length
        = segs.map String.data := List.take_length _
    rcases repL_seg_structure u.local_path.data hroot1
        (segs.map String.data) hMfacts
        (joinSegsL ((segs.map String.data).take
          (segs.map String.data).length)).length
        (segs.map String.data).length name.data hMlen (Nat.le_refl _) hnd2
        (Nat.le_refl _)
      with hflat | ⟨i, tail2, hi1, hi2, htl2, heq⟩
    · -- no separator survives: the parent is the base key
      rw [htkl] at hflat
      rcases hrem : u.remote_path with _ | pre
      · have hres := resolve_data_none u hrem hp1 hp2
          (pathOf u.local_path segs ++ "/" ++ name) _ hXdata hXh
        have hdir : dirnameS (u.get_synapse_path
            (pathOf u.local_path segs ++ "/" ++ name) false)
            = u.synapse_project := by
          apply String.ext
          show dirnameL (u.get_synapse_path
            (pathOf u.local_path segs ++ "/" ++ name) false).data
            = u.synapse_project.data
          rw [hres]
          exact dirnameL_append _ _ hflat hp1 hplast
        rw [hdir]
        exact hinv.1
      · obtain ⟨hpre1, hpre2, hpre3⟩ := hpre pre hrem
        have hres := resolve_data_some u pre hrem hp1 hp2 hpre1 hpre2 hpre3
          (pathOf u.local_path segs ++ "/" ++ name) _ hXdata hXh
        have hdir : dirnameS (u.get_synapse_path
            (pathOf u.local_path segs ++ "/" ++ name) false)
            = osJoin2 u.synapse_project pre := by
          apply String.ext
          show dirnameL (u.get_synapse_path
            (pathOf u.local_path segs ++ "/" ++ name) false).data
            = (osJoin2 u.synapse_project pre).data
          rw [hres, dirnameL_append
              (u.synapse_project.data ++ '/' :: pre.data)
              (repL (u.local_path.data ++ ['/'])
                (joinSegsL (segs.map String.data) ++ '/' :: name.data))
              hflat (by simp)
              (by rw [getLast?_append_cons, getLast?_cons_ne '/' _ hpre1]
                  exact hpre3),
            osJoin2_data_sep _ _ hpre2 hp1 hplast]
        rw [hdir]
        exact hinv.2.1 pre hrem
    · -- a separator survives: the parent is a visited ancestor
      rw [htkl] at heq
      rw [heq] at hXdata hXh
      have htakene : (segs.map String.data).take i ≠ [] := by
        rw [Ne, List.take_eq_nil_iff]
        push_neg
        exact ⟨by omega, hMne⟩
      obtain ⟨hw1, hw2, hw3, hw4⟩ := joinSegsL_shape
        ((segs.map String.data).take i)
        (fun m hm => hMfacts m (List.take_subset i _ hm)) htakene
      have hWfacts := repL_getLast (u.local_path.data ++ ['/']) hpatne hpatlast
        (joinSegsL ((segs.map String.data).take i)).length
        (joinSegsL ((segs.map String.data).take i))
        (Nat.le_refl _) hw1 hw3
      have hWne := hWfacts.1
      have hWl : (repL (u.local_path.data ++ ['/'])
          (joinSegsL ((segs.map String.data).take i))).getLast?
          ≠ some '/' := by
        rw [hWfacts.2]
        exact hw3
      have hWh := repL_head (u.local_path.data ++ ['/']) hpatne hpatlast
        (joinSegsL ((segs.map String.data).take i)).length
        (joinSegsL ((segs.map String.data).take i))
        (Nat.le_refl _) hw4 hw2
      have hsegtne : segs.take i ≠ [] := by
        rw [Ne, List.take_eq_nil_iff]
        push_neg
        exact ⟨by omega, hsegs0⟩
      have hanc_mem : pathOf u.local_path (segs.take i) ∈ seen := by
        apply hanc i
        rw [List.length_map] at hi2
        exact hi2
      have hanc_ne : pathOf u.local_path (segs.take i) ≠ u.local_path :=
        pathOf_ne_root u.local_path (segs.take i) hsegtne
      have hkey := hinv.2.2 (pathOf u.local_path (segs.take i))
        hanc_mem hanc_ne
      have hWdata : (pyReplaceEmpty (pathOf u.local_path (segs.take i))
          (u.local_path ++ "/")).data
          = repL (u.local_path.data ++ ['/'])
              (joinSegsL ((segs.map String.data).take i)) := by
        show repL (u.local_path ++ "/").data
          (pathOf u.local_path (segs.take i)).data = _
        rw [local_pat_data, pathOf_data u.local_path (segs.take i) hsegtne,
          repL_prefix _ _ hpatne, List.map_take]
      rcases hrem : u.remote_path with _ | pre
      · have hresA := resolve_data_none u hrem hp1 hp2
          (pathOf u.local_path (segs.take i)) _ hWdata hWh
        have hresC := resolve_data_none u hrem hp1 hp2
          (pathOf u.local_path segs ++ "/" ++ name) _ hXdata hXh
        have hdir : dirnameS (u.get_synapse_path
            (pathOf u.local_path segs ++ "/" ++ name) false)
            = u.get_synapse_path (pathOf u.local_path (segs.take i)) false := by
          apply String.ext
          show dirnameL (u.get_synapse_path
            (pathOf u.local_path segs ++ "/" ++ name) false).data
            = (u.get_synapse_path (pathOf u.local_path (segs.take i)) false).data
          rw [hresC, hresA,
            show u.synapse_project.data
                ++ '/' :: (repL (u.local_path.data ++ ['/'])
                  (joinSegsL ((segs.map String.data).take i)) ++ '/' :: tail2)
              = (u.synapse_project.data
                  ++ '/' :: repL (u.local_path.data ++ ['/'])
                    (joinSegsL ((segs.map String.data).take i)))
                ++ '/' :: tail2 by simp [List.append_assoc]]
          exact dirnameL_append
            (u.synapse_project.data
              ++ '/' :: repL (u.local_path.data ++ ['/'])
                (joinSegsL ((segs.map String.data).take i)))
            tail2 htl2 (by simp)
            (by rw [getLast?_append_cons, getLast?_cons_ne '/' _ hWne]
                exact hWl)
        rw [hdir]
        exact hkey
      · obtain ⟨hpre1, hpre2, hpre3⟩ := hpre pre hrem
        have hresA := resolve_data_some u pre hrem hp1 hp2 hpre1 hpre2 hpre3
          (pathOf u.local_path (segs.take i)) _ hWdata hWh
        have hresC := resolve_data_some u pre hrem hp1 hp2 hpre1 hpre2 hpre3
          (pathOf u.local_path segs ++ "/" ++ name) _ hXdata hXh
        have hdir : dirnameS (u.get_synapse_path
            (pathOf u.local_path segs ++ "/" ++ name) false)
            = u.get_synapse_path (pathOf u.local_path (segs.take i)) false := by
          apply String.ext
          show dirnameL (u.get_synapse_path
            (pathOf u.local_path segs ++ "/" ++ name) false).data
            = (u.get_synapse_path (pathOf u.local_path (segs.take i)) false).data
          rw [hresC, hresA,
            show (u.synapse_project.data ++ '/' :: pre.data)
                ++ '/' :: (repL (u.local_path.data ++ ['/'])
                  (joinSegsL ((segs.map String.data).take i)) ++ '/' :: tail2)
              = ((u.synapse_project.data ++ '/' :: pre.data)
                  ++ '/' :: repL (u.local_path.data ++ ['/'])
                    (joinSegsL ((segs.map String.data).take i)))
                ++ '/' :: tail2 by simp [List.append_assoc]]
          exact dirnameL_append
            ((u.synapse_project.data ++ '/' :: pre.data)
              ++ '/' :: repL (u.local_path.data ++ ['/'])
                (joinSegsL ((segs.map String.data).take i)))
            tail2 htl2 (by simp)
            (by rw [getLast?_append_cons, getLast?_cons_ne '/' _ hWne]
                exact hWl)
        rw [hdir]
        exact hkey

/-! ### The walk preserves the cache invariant -/

theorem lookupFolder_congr (st st' : RunState)
    (h : st'.folders = st.folders) (k : String) :
    lookupFolder st' k = lookupFolder st k := by
  unfold lookupFolder
  rw [h]

theorem walkInv_of_folders_eq (u : Uploader) (st st' : RunState)
    (seen : List String) (h : st'.folders = st.folders)
    (hinv : walkInv u st seen) : walkInv u st' seen := by
  obtain ⟨h1, h2, h3⟩ := hinv
  refine ⟨?_, ?_, ?_⟩
  · rw [lookupFolder_congr st st' h]
    exact h1
  · intro pre hr
    rw [lookupFolder_congr st st' h]
    exact h2 pre hr
  · intro x hx hne
    rw [lookupFolder_congr st st' h]
    exact h3 x hx hne

theorem walkInv_ext (u : Uploader) (st st' : RunState) (seen : List String)
    (hext : ∃ nw, st'.folders = nw ++ st.folders)
    (hinv : walkInv u st seen) : walkInv u st' seen := by
  obtain ⟨h1, h2, h3⟩ := hinv
  exact ⟨lookupFolder_ext_mono st st' _ hext h1,
    fun pre hr => lookupFolder_ext_mono st st' _ hext (h2 pre hr),
    fun x hx hne => lookupFolder_ext_mono st st' _ hext (h3 x hx hne)⟩

theorem upload_ok (u : Uploader) (st : RunState) (f : String)
    (h : lookupFolder st (dirnameS (u.get_synapse_path f false)) ≠ none) :
    (u.upload_file_to_synapse st f).2 = true := by
  unfold Uploader.upload_file_to_synapse
  simp only [lookupFolder_addLog]
  cases hl : lookupFolder st (dirnameS (u.get_synapse_path f false)) with
  | none => exact absurd hl h
  | some parent => cases hdry : u.dry_run <;> simp [hdry]

/-- Uploading the files of a visited directory succeeds: every parent
lookup is answered by the invariant, and the folder cache is untouched. -/
theorem processFiles_inv_ok (u : Uploader)
    (hp1 : u.synapse_project.data ≠ []) (hp2 : '/' ∉ u.synapse_project.data)
    (hroot1 : u.local_path.data ≠ [])
    (hroot2 : u.local_path.data.getLast? ≠ some '/')
    (hpre : ∀ pre, u.remote_path = some pre →
      pre.data ≠ [] ∧ pre.data.head? ≠ some '/' ∧
      pre.data.getLast? ≠ some '/')
    (seen : List String)
    (segs : List String) (hsegs : ∀ s ∈ segs, validSegL s.data = true)
    (hanc : ∀ i, i ≤ segs.length → pathOf u.local_path (segs.take i) ∈ seen)
    (d : String) (hd : d = pathOf u.local_path segs) :
    ∀ (fs : List String) (st : RunState), walkInv u st seen →
      (∀ f ∈ fs, validSegL f.data = true) →
      (u.processFiles d fs st).2 = true := by
  subst hd
  intro fs
  induction fs with
  | nil =>
    intro st _ _
    rfl
  | cons f fs ih =>
    intro st hinv hfs
    have hf := hfs f (by simp)
    obtain ⟨hf1, hf2⟩ := validSegL_facts f.data hf
    have hshape := pathOf_shape u.local_path hroot1 hroot2 segs hsegs
    have hjoin : osJoin2 (pathOf u.local_path segs) f
        = pathOf u.local_path segs ++ "/" ++ f :=
      osJoin2_eq_append _ _ hshape.1 hshape.2 (head?_ne_of_not_mem _ hf2)
    rw [processFiles_cons, hjoin]
    have hlk := child_parent_cached u hp1 hp2 hroot1 hroot2 hpre st seen hinv
      segs hsegs hanc f hf
    have hok := upload_ok u st (pathOf u.local_path segs ++ "/" ++ f) hlk
    rcases hup : u.upload_file_to_synapse st
      (pathOf u.local_path segs ++ "/" ++ f) with ⟨st1, b1⟩
    rw [hup] at hok
    have hb : b1 = true := hok
    subst hb
    simp only [andThen_true]
    have hfold : st1.folders = st.folders := by
      have hq := upload_file_folders u st (pathOf u.local_path segs ++ "/" ++ f)
      rw [hup] at hq
      exact hq
    exact ih st1 (walkInv_of_folders_eq u st st1 seen hfold hinv)
      (fun g hg => hfs g (by simp [hg]))

theorem seenGood_cons (root d : String) (seen : List String)
    (hold : seenGood root seen)
    (segs : List String) (hv : ∀ s ∈ segs, validSegL s.data = true)
    (hde : d = pathOf root segs)
    (hmem : ∀ i, i ≤ segs.length → pathOf root (segs.take i) ∈ d :: seen) :
    seenGood root (d :: seen) := by
  intro x hx
  rcases List.mem_cons.mp hx with hx | hx
  · subst hx
    exact ⟨segs, hv, hde, hmem⟩
  · obtain ⟨s2, a1, a2, a3⟩ := hold x hx
    exact ⟨s2, a1, a2, fun i hi => List.mem_cons_of_mem d (a3 i hi)⟩

/-- The walk loop never hits a missing parent key: with the invariant
established and a well-formed remaining walk, every folder creation and
every file upload finds its parent in the cache and the loop returns
successfully. -/
theorem processWalk_inv_ok (u : Uploader)
    (hp1 : u.synapse_project.data ≠ []) (hp2 : '/' ∉ u.synapse_project.data)
    (hroot1 : u.local_path.data ≠ [])
    (hroot2 : u.local_path.data.getLast? ≠ some '/')
    (hpre : ∀ pre, u.remote_path = some pre →
      pre.data ≠ [] ∧ pre.data.head? ≠ some '/' ∧
      pre.data.getLast? ≠ some '/') :
    ∀ (w : List (String × List String)) (seen : List String) (st : RunState),
      wfFrom seen w = true → walkInv u st seen →
      seenGood u.local_path seen →
      (u.processWalk w st).2 = true := by
  intro w
  induction w with
  | nil =>
    intro seen st _ _ _
    rfl
  | cons e rest ih =>
    intro seen st hwf hinv hgood
    rcases e with ⟨d, fs⟩
    unfold wfFrom at hwf
    rw [Bool.and_eq_true, Bool.and_eq_true] at hwf
    obtain ⟨⟨hstep, hfsv⟩, hwrest⟩ := hwf
    have hfs : ∀ f ∈ fs, validSegL f.data = true :=
      fun f hf => List.all_eq_true.mp hfsv f hf
    have hpw : u.processWalk ((d, fs) :: rest) st
        = andThen (if d = u.local_path then (st, true)
                   else u.create_directory_in_synapse st d false)
          (fun st1 =>
            andThen (u.processFiles d fs st1)
              (fun st2 => u.processWalk rest st2)) := rfl
    rw [hpw]
    by_cases hd : d = u.local_path
    · rw [if_pos hd]
      simp only [andThen_true]
      have hinv1 : walkInv u st (d :: seen) := by
        obtain ⟨i1, i2, i3⟩ := hinv
        refine ⟨i1, i2, ?_⟩
        intro x hx hxne
        rcases List.mem_cons.mp hx with hx | hx
        · exact absurd (hx.trans hd) hxne
        · exact i3 x hx hxne
      have hanc0 : ∀ i, i ≤ ([] : List String).length
          → pathOf u.local_path (([] : List String).take i) ∈ d :: seen := by
        intro i hi
        have hi0 : i = 0 := Nat.le_zero.mp hi
        subst hi0
        show u.local_path ∈ d :: seen
        rw [← hd]
        exact List.mem_cons_self d seen
      have hgood1 : seenGood u.local_path (d :: seen) := by
        apply seenGood_cons u.local_path d seen hgood [] (by simp)
          (hd.trans (rfl : u.local_path = pathOf u.local_path []))
        exact hanc0
      have hpf := processFiles_inv_ok u hp1 hp2 hroot1 hroot2 hpre
        (d :: seen) [] (by simp) hanc0 d
        (hd.trans (rfl : u.local_path = pathOf u.local_path []))
        fs st hinv1 hfs
      rcases hpfe : u.processFiles d fs st with ⟨st2, b2⟩
      rw [hpfe] at hpf
      have hb2 : b2 = true := hpf
      subst hb2
      simp only [andThen_true]
      have hfold2 : st2.folders = st.folders := by
        have hq := processFiles_folders u d fs st
        rw [hpfe] at hq
        exact hq
      exact ih (d :: seen) st2 hwrest
        (walkInv_of_folders_eq u st st2 _ hfold2 hinv1) hgood1
    · rw [if_neg hd]
      unfold wfStep at hstep
      obtain ⟨q, hqseen, hq⟩ := List.any_eq_true.mp hstep
      rw [Bool.and_eq_true] at hq
      obtain ⟨hq1, hq2⟩ := hq
      obtain ⟨qsegs, hqv, hqe, hqmem⟩ := hgood q hqseen
      rcases List.isPrefixOf_iff_prefix.mp hq1 with ⟨tl, htl⟩
      have htl2 : d.data.drop (q.data.length + 1) = tl := by
        rw [← htl]
        have hqlen : (q ++ "/").data.length = q.data.length + 1 := by
          rw [String.data_append]
          simp
        rw [← hqlen, List.drop_left]
      have hdeq : d = q ++ "/" ++ (⟨tl⟩ : String) := by
        apply String.ext
        rw [append_seg_data, ← htl, String.data_append,
          show "/".data = ['/'] from rfl, List.append_assoc]
        rfl
      have hsv : validSegL (⟨tl⟩ : String).data = true := by
        show validSegL tl = true
        rw [← htl2]
        exact hq2
      have hdpath : d = pathOf u.local_path (qsegs ++ [(⟨tl⟩ : String)]) := by
        rw [pathOf_snoc, ← hqe]
        exact hdeq
      have hlk : lookupFolder st
          (dirnameS (u.get_synapse_path d false)) ≠ none := by
        rw [hdeq, hqe]
        exact child_parent_cached u hp1 hp2 hroot1 hroot2 hpre st seen hinv
          qsegs hqv hqmem (⟨tl⟩ : String) hsv
      obtain ⟨hok, _, hself⟩ := create_dir_ok u st d false hlk
      rcases hcr : u.create_directory_in_synapse st d false with ⟨st1, b1⟩
      rw [hcr] at hok hself
      have hb1 : b1 = true := hok
      subst hb1
      simp only [andThen_true]
      have hext : ∃ nw, st1.folders = nw ++ st.folders := by
        have hq3 := create_dir_folders_ext u st d false
        rw [hcr] at hq3
        exact hq3
      have hinv1 : walkInv u st1 (d :: seen) := by
        obtain ⟨i1, i2, i3⟩ := walkInv_ext u st st1 seen hext hinv
        refine ⟨i1, i2, ?_⟩
        intro x hx hxne
        rcases List.mem_cons.mp hx with hx | hx
        · subst hx
          exact hself
        · exact i3 x hx hxne
      have hvapp : ∀ s ∈ qsegs ++ [(⟨tl⟩ : String)], validSegL s.data = true := by
        intro s hs
        rcases List.mem_append.mp hs with hs | hs
        · exact hqv s hs
        · simp at hs
          subst hs
          exact hsv
      have hmem2 : ∀ i, i ≤ (qsegs ++ [(⟨tl⟩ : String)]).length →
          pathOf u.local_path ((qsegs ++ [(⟨tl⟩ : String)]).take i)
            ∈ d :: seen := by
        intro i hi
        rw [List.length_append, List.length_singleton] at hi
        by_cases hile : i ≤ qsegs.length
        · rw [List.take_append_of_le_length hile]
          exact List.mem_cons_of_mem d (hqmem i hile)
        · have hieq : i = qsegs.length + 1 := by omega
          subst hieq
          rw [List.take_of_length_le (by simp)]
          rw [← hdpath]
          exact List.mem_cons_self _ _
      have hgood1 : seenGood u.local_path (d :: seen) :=
        seenGood_cons u.local_path d seen hgood
          (qsegs ++ [(⟨tl⟩ : String)]) hvapp hdpath hmem2
      have hpf := processFiles_inv_ok u hp1 hp2 hroot1 hroot2 hpre
        (d :: seen) (qsegs ++ [(⟨tl⟩ : String)]) hvapp hmem2 d hdpath
        fs st1 hinv1 hfs
      rcases hpfe : u.processFiles d fs st1 with ⟨st2, b2⟩
      rw [hpfe] at hpf
      have hb2 : b2 = true := hpf
      subst hb2
      simp only [andThen_true]
      have hfold2 : st2.folders = st1.folders := by
        have hq4 := processFiles_folders u d fs st1
        rw [hpfe] at hq4
        exact hq4
      exact ih (d :: seen) st2 hwrest
        (walkInv_of_folders_eq u st1 st2 _ hfold2 hinv1) hgood1

/-- Counterexample to C2 as stated: a well-formed one-file walk of root
`/r`, with the remote prefix `a//b` containing a doubled separator.  The
prefix phase caches the key `syn1/a/b` (empty segments are filtered), but
the file's parent key is computed with `os.path.join` as `syn1/a//b`, the
lookup raises `KeyError` and the run aborts right after printing the
file's `Processing File` line. -/
theorem claim_C2_counterexample :
    wfWalk "/r" [("/r", ["f"])] = true ∧
    ((init "syn1" "/r" (some "a//b") false).start
        [("SYNAPSE_USER", "u"), ("SYNAPSE_PASSWORD", "p")]
        [("/r", ["f"])]).2 = false ∧
    ((init "syn1" "/r" (some "a//b") false).start
        [("SYNAPSE_USER", "u"), ("SYNAPSE_PASSWORD", "p")]
        [("/r", ["f"])]).1.log.getLast? = some (fileLine "/r/f") := by
  refine ⟨by decide, by decide, by decide⟩

/-- C2 (amended): on a well-formed `os.walk` output for the local root,
with a non-empty separator-free project id, credentials present, and a
remote prefix (if any) that is normalised and free of doubled separators
(re-joining its non-empty segments reproduces it), every parent-key
lookup done by `create_directory_in_synapse` and `upload_file_to_synapse`
finds its key already in the folder cache — the project root is inserted
first and directories are visited parent before child — so the run never
raises `KeyError` and `start` completes successfully. -/
theorem claim_C2_cache_invariant (u : Uploader) (env : List (String × String))
    (walk : List (String × List String))
    (hw : wfWalk u.local_path walk = true)
    (hp1 : u.synapse_project.data ≠ []) (hp2 : '/' ∉ u.synapse_project.data)
    (hpre : ∀ pre, u.remote_path = some pre →
      pre.data ≠ [] ∧ pre.data.head? ≠ some '/' ∧
      pre.data.getLast? ≠ some '/' ∧ joinAll (segsOf pre) = pre)
    (he1 : envLookup env "SYNAPSE_USER" ≠ none)
    (he2 : envLookup env "SYNAPSE_PASSWORD" ≠ none) :
    (u.start env walk).2 = true := by
  have hpre3 : ∀ pre, u.remote_path = some pre →
      pre.data ≠ [] ∧ pre.data.head? ≠ some '/' ∧
      pre.data.getLast? ≠ some '/' :=
    fun pre hr => ⟨(hpre pre hr).1, (hpre pre hr).2.1, (hpre pre hr).2.2.1⟩
  unfold Uploader.start Uploader.runMain
  rcases hl : u.login env u.headerState with ⟨st5, b5⟩
  have hb5 : b5 = true := by
    have hq := login_ok u env u.headerState he1 he2
    rw [hl] at hq
    exact hq
  subst hb5
  simp only [andThen_true]
  have hproj : lookupFolder (u.afterProject st5) u.synapse_project ≠ none := by
    unfold Uploader.afterProject
    rw [lookupFolder_setFolder_self]
    simp
  rcases hc : u.createRemotePath (u.afterProject st5) with ⟨st8, b8⟩
  have hphase : b8 = true ∧ walkInv u st8 [u.local_path] := by
    rcases hrm : u.remote_path with _ | pre
    · have hnone := createRemotePath_none u hrm (u.afterProject st5)
      rw [hnone] at hc
      cases hc
      refine ⟨rfl, hproj, ?_, ?_⟩
      · intro pre hr
        rw [hrm] at hr
        cases hr
      · intro x hx hxne
        rcases List.mem_cons.mp hx with hx | hx
        · exact absurd hx hxne
        · cases hx
    · obtain ⟨hpre1, hpre2, hpre3x, hpre4⟩ := hpre pre hrm
      have hkey0 : lookupFolder (u.afterProject st5)
          (if ([] : List String) = [] then u.synapse_project
           else osJoin2 u.synapse_project (joinAll [])) ≠ none := by
        rw [if_pos rfl]
        exact hproj
      obtain ⟨vok, _, vkeys⟩ :=
        virtual_loop u hp1 hp2 (segsOf pre) [] (u.afterProject st5)
          (segsOf_valid pre) (by simp) hkey0
      have hcrp : u.createRemotePath (u.afterProject st5)
          = u.createVirtualFolders (segsOf pre) (joinAll [])
              (u.afterProject st5) := by
        unfold Uploader.createRemotePath
        rw [hrm]
        rfl
      rw [hcrp] at hc
      rw [hc] at vok vkeys
      have hb8 : b8 = true := vok
      subst hb8
      refine ⟨rfl, ?_, ?_, ?_⟩
      · apply lookupFolder_ext_mono (u.afterProject st5) st8 _ ?_ hproj
        have hve := virtual_folders_ext u (segsOf pre) (joinAll [])
          (u.afterProject st5)
        rw [hc] at hve
        exact hve
      · intro pre2 hr2
        rw [hrm] at hr2
        have hpe : pre2 = pre := (Option.some.inj hr2).symm
        rw [hpe]
        have hlen : segsOf pre ≠ [] := by
          intro he
          apply hpre1
          rw [← hpre4, he]
          rfl
        have hlpos : 0 < (segsOf pre).length := List.length_pos.mpr hlen
        have hlast := vkeys ((segsOf pre).length - 1) (by omega)
        have htk : (segsOf pre).take ((segsOf pre).length - 1 + 1)
            = segsOf pre := by
          rw [show (segsOf pre).length - 1 + 1 = (segsOf pre).length by omega,
            List.take_length]
        rw [List.nil_append, htk, hpre4] at hlast
        exact hlast
      · intro x hx hxne
        rcases List.mem_cons.mp hx with hx | hx
        · exact absurd hx hxne
        · cases hx
  obtain ⟨hb8, hinv8⟩ := hphase
  subst hb8
  simp only [andThen_true]
  rcases hwk : u.processWalk walk st8 with ⟨st9, b9⟩
  have hb9 : b9 = true := by
    cases walk with
    | nil =>
      rw [processWalk_nil] at hwk
      cases hwk
      rfl
    | cons e rest =>
      rcases e with ⟨d0, fs0⟩
      unfold wfWalk at hw
      rw [Bool.and_eq_true, Bool.and_eq_true, Bool.and_eq_true,
        Bool.and_eq_true] at hw
      obtain ⟨⟨⟨⟨hwe, hwl⟩, hwd⟩, hwf0⟩, hwrest⟩ := hw
      have hroot1 : u.local_path.data ≠ [] := by
        intro he
        rw [he] at hwe
        simp at hwe
      have hroot2 : u.local_path.data.getLast? ≠ some '/' :=
        of_decide_eq_true hwl
      have hd0 : d0 = u.local_path := of_decide_eq_true hwd
      have hfs0 : ∀ f ∈ fs0, validSegL f.data = true :=
        fun f hf => List.all_eq_true.mp hwf0 f hf
      have hpw : u.processWalk ((d0, fs0) :: rest) st8
          = andThen (if d0 = u.local_path then (st8, true)
                     else u.create_directory_in_synapse st8 d0 false)
            (fun st1 => andThen (u.processFiles d0 fs0 st1)
              (fun st2 => u.processWalk rest st2)) := rfl
      rw [hpw, if_pos hd0] at hwk
      simp only [andThen_true] at hwk
      have hanc0 : ∀ i, i ≤ ([] : List String).length →
          pathOf u.local_path (([] : List String).take i)
            ∈ [u.local_path] := by
        intro i hi
        have hi0 : i = 0 := Nat.le_zero.mp hi
        subst hi0
        show u.local_path ∈ [u.local_path]
        exact List.mem_cons_self _ _
      have hpf := processFiles_inv_ok u hp1 hp2 hroot1 hroot2 hpre3
        [u.local_path] [] (by simp) hanc0 d0
        (hd0.trans (rfl : u.local_path = pathOf u.local_path []))
        fs0 st8 hinv8 hfs0
      rcases hpfe : u.processFiles d0 fs0 st8 with ⟨st2, b2⟩
      rw [hpfe] at hpf hwk
      have hb2 : b2 = true := hpf
      subst hb2
      simp only [andThen_true] at hwk
      have hfold2 : st2.folders = st8.folders := by
        have hq := processFiles_folders u d0 fs0 st8
        rw [hpfe] at hq
        exact hq
      have hgood0 : seenGood u.local_path [u.local_path] := by
        intro x hx
        rcases List.mem_cons.mp hx with hx | hx
        · subst hx
          refine ⟨[], by simp, rfl, ?_⟩
          intro i hi
          have hi0 : i = 0 := Nat.le_zero.mp hi
          subst hi0
          show u.local_path ∈ [u.local_path]
          exact List.mem_cons_self _ _
        · cases hx
      have hrest := processWalk_inv_ok u hp1 hp2 hroot1 hroot2 hpre3
        rest [u.local_path] st2 hwrest
        (walkInv_of_folders_eq u st8 st2 _ hfold2 hinv8) hgood0
      rw [hwk] at hrest
      exact hrest
  subst hb9
  simp only [andThen_true]
  unfold Uploader.finishLine
  rfl

/-- Witness for the amended C2: a two-level tree with the remote prefix
`a/b` completes successfully. -/
theorem claim_C2_witness :
    wfWalk (init "syn9" "/data" (some "a/b") false).local_path
        [("/data", ["x.txt"]), ("/data/sub", ["y.txt"])] = true ∧
    ((init "syn9" "/data" (some "a/b") false).start
        [("SYNAPSE_USER", "u"), ("SYNAPSE_PASSWORD", "p")]
        [("/data", ["x.txt"]), ("/data/sub", ["y.txt"])]).2 = true := by
  refine ⟨by decide, ?_⟩
  apply claim_C2_cache_invariant
  · decide
  · decide
  · decide
  · intro pre hr
    have hpe : pre = "a/b" := by
      have h0 : (init "syn9" "/data" (some "a/b") false).remote_path
          = some "a/b" := by decide
      rw [h0] at hr
      exact (Option.some.inj hr).symm
    subst hpe
    exact ⟨by decide, by decide, by decide, by decide⟩
  · decide
  · decide

end SynapseUploader
